import Mathlib

/-! Positional diff engine of `file-content-difference-finder`.

A shallow embedding of `diff_finder/finder.go`, `diff_finder/models.go` and
`diff_finder/file_info.go`.

* A Go `string` is a finite sequence of bytes: `GoString := List (Fin 256)`.
* Go's `int` is 64 bits wide.  The rolling hash works on `Int` with Go's truncated
  remainder (`Int.tmod`); every intermediate value stays below `2 ^ 39` in absolute
  value, so no wrap-around occurs there.  The version arithmetic of
  `ValidateVersion` can wrap and is modelled with an explicit `wrap64`.
* An index or slice expression out of range panics in Go; here it yields `none`.
* `for` loops are folds over the list of values taken by the loop variable.
-/

namespace DiffFinder

/-- A Go string: an immutable sequence of bytes. -/
abbrev GoString := List (Fin 256)

/-! ## Constants (`finder.go`, lines 8-13) -/

def base : Int := 256
def mod : Int := 1000000007
def widerWindowRange : Nat := 8
def narrowWindowRange : Nat := 2

/-! ## Data model (`models.go`) -/

structure Range where
  start : Nat
  «end» : Nat
deriving DecidableEq, Repr

abbrev ChangeTypes := String

def ChangeTypesUpdated : ChangeTypes := "UPDATED"
def ChangeTypesRemoved : ChangeTypes := "REMOVED"
def ChangeTypesAdded : ChangeTypes := "ADDED"

structure UpdatedIndex where
  OldValue : GoString
  NewValue : GoString
  Index : Nat
  «Type» : ChangeTypes
deriving DecidableEq, Repr

/-! ## Baseline holder (`file_info.go`) -/

structure FileInfo where
  fileText : GoString
  version : Int
deriving DecidableEq, Repr

structure FileDiffFinder where
  originalFileInfo : FileInfo
deriving DecidableEq, Repr

def FileInfo.Version (rhs : FileInfo) : Int := rhs.version

def FileInfo.Content (rhs : FileInfo) : GoString := rhs.fileText

/-- Two's-complement reduction of an integer into the range of a 64-bit Go `int`. -/
def wrap64 (x : Int) : Int := (x + 2 ^ 63) % 2 ^ 64 - 2 ^ 63

/-- The method `FileInfo.ValidateVersion`: `none` is Go's `nil` error, `some msg` an error
with message `msg`. -/
def FileInfo.ValidateVersion (rhs : FileInfo) (version : Int) : Option String :=
  if version ≤ rhs.version then
    some ("newer version should be used. Current version is " ++ toString rhs.version)
  else if version > wrap64 (rhs.version + 1) then
    some ("the latest version is " ++ toString rhs.version ++ ". " ++
      "Please use incremental number for versioning of file info.")
  else
    none

def FileDiffFinder.Version (rhs : FileDiffFinder) : Int := rhs.originalFileInfo.Version

def FileDiffFinder.Content (rhs : FileDiffFinder) : GoString := rhs.originalFileInfo.Content

def FileDiffFinder.ValidateVersion (rhs : FileDiffFinder) (version : Int) : Option String :=
  rhs.originalFileInfo.ValidateVersion version

/-! ## Go primitives -/

/-- The slice expression `s[lo:hi]`; it panics unless `lo ≤ hi ≤ len(s)`. -/
def slice (s : GoString) (lo hi : Nat) : Option GoString :=
  if lo ≤ hi ∧ hi ≤ s.length then some ((s.drop lo).take (hi - lo)) else none

/-- The call `fmt.Sprintf("%c", b)` for a byte `b`: the UTF-8 encoding of the code point
`b`, one byte below `0x80` and two bytes from `0x80` on. -/
def sprintfC (b : Fin 256) : GoString :=
  if b.val < 128 then [b]
  else [⟨192 + b.val / 64, by omega⟩, ⟨128 + b.val % 64, by omega⟩]

/-! ## Hash engine (`finder.go`, lines 76-106) -/

/-- One iteration of the loop of `hash`. -/
def hashStep (str : GoString) (hash : Int) (i : Nat) : Option Int := do
  let c ← str[i]?
  pure ((hash * base + (c.val : Int)).tmod mod)

def hash (str : GoString) (windowSize : Nat) : Option Int :=
  (List.range windowSize).foldlM (hashStep str) 0

/-- One iteration of the loop filling `power` in `applyRollingHash`:
`power[i] = (power[i-1] * base) % mod`. -/
def powerStep (power : List Int) (i : Nat) : Option (List Int) := do
  let prev ← if i = 0 then none else power[i - 1]?
  if i < power.length then pure (power.set i ((prev * base).tmod mod)) else none

/-- The table `power` of `applyRollingHash`: `make([]int, n+1)`, `power[0] = 1`, then the
loop `for i := 1; i <= n; i++`. -/
def powerTable (n : Nat) : Option (List Int) :=
  (List.range' 1 n).foldlM powerStep ((List.replicate (n + 1) (0 : Int)).set 0 1)

/-- One iteration of the rolling loop of `applyRollingHash`; the state is
`(currentHash, hashValues)`. -/
def rollStep (s : GoString) (windowSize : Nat) (power : List Int)
    (st : Int × List Int) (i : Nat) : Option (Int × List Int) := do
  let p ← if windowSize = 0 then none else power[windowSize - 1]?
  let out ← if i = 0 then none else s[i - 1]?
  let h1 := (st.1 - p * (out.val : Int)).tmod mod
  let inc ← if i + windowSize = 0 then none else s[i + windowSize - 1]?
  let h2 := (h1 * base + (inc.val : Int)).tmod mod
  pure (h2, st.2 ++ [h2])

def applyRollingHash (s : GoString) (windowSize : Nat) : Option (List Int) := do
  let n := s.length
  let power ← powerTable n
  let first ← slice s 0 windowSize
  let currentHash ← hash first windowSize
  let st ← (List.range' 1 (n - windowSize)).foldlM (rollStep s windowSize power)
    (currentHash, [currentHash])
  pure st.2

/-! ## Range locator (`finder.go`, lines 108-144) -/

/-- One iteration of the loop of `findChangedRanges` at position `i` with baseline hash
`val`; the state is `(rangesToCheck, changedIndeces)`. -/
def changedStep (hashValuesOfUpdatedFile : List Int) (windowSize : Nat)
    (st : List Range × Nat) (iv : Nat × Int) : Option (List Range × Nat) := do
  let rangesToCheck := st.1
  let changedIndeces := st.2
  let i := iv.1
  let val := iv.2
  let u ← hashValuesOfUpdatedFile[i]?
  if val ≠ u then
    if rangesToCheck.length = 0 then
      pure (rangesToCheck ++ [Range.mk i (i + windowSize)], changedIndeces + 1)
    else do
      let last ← if changedIndeces = 0 then none else rangesToCheck[changedIndeces - 1]?
      if last.«end» < i then
        pure (rangesToCheck ++ [Range.mk i (i + windowSize)], changedIndeces + 1)
      else
        pure (rangesToCheck.set (changedIndeces - 1) (Range.mk last.start (i + windowSize)),
          changedIndeces)
  else
    pure st

def findChangedRanges (originalText updatedText : GoString) (windowSize : Nat) :
    Option (List Range) := do
  let hashValuesOfCurrentFile ← applyRollingHash originalText windowSize
  let hashValuesOfUpdatedFile ← applyRollingHash updatedText windowSize
  let st ← hashValuesOfCurrentFile.enum.foldlM
    (changedStep hashValuesOfUpdatedFile windowSize) ([], 0)
  pure st.1

/-- One iteration of the outer loop of `findMinimalRanges`, for the coarse range `val`. -/
def minimalStep (rhs : FileDiffFinder) (updatedText : GoString)
    (ranges : List Range) (val : Range) : Option (List Range) := do
  let o ← slice rhs.Content val.start val.«end»
  let u ← slice updatedText val.start val.«end»
  let lowerRanges ← findChangedRanges o u narrowWindowRange
  pure (ranges ++ lowerRanges.map
    (fun val2 => Range.mk (val.start + val2.start) (val.start + val2.«end»)))

def findMinimalRanges (rhs : FileDiffFinder) (originalText updatedText : GoString) :
    Option (List Range) := do
  let widerRanges ← findChangedRanges originalText updatedText widerWindowRange
  widerRanges.foldlM (minimalStep rhs updatedText) []

/-! ## Index comparator (`finder.go`, lines 146-201) -/

/-- The body shared by the comparing loops: at index `ind`, append an `UPDATED` record when
the baseline byte and the candidate byte differ. -/
def compareAt (rhs : FileDiffFinder) (updatedFileText : GoString)
    (updatedIndeces : List UpdatedIndex) (ind : Nat) : Option (List UpdatedIndex) := do
  let o ← rhs.Content[ind]?
  let u ← updatedFileText[ind]?
  if o ≠ u then
    pure (updatedIndeces ++ [UpdatedIndex.mk (sprintfC o) (sprintfC u) ind ChangeTypesUpdated])
  else
    pure updatedIndeces

def compareIndexes (rhs : FileDiffFinder) (ranges : List Range) (updatedFileText : GoString) :
    Option (List UpdatedIndex) :=
  ranges.foldlM (fun updatedIndeces val =>
    (List.range' val.start (val.«end» - val.start)).foldlM
      (compareAt rhs updatedFileText) updatedIndeces) []

/-- The body of a loop appending `ADDED` records: the candidate byte at `ind`. -/
def addedAt (updatedFileText : GoString) (acc : List UpdatedIndex) (ind : Nat) :
    Option (List UpdatedIndex) := do
  let u ← updatedFileText[ind]?
  pure (acc ++ [UpdatedIndex.mk [] (sprintfC u) ind ChangeTypesAdded])

/-- The body of a loop appending `REMOVED` records: the baseline byte at `ind`. -/
def removedAt (rhs : FileDiffFinder) (acc : List UpdatedIndex) (ind : Nat) :
    Option (List UpdatedIndex) := do
  let o ← rhs.Content[ind]?
  pure (acc ++ [UpdatedIndex.mk (sprintfC o) [] ind ChangeTypesRemoved])

def compareBruteForce (rhs : FileDiffFinder) (updatedFileText : GoString) :
    Option (List UpdatedIndex) := do
  let lower :=
    if updatedFileText.length > rhs.Content.length then rhs.Content.length
    else updatedFileText.length
  let acc1 ← (List.range' 0 lower).foldlM (compareAt rhs updatedFileText) []
  let acc2 ← (List.range' lower (updatedFileText.length - lower)).foldlM
    (addedAt updatedFileText) acc1
  (List.range' lower (rhs.Content.length - lower)).foldlM (removedAt rhs) acc2

/-! ## Diff orchestrator (`finder.go`, lines 30-74) -/

/-- The computation run by the goroutine of `Diff`: the value left in `comparedIndexes`
when it completes (`none` when it panics). -/
def diffBody (rhs : FileDiffFinder) (updatedFileText : GoString) :
    Option (List UpdatedIndex) :=
  if updatedFileText = rhs.Content then
    pure []
  else if updatedFileText.length < widerWindowRange ∨
      rhs.Content.length < widerWindowRange then
    compareBruteForce rhs updatedFileText
  else if updatedFileText.length = rhs.Content.length then do
    let ranges ← findMinimalRanges rhs rhs.Content updatedFileText
    compareIndexes rhs ranges updatedFileText
  else if updatedFileText.length > rhs.Content.length then do
    let head ← slice updatedFileText 0 rhs.Content.length
    let ranges ← findMinimalRanges rhs rhs.Content head
    let comparedIndexes ← compareIndexes rhs ranges head
    (List.range' rhs.Content.length (updatedFileText.length - rhs.Content.length)).foldlM
      (addedAt updatedFileText) comparedIndexes
  else do
    let head ← slice rhs.Content 0 updatedFileText.length
    let ranges ← findMinimalRanges rhs head updatedFileText
    let comparedIndexes ← compareIndexes rhs ranges updatedFileText
    (List.range' updatedFileText.length (rhs.Content.length - updatedFileText.length)).foldlM
      (removedAt rhs) comparedIndexes

/-- The method `Diff`.  The race of the `select` statement is an input: `ctxDone = some e`
when the context is done first, with `ctx.Err() = e`; `ctxDone = none` when the goroutine
completes first.  The result is the pair `(delta, error)`; the outer `none` is a panic of
the goroutine. -/
def Diff (rhs : FileDiffFinder) (ctxDone : Option String) (updatedFileText : GoString) :
    Option (List UpdatedIndex × Option String) :=
  match ctxDone with
  | some e => some ([], some e)
  | none => (diffBody rhs updatedFileText).map (fun comparedIndexes => (comparedIndexes, none))

/-! ## Closed forms used to state and prove the properties -/

/-- The byte of `s` at index `i` as an integer (`int(s[i])`), `0` out of range. -/
def byteAt (s : GoString) (i : Nat) : Int := ((s.getD i 0).val : Int)

/-- The value of `hash` after `k` iterations of its loop. -/
def hashVal (str : GoString) : Nat → Int
  | 0 => 0
  | k + 1 => (hashVal str k * base + byteAt str k).tmod mod

/-- The entry `power[k]` of the table of `applyRollingHash`. -/
def powMod : Nat → Int
  | 0 => 1
  | k + 1 => (powMod k * base).tmod mod

/-- The hash that `applyRollingHash s windowSize` stores at offset `i`. -/
def rollVal (s : GoString) (windowSize : Nat) : Nat → Int
  | 0 => hashVal s windowSize
  | i + 1 =>
    ((rollVal s windowSize i - powMod (windowSize - 1) * byteAt s i).tmod mod * base
      + byteAt s (i + windowSize)).tmod mod

/-- The `UPDATED` record of index `i`, when both texts have a byte there and the two bytes
differ. -/
def updatedAt (original candidate : GoString) (i : Nat) : Option UpdatedIndex :=
  match original[i]?, candidate[i]? with
  | some o, some u =>
    if o ≠ u then some (UpdatedIndex.mk (sprintfC o) (sprintfC u) i ChangeTypesUpdated)
    else none
  | _, _ => none

/-- The `UPDATED` records of the mismatching indices inside the given ranges, range by range
and in ascending index order inside a range. -/
def updatedRecords (original candidate : GoString) (ranges : List Range) : List UpdatedIndex :=
  ranges.flatMap (fun r =>
    (List.range' r.start (r.«end» - r.start)).filterMap (updatedAt original candidate))

/-- One `ADDED` record for every candidate byte at an index `≥ n`, in ascending order. -/
def addedRecords (n : Nat) (candidate : GoString) : List UpdatedIndex :=
  ((candidate.drop n).enumFrom n).map
    (fun p => UpdatedIndex.mk [] (sprintfC p.2) p.1 ChangeTypesAdded)

/-- One `REMOVED` record for every baseline byte at an index `≥ m`, in ascending order. -/
def removedRecords (m : Nat) (original : GoString) : List UpdatedIndex :=
  ((original.drop m).enumFrom m).map
    (fun p => UpdatedIndex.mk (sprintfC p.2) [] p.1 ChangeTypesRemoved)

/-- The brute-force delta in the words of the specification: the mismatches of the common
prefix, then the trailing bytes of the candidate as `ADDED`, then the trailing bytes of the
baseline as `REMOVED` (at most one of the two tails is non-empty). -/
def bruteForceDelta (original candidate : GoString) : List UpdatedIndex :=
  (List.range' 0 (min original.length candidate.length)).filterMap
      (updatedAt original candidate)
    ++ addedRecords original.length candidate
    ++ removedRecords candidate.length original

/-- The hash stored at offset `j` by `applyRollingHash s windowSize` (`none` when there is
no such offset). -/
def hashAt (s : GoString) (windowSize j : Nat) : Option Int :=
  (applyRollingHash s windowSize).bind (fun hs => hs[j]?)

/-- Index `i` lies in one of the ranges. -/
def inRanges (ranges : List Range) (i : Nat) : Prop :=
  ∃ r ∈ ranges, r.start ≤ i ∧ i < r.«end»

/-- The loop invariant of `findChangedRanges` before position `i` is visited, `F j` saying
that the two hashes at offset `j` differ: every range is at least a window long, ends
within the last window visited and starts before `i`; the ranges are separated by gaps;
and they cover exactly the windows of the offsets flagged so far. -/
structure RangesInv (w : Nat) (F : Nat → Prop) (i : Nat) (rs : List Range) : Prop where
  bounds : ∀ r ∈ rs, r.start + w ≤ r.«end» ∧ r.«end» < i + w ∧ r.start < i
  sep : rs.Pairwise (fun a b => a.«end» < b.start)
  cover : ∀ k, inRanges rs k ↔ ∃ j, j < i ∧ F j ∧ j ≤ k ∧ k < j + w

/-- The absolute sub-ranges that the narrow pass of `findMinimalRanges` contributes for the
coarse range `val` (empty if that iteration panics). -/
def lowerRangesOf (rhs : FileDiffFinder) (updatedText : GoString) (val : Range) : List Range :=
  (minimalStep rhs updatedText [] val).getD []

/-- Eight zero bytes. -/
def collisionBaseline : GoString := [0, 0, 0, 0, 0, 0, 0, 0]

/-- The eight bytes `00 00 00 00 3B 9A CA 07`, whose base-256 value is `1000000007`. -/
def collisionCandidate : GoString := [0, 0, 0, 0, 0x3B, 0x9A, 0xCA, 0x07]

/-! ## The computation of `Diff` as a transformer of the receiver

The methods of `FileDiffFinder` have a pointer receiver, so each of them could write the
finder or the `FileInfo` behind it.  Here every statement that touches the receiver is
translated to its effect on that state: a call `rhs.originalFileInfo.Content()` is
a read (`FileInfo.Content` returns a field), and no
statement on the paths of `Diff` is an assignment to a field.  Reads of `Content()` between
which no other statement runs (the conditions of the `if` chain of `Diff`, a loop bound
and the loop it guards) are written as one read.  The functions that do not touch the
receiver (`hash`, `applyRollingHash`, `findChangedRanges`) are used as they are. -/

/-- A computation that may read and write the finder behind the receiver and may panic. -/
abbrev FinderM := StateT FileDiffFinder Option

/-- The call `rhs.originalFileInfo.Content()`. -/
def ContentM : FinderM GoString := do
  let rhs ← get
  pure rhs.originalFileInfo.Content

/-- The body of the comparing loops, with its two reads of `Content()`. -/
def compareAtM (updatedFileText : GoString) (updatedIndeces : List UpdatedIndex) (ind : Nat) :
    FinderM (List UpdatedIndex) := do
  let content ← ContentM
  let o ← (content[ind]? : Option (Fin 256))
  let u ← (updatedFileText[ind]? : Option (Fin 256))
  if o ≠ u then do
    let c2 ← ContentM
    let o2 ← (c2[ind]? : Option (Fin 256))
    pure (updatedIndeces ++
      [UpdatedIndex.mk (sprintfC o2) (sprintfC u) ind ChangeTypesUpdated])
  else
    pure updatedIndeces

def compareIndexesM (ranges : List Range) (updatedFileText : GoString) :
    FinderM (List UpdatedIndex) :=
  ranges.foldlM (fun updatedIndeces val =>
    (List.range' val.start (val.«end» - val.start)).foldlM
      (compareAtM updatedFileText) updatedIndeces) []

def removedAtM (acc : List UpdatedIndex) (ind : Nat) : FinderM (List UpdatedIndex) := do
  let content ← ContentM
  let o ← (content[ind]? : Option (Fin 256))
  pure (acc ++ [UpdatedIndex.mk (sprintfC o) [] ind ChangeTypesRemoved])

def compareBruteForceM (updatedFileText : GoString) : FinderM (List UpdatedIndex) := do
  let c ← ContentM
  let lower :=
    if updatedFileText.length > c.length then c.length else updatedFileText.length
  let acc1 ← (List.range' 0 lower).foldlM (compareAtM updatedFileText) []
  let acc2 ← ((List.range' lower (updatedFileText.length - lower)).foldlM
    (addedAt updatedFileText) acc1 : Option (List UpdatedIndex))
  let c2 ← ContentM
  (List.range' lower (c2.length - lower)).foldlM removedAtM acc2

def minimalStepM (updatedText : GoString) (ranges : List Range) (val : Range) :
    FinderM (List Range) := do
  let c ← ContentM
  let o ← (slice c val.start val.«end» : Option GoString)
  let u ← (slice updatedText val.start val.«end» : Option GoString)
  let lowerRanges ← (findChangedRanges o u narrowWindowRange : Option (List Range))
  pure (ranges ++ lowerRanges.map
    (fun val2 => Range.mk (val.start + val2.start) (val.start + val2.«end»)))

def findMinimalRangesM (originalText updatedText : GoString) : FinderM (List Range) := do
  let widerRanges ←
    (findChangedRanges originalText updatedText widerWindowRange : Option (List Range))
  widerRanges.foldlM (minimalStepM updatedText) []

/-- The goroutine of `Diff`, statement by statement. -/
def diffBodyM (updatedFileText : GoString) : FinderM (List UpdatedIndex) := do
  let c ← ContentM
  if updatedFileText = c then
    pure []
  else if updatedFileText.length < widerWindowRange ∨ c.length < widerWindowRange then
    compareBruteForceM updatedFileText
  else if updatedFileText.length = c.length then do
    let ranges ← findMinimalRangesM c updatedFileText
    compareIndexesM ranges updatedFileText
  else if updatedFileText.length > c.length then do
    let head ← (slice updatedFileText 0 c.length : Option GoString)
    let ranges ← findMinimalRangesM c head
    let c2 ← ContentM
    let head2 ← (slice updatedFileText 0 c2.length : Option GoString)
    let comparedIndexes ← compareIndexesM ranges head2
    let c3 ← ContentM
    ((List.range' c3.length (updatedFileText.length - c3.length)).foldlM
      (addedAt updatedFileText) comparedIndexes : Option (List UpdatedIndex))
  else do
    let head ← (slice c 0 updatedFileText.length : Option GoString)
    let ranges ← findMinimalRangesM head updatedFileText
    let comparedIndexes ← compareIndexesM ranges updatedFileText
    let c2 ← ContentM
    (List.range' updatedFileText.length (c2.length - updatedFileText.length)).foldlM
      removedAtM comparedIndexes

/-- The method `Diff` on the state of the receiver.  The goroutine runs whoever wins the
race (it is not aborted when the context is done), so its effect on the receiver is part
of the call in both cases; `ctxDone` decides what is returned. -/
def DiffM (ctxDone : Option String) (updatedFileText : GoString) :
    FinderM (List UpdatedIndex × Option String) := do
  let comparedIndexes ← diffBodyM updatedFileText
  match ctxDone with
  | some e => pure ([], some e)
  | none => pure (comparedIndexes, none)

/-- The base-256 value of the window of `k` bytes of `s` that starts at offset `i`, by
Horner's rule. -/
def horner (s : GoString) (i : Nat) : Nat → Int
  | 0 => 0
  | k + 1 => horner s i k * 256 + byteAt s (i + k)

/-- The base-256 value of the window of `w` bytes of `s` that starts at offset `i`: the sum
over `k < w` of `s[i+k] * 256 ^ (w - 1 - k)`. -/
def windowValue (s : GoString) (i w : Nat) : Int :=
  ((List.range w).map (fun k => byteAt s (i + k) * 256 ^ (w - 1 - k))).sum

/-- A text that starts with the byte `00`, followed by eight bytes `01`. -/
def signBaseline : GoString := [0, 1, 1, 1, 1, 1, 1, 1, 1]

/-- A text that starts with the byte `FF`, followed by eight bytes `01`. -/
def signCandidate : GoString := [255, 1, 1, 1, 1, 1, 1, 1, 1]

/-! ## Serving layer (`router/models.go`, `router/router.go`) -/

/-- The request body; `Text` is a `*string`, `none` being `nil`. -/
structure RequestPayload where
  Text : Option GoString
  Version : Int
deriving DecidableEq, Repr

structure Response where
  Delta : List UpdatedIndex
  CurrentVersion : Int
  UpdatedVersion : Int
deriving DecidableEq, Repr

structure ErrorResp where
  Message : String
  Code : Nat
deriving DecidableEq, Repr

/-- The method `RequestPayload.Valid`: `none` is the `nil` error. -/
def RequestPayload.Valid (rp : RequestPayload) : Option String :=
  if rp.Version ≤ 0 then
    some "Version must be provided and should be positive integer"
  else if rp.Text.isNone then
    some "missing text in payload"
  else
    none

/-- A value kept in the cache: the handlers store `true` under a version key and `0` under
the readiness key. -/
inductive CacheValue where
  | bool (b : Bool)
  | int (n : Int)
deriving DecidableEq, Repr

/-- Modelled from the spec: the store behind `ICache` (the library it wraps is not part of
the repository) is a key/value store with `get`, `set` and `delete` and no expiration. -/
structure Cache where
  items : List (String × CacheValue)
deriving DecidableEq, Repr

/-- Modelled from the spec: `get(key)`, the value stored under the key, if any. -/
def Cache.Get (c : Cache) (key : String) : Option CacheValue :=
  (c.items.find? (fun kv => kv.1 = key)).map (fun kv => kv.2)

/-- Modelled from the spec: `set(key, value)`, replacing what the key held. -/
def Cache.Set (c : Cache) (key : String) (value : CacheValue) : Cache :=
  Cache.mk ((key, value) :: c.items.filter (fun kv => kv.1 ≠ key))

/-- Modelled from the spec: `delete(key)`. -/
def Cache.Delete (c : Cache) (key : String) : Cache :=
  Cache.mk (c.items.filter (fun kv => kv.1 ≠ key))

/-- The fields of `Router` that the `/diff` handler uses (the logger and the mux router have
no part in its result). -/
structure Router where
  cache : Cache
  srv : FileDiffFinder
deriving DecidableEq, Repr

/-- A call made by the `/diff` handler to one of its collaborators. -/
inductive Event where
  | cacheGet (key : String)
  | cacheSet (key : String) (value : CacheValue)
  | cacheDelete (key : String)
  | diffCall (text : GoString)
deriving DecidableEq, Repr

/-- A body written to the `http.ResponseWriter`. -/
inductive Body where
  | error (e : ErrorResp)
  | response (r : Response)
deriving DecidableEq, Repr

/-- The `http.ResponseWriter`: the status code of the first `WriteHeader` call (later calls
are ignored by `net/http`) and the bodies written, in order. -/
structure ResponseWriter where
  status : Option Nat
  bodies : List Body
deriving DecidableEq, Repr

def ResponseWriter.WriteHeader (w : ResponseWriter) (code : Nat) : ResponseWriter :=
  match w.status with
  | some _ => w
  | none => ResponseWriter.mk (some code) w.bodies

/-- The function `errorResponse`. -/
def errorResponse (w : ResponseWriter) (message : String) (code : Nat) : ResponseWriter :=
  let w1 := w.WriteHeader code
  ResponseWriter.mk w1.status (w1.bodies ++ [Body.error (ErrorResp.mk message code)])

/-- The key of the admission entry of a version: `strconv.Itoa(version)`. -/
def versionKey (version : Int) : String := toString version

/-- What a run of the `/diff` handler acts on: the router behind the receiver `rt`, the
`http.ResponseWriter`, and the calls that the cache and the finder have received so far,
in order, each with the cache as the call left it. -/
structure HandlerState where
  rt : Router
  w : ResponseWriter
  calls : List (Event × Cache)
deriving DecidableEq, Repr

/-- A run of statements of the handler; `none` is a panic. -/
abbrev HandlerM := StateT HandlerState Option

/-- The call `rt.cache.Get(key)`. -/
def rtCacheGet (key : String) : HandlerM (Option CacheValue) := do
  let s ← get
  set (HandlerState.mk s.rt s.w (s.calls ++ [(Event.cacheGet key, s.rt.cache)]))
  pure (s.rt.cache.Get key)

/-- The call `rt.cache.Set(key, value)`. -/
def rtCacheSet (key : String) (value : CacheValue) : HandlerM Unit := do
  let s ← get
  let cache := s.rt.cache.Set key value
  set (HandlerState.mk (Router.mk cache s.rt.srv) s.w
    (s.calls ++ [(Event.cacheSet key value, cache)]))

/-- The call `rt.cache.Delete(key)`. -/
def rtCacheDelete (key : String) : HandlerM Unit := do
  let s ← get
  let cache := s.rt.cache.Delete key
  set (HandlerState.mk (Router.mk cache s.rt.srv) s.w
    (s.calls ++ [(Event.cacheDelete key, cache)]))

/-- The call `rt.srv.ValidateVersion(version)`. -/
def rtSrvValidateVersion (version : Int) : HandlerM (Option String) := do
  let s ← get
  pure (s.rt.srv.ValidateVersion version)

/-- The call `rt.srv.Version()`. -/
def rtSrvVersion : HandlerM Int := do
  let s ← get
  pure s.rt.srv.Version

/-- The call `rt.srv.Diff(ctx, text)`; `ctxDone` is the outcome of the race inside it. -/
def rtSrvDiff (ctxDone : Option String) (text : GoString) :
    HandlerM (List UpdatedIndex × Option String) := do
  let s ← get
  set (HandlerState.mk s.rt s.w (s.calls ++ [(Event.diffCall text, s.rt.cache)]))
  (DiffFinder.Diff s.rt.srv ctxDone text : Option (List UpdatedIndex × Option String))

/-- A statement that writes to the response writer `w`. -/
def onWriter (f : ResponseWriter → ResponseWriter) : HandlerM Unit := do
  let s ← get
  set (HandlerState.mk s.rt (f s.w) s.calls)

/-- The handler `Router.Diff`, statement by statement, on the state behind its receiver and
its writer.  Its inputs are the outcome of decoding the request body (`none` when decoding
fails), the outcome of the race inside `Diff` and the outcome of encoding the response
(`some e` when the encoder fails with error `e`).  The deferred `Delete` runs when the
statements that follow the `defer` statement have returned. -/
def Router.Diff (payload : Option RequestPayload) (ctxDone : Option String)
    (encodeErr : Option String) : HandlerM Unit := do
  match payload with
  | none => onWriter (fun w => errorResponse w "error on parsing payload" 400)
  | some t =>
    match t.Valid with
    | some err => onWriter (fun w => errorResponse w err 400)
    | none =>
      let verr ← rtSrvValidateVersion t.Version
      match verr with
      | some err => onWriter (fun w => errorResponse w err 400)
      | none =>
        let found ← rtCacheGet (versionKey t.Version)
        match found with
        | some _ =>
          onWriter (fun w => errorResponse w "another process is getting the diff" 422)
        | none =>
          rtCacheSet (versionKey t.Version) (CacheValue.bool true)
          (do
            let text ← (t.Text : Option GoString)
            let res ← rtSrvDiff ctxDone text
            match res.2 with
            | some err => onWriter (fun w => errorResponse w err 500)
            | none =>
              let currentVersion ← rtSrvVersion
              let resp := Response.mk res.1 currentVersion t.Version
              onWriter (fun w => w.WriteHeader 200)
              match encodeErr with
              | none =>
                onWriter (fun w => ResponseWriter.mk w.status (w.bodies ++ [Body.response resp]))
              | some e => onWriter (fun w => errorResponse w e 500))
          rtCacheDelete (versionKey t.Version)

/-- One iteration of the outer loop of the variant of `findMinimalRanges` that slices its
argument `originalText` where the code slices `Content()`. -/
def minimalStepSlicingArgument (originalText updatedText : GoString)
    (ranges : List Range) (val : Range) : Option (List Range) := do
  let o ← slice originalText val.start val.«end»
  let u ← slice updatedText val.start val.«end»
  let lowerRanges ← findChangedRanges o u narrowWindowRange
  pure (ranges ++ lowerRanges.map
    (fun val2 => Range.mk (val.start + val2.start) (val.start + val2.«end»)))

/-- The variant of `findMinimalRanges` whose narrow pass slices
`originalText[val.start:val.end]` where the code slices `Content()[val.start:val.end]`. -/
def findMinimalRangesSlicingArgument (originalText updatedText : GoString) :
    Option (List Range) := do
  let widerRanges ← findChangedRanges originalText updatedText widerWindowRange
  widerRanges.foldlM (minimalStepSlicingArgument originalText updatedText) []

/-! ## Generic facts about loops -/

theorem foldlM_range'_inv {β : Type} (step : β → Nat → Option β) (I : Nat → β → Prop) :
    ∀ (k a : Nat) (init : β), I a init →
      (∀ i acc, a ≤ i → i < a + k → I i acc → ∃ acc', step acc i = some acc' ∧ I (i + 1) acc') →
      ∃ r, (List.range' a k).foldlM step init = some r ∧ I (a + k) r := by
  intro k
  induction k with
  | zero => intro a init h0 _; exact ⟨init, by simp, by simpa using h0⟩
  | succ k ih =>
    intro a init h0 hstep
    obtain ⟨acc', h1, h2⟩ := hstep a init (le_refl a) (by omega) h0
    obtain ⟨r, h3, h4⟩ := ih (a + 1) acc' h2
      (fun i acc hi hk hI => hstep i acc (by omega) (by omega) hI)
    refine ⟨r, ?_, ?_⟩
    · simp [List.range'_succ, List.foldlM_cons, h1, h3]
    · have : a + (k + 1) = a + 1 + k := by omega
      rw [this]; exact h4

theorem foldlM_enumFrom_inv {α β : Type} (step : β → Nat × α → Option β)
    (I : Nat → β → Prop) :
    ∀ (l : List α) (a : Nat) (init : β), I a init →
      (∀ j acc, (h : j < l.length) → I (a + j) acc →
        ∃ acc', step acc (a + j, l[j]) = some acc' ∧ I (a + j + 1) acc') →
      ∃ r, (l.enumFrom a).foldlM step init = some r ∧ I (a + l.length) r := by
  intro l
  induction l with
  | nil => intro a init h0 _; exact ⟨init, by simp, by simpa using h0⟩
  | cons x xs ih =>
    intro a init h0 hstep
    obtain ⟨acc', h1, h2⟩ := hstep 0 init (by simp) (by simpa using h0)
    obtain ⟨r, h3, h4⟩ := ih (a + 1) acc' (by simpa using h2) (by
      intro j acc hj hI
      have := hstep (j + 1) acc (by simpa using hj)
        (by have e : a + (j + 1) = a + 1 + j := by omega
            rw [e]; exact hI)
      have e : a + (j + 1) = a + 1 + j := by omega
      simpa [e] using this)
    refine ⟨r, ?_, ?_⟩
    · simp only [List.enumFrom_cons, List.foldlM_cons]
      simp only [Nat.add_zero, List.getElem_cons_zero] at h1
      simp [h1, h3]
    · have : a + (x :: xs).length = a + 1 + xs.length := by simp; omega
      rw [this]; exact h4

/-! ## Hash engine: totality and closed form -/

theorem getElem?_eq_byteAt (s : GoString) (i : Nat) (h : i < s.length) :
    ∃ c, s[i]? = some c ∧ ((c.val : Nat) : Int) = byteAt s i := by
  refine ⟨s[i], by simp [h], ?_⟩
  simp [byteAt, List.getD_eq_getElem?_getD, h]

theorem byteAt_nonneg (s : GoString) (i : Nat) : 0 ≤ byteAt s i := by
  simp [byteAt]

theorem byteAt_lt (s : GoString) (i : Nat) : byteAt s i < 256 := by
  unfold byteAt
  have := (s.getD i 0).isLt
  omega

theorem byteAt_take (s : GoString) (w k : Nat) (h : k < w) :
    byteAt (s.take w) k = byteAt s k := by
  simp [byteAt, List.getD_eq_getElem?_getD, List.getElem?_take, h]

theorem hashVal_take (s : GoString) (w : Nat) :
    ∀ k, k ≤ w → hashVal (s.take w) k = hashVal s k := by
  intro k
  induction k with
  | zero => intro _; rfl
  | succ k ih =>
    intro h
    simp only [hashVal]
    rw [ih (by omega), byteAt_take s w k (by omega)]

theorem hash_eq (str : GoString) (w : Nat) (h : w ≤ str.length) :
    hash str w = some (hashVal str w) := by
  unfold hash
  rw [List.range_eq_range']
  obtain ⟨r, hr, hI⟩ := foldlM_range'_inv (hashStep str) (fun i v => v = hashVal str i)
    w 0 0 rfl (by
      intro i acc _ hi hacc
      obtain ⟨c, hc, hv⟩ := getElem?_eq_byteAt str i (by omega)
      refine ⟨(acc * base + byteAt str i).tmod mod, ?_, ?_⟩
      · simp [hashStep, hc, hv]
      · simp [hashVal, hacc])
  rw [hr, hI]
  simp

theorem powerTable_spec (n : Nat) :
    ∃ t, powerTable n = some t ∧ t.length = n + 1 ∧ ∀ j, j ≤ n → t[j]? = some (powMod j) := by
  unfold powerTable
  obtain ⟨r, hr, hlen, hI⟩ := foldlM_range'_inv powerStep
    (fun i t => t.length = n + 1 ∧ ∀ j, j < i → t[j]? = some (powMod j))
    n 1 ((List.replicate (n + 1) (0 : Int)).set 0 1)
    (by
      refine ⟨by simp, ?_⟩
      intro j hj
      have : j = 0 := by omega
      subst this
      simp [powMod])
    (by
      intro i acc h1 hi hacc
      obtain ⟨hlen, hget⟩ := hacc
      refine ⟨acc.set i ((powMod (i - 1) * base).tmod mod), ?_, ?_, ?_⟩
      · have hne : i ≠ 0 := by omega
        have hlt : i < acc.length := by omega
        simp [powerStep, hne, hget (i - 1) (by omega), hlt]
      · simpa using hlen
      · intro j hj
        rw [List.getElem?_set]
        by_cases hji : i = j
        · subst hji
          have hlt : i < acc.length := by omega
          obtain ⟨m, rfl⟩ : ∃ m, i = m + 1 := ⟨i - 1, by omega⟩
          simp [hlt, powMod]
        · simp only [hji, if_false]
          exact hget j (by omega))
  exact ⟨r, hr, hlen, fun j hj => hI j (by omega)⟩

theorem applyRollingHash_eq (s : GoString) (w : Nat) (h1 : 1 ≤ w) (h2 : w ≤ s.length) :
    applyRollingHash s w = some ((List.range (s.length - w + 1)).map (rollVal s w)) := by
  obtain ⟨t, ht, _, hget⟩ := powerTable_spec s.length
  have hslice : slice s 0 w = some (s.take w) := by simp [slice, h2]
  have hh : hash (s.take w) w = some (hashVal s w) := by
    rw [hash_eq _ _ (by simp [h2]), hashVal_take s w w (le_refl w)]
  obtain ⟨r, hr, hI1, hI2⟩ := foldlM_range'_inv (rollStep s w t)
    (fun i st => st.1 = rollVal s w (i - 1) ∧ st.2 = (List.range i).map (rollVal s w))
    (s.length - w) 1 (hashVal s w, [hashVal s w])
    (by simp [rollVal, List.range_succ])
    (by
      intro i acc hi1 hi2 hacc
      obtain ⟨ha1, ha2⟩ := hacc
      obtain ⟨m, rfl⟩ : ∃ m, i = m + 1 := ⟨i - 1, by omega⟩
      obtain ⟨co, hco, hvo⟩ := getElem?_eq_byteAt s m (by omega)
      obtain ⟨ci, hci, hvi⟩ := getElem?_eq_byteAt s (m + w) (by omega)
      have hw0 : w ≠ 0 := by omega
      have hidx : m + 1 + w - 1 = m + w := by omega
      refine ⟨(rollVal s w (m + 1), acc.2 ++ [rollVal s w (m + 1)]), ?_, rfl, ?_⟩
      · simp only [Nat.add_sub_cancel] at ha1
        simp [rollStep, hw0, hget (w - 1) (by omega), hco, hidx, hci, hvo, hvi, ha1, rollVal]
      · simp only
        rw [ha2, List.range_succ (m + 1), List.map_append]
        simp)
  unfold applyRollingHash
  simp only [ht, hslice, hh, hr, Option.bind_eq_bind, Option.some_bind, Option.pure_def,
    bind_pure_comp]
  have : 1 + (s.length - w) = s.length - w + 1 := by omega
  rw [this] at hI2
  simp [hI2]

theorem powMod_one : powMod 1 = 256 := by
  decide

theorem tmod_small (x : Int) (h0 : 0 ≤ x) (h1 : x < 65536) : x.tmod mod = x := by
  rw [Int.tmod_eq_emod h0 (by simp [mod])]
  simp only [mod]
  omega

/-- With a window of two bytes the rolling hash is the exact base-256 value of the window. -/
theorem rollVal_two (s : GoString) (i : Nat) :
    rollVal s 2 i = 256 * byteAt s i + byteAt s (i + 1) := by
  induction i with
  | zero =>
    have h0 := byteAt_nonneg s 0
    have h1 := byteAt_lt s 0
    have h2 := byteAt_nonneg s 1
    have h3 := byteAt_lt s 1
    simp only [rollVal, hashVal, base, zero_mul, zero_add]
    rw [tmod_small _ h0 (by omega), tmod_small _ (by omega) (by omega)]
    omega
  | succ i ih =>
    have h0 := byteAt_nonneg s (i + 1)
    have h1 := byteAt_lt s (i + 1)
    have h2 := byteAt_nonneg s (i + 2)
    have h3 := byteAt_lt s (i + 2)
    have hp : powMod (2 - 1) = 256 := powMod_one
    simp only [rollVal, ih, hp, base]
    have e : 256 * byteAt s i + byteAt s (i + 1) - 256 * byteAt s i = byteAt s (i + 1) := by
      omega
    rw [e, tmod_small _ h0 (by omega), tmod_small _ (by omega) (by omega)]
    have : i + 1 + 1 = i + 2 := rfl
    rw [this]
    omega

/-! ## Range locator: the loop invariant of `findChangedRanges` -/

theorem inRanges_nil (k : Nat) : ¬ inRanges [] k := by
  simp [inRanges]

theorem inRanges_append (xs ys : List Range) (k : Nat) :
    inRanges (xs ++ ys) k ↔ inRanges xs k ∨ inRanges ys k := by
  simp only [inRanges, List.mem_append]
  constructor
  · rintro ⟨r, hr | hr, h⟩
    · exact Or.inl ⟨r, hr, h⟩
    · exact Or.inr ⟨r, hr, h⟩
  · rintro (⟨r, hr, h⟩ | ⟨r, hr, h⟩)
    · exact ⟨r, Or.inl hr, h⟩
    · exact ⟨r, Or.inr hr, h⟩

theorem inRanges_singleton (r : Range) (k : Nat) :
    inRanges [r] k ↔ r.start ≤ k ∧ k < r.«end» := by
  simp [inRanges]

theorem RangesInv.init (w : Nat) (F : Nat → Prop) : RangesInv w F 0 [] := by
  refine ⟨by simp, by simp, ?_⟩
  intro k
  simp [inRanges]

theorem RangesInv.skip {w : Nat} {F : Nat → Prop} {i : Nat} {rs : List Range}
    (h : RangesInv w F i rs) (hF : ¬ F i) : RangesInv w F (i + 1) rs := by
  refine ⟨?_, h.sep, ?_⟩
  · intro r hr
    have := h.bounds r hr
    omega
  · intro k
    rw [h.cover k]
    constructor
    · rintro ⟨j, hj, hFj, hk⟩
      exact ⟨j, by omega, hFj, hk⟩
    · rintro ⟨j, hj, hFj, hk⟩
      have hne : j ≠ i := by
        intro e
        exact hF (e ▸ hFj)
      exact ⟨j, by omega, hFj, hk⟩

theorem RangesInv.push {w : Nat} {F : Nat → Prop} {i : Nat} {rs : List Range}
    (h : RangesInv w F i rs) (hF : F i) (hlast : ∀ r ∈ rs, r.«end» < i) :
    RangesInv w F (i + 1) (rs ++ [Range.mk i (i + w)]) := by
  refine ⟨?_, ?_, ?_⟩
  · intro r hr
    rcases List.mem_append.1 hr with hr | hr
    · have := h.bounds r hr
      omega
    · simp only [List.mem_singleton] at hr
      subst hr
      simp
  · rw [List.pairwise_append]
    refine ⟨h.sep, by simp, ?_⟩
    intro a ha b hb
    simp only [List.mem_singleton] at hb
    subst hb
    exact hlast a ha
  · intro k
    rw [inRanges_append, inRanges_singleton, h.cover k]
    constructor
    · rintro (⟨j, hj, hFj, hk⟩ | hk)
      · exact ⟨j, by omega, hFj, hk⟩
      · exact ⟨i, by omega, hF, hk⟩
    · rintro ⟨j, hj, hFj, hk⟩
      by_cases e : j = i
      · subst e
        exact Or.inr hk
      · exact Or.inl ⟨j, by omega, hFj, hk⟩

theorem RangesInv.extend {w : Nat} {F : Nat → Prop} {i : Nat} {rs : List Range} {last : Range}
    (h : RangesInv w F i (rs ++ [last])) (hF : F i) (hlast : ¬ last.«end» < i) :
    RangesInv w F (i + 1) (rs ++ [Range.mk last.start (i + w)]) := by
  have hb := h.bounds last (by simp)
  have hs := h.sep
  rw [List.pairwise_append] at hs
  obtain ⟨hs1, _, hs3⟩ := hs
  have hc := h.cover
  refine ⟨?_, ?_, ?_⟩
  · intro r hr
    rcases List.mem_append.1 hr with hr | hr
    · have := h.bounds r (List.mem_append.2 (Or.inl hr))
      omega
    · simp only [List.mem_singleton] at hr
      subst hr
      simp only
      omega
  · rw [List.pairwise_append]
    refine ⟨hs1, by simp, ?_⟩
    intro a ha b hb'
    simp only [List.mem_singleton] at hb'
    subst hb'
    exact hs3 a ha last (by simp)
  · intro k
    have hck := hc k
    rw [inRanges_append, inRanges_singleton] at hck
    rw [inRanges_append, inRanges_singleton]
    simp only
    constructor
    · rintro (hk | hk)
      · obtain ⟨j, hj, hFj, hk'⟩ := hck.1 (Or.inl hk)
        exact ⟨j, by omega, hFj, hk'⟩
      · by_cases hke : k < last.«end»
        · obtain ⟨j, hj, hFj, hk'⟩ := hck.1 (Or.inr ⟨hk.1, hke⟩)
          exact ⟨j, by omega, hFj, hk'⟩
        · exact ⟨i, by omega, hF, by omega, hk.2⟩
    · rintro ⟨j, hj, hFj, hk⟩
      by_cases e : j = i
      · subst e
        exact Or.inr ⟨by omega, hk.2⟩
      · rcases hck.2 ⟨j, by omega, hFj, hk⟩ with h1 | h1
        · exact Or.inl h1
        · exact Or.inr ⟨h1.1, by omega⟩


theorem changedStep_inv (hu : List Int) (w j : Nat) (F : Nat → Prop) (v u : Int)
    (hget : hu[j]? = some u) (hF : v ≠ u ↔ F j) (rs : List Range) (ci : Nat)
    (hci : ci = rs.length) (hinv : RangesInv w F j rs) :
    ∃ st, changedStep hu w (rs, ci) (j, v) = some st ∧ st.2 = st.1.length ∧
      RangesInv w F (j + 1) st.1 := by
  by_cases hv : v = u
  · refine ⟨(rs, ci), ?_, hci, hinv.skip (fun h => (hF.2 h) hv)⟩
    simp [changedStep, hget, hv]
  · have hFj : F j := hF.1 hv
    rcases List.eq_nil_or_concat rs with hnil | ⟨init, last, hrs⟩
    · subst hnil
      refine ⟨([] ++ [Range.mk j (j + w)], ci + 1), ?_, by simp [hci], hinv.push hFj (by simp)⟩
      simp [changedStep, hget, hv]
    · rw [List.concat_eq_append] at hrs
      subst hrs
      have hci0 : ci ≠ 0 := by simp [hci]
      have hlen0 : (init ++ [last]).length ≠ 0 := by simp
      have hlast : (init ++ [last])[ci - 1]? = some last := by
        have : ci - 1 = init.length := by simp [hci]
        rw [this]
        simp
      by_cases hl : last.«end» < j
      · refine ⟨(init ++ [last] ++ [Range.mk j (j + w)], ci + 1), ?_, by simp [hci],
          hinv.push hFj ?_⟩
        · simp [changedStep, hget, hv, hci0, hlast, hl]
        · intro r hr
          rcases List.mem_append.1 hr with hr | hr
          · have hs := hinv.sep
            rw [List.pairwise_append] at hs
            have h1 := hs.2.2 r hr last (by simp)
            have h2 := hinv.bounds last (by simp)
            omega
          · simp only [List.mem_singleton] at hr
            subst hr
            exact hl
      · refine ⟨(init ++ [Range.mk last.start (j + w)], ci), ?_, by simp [hci],
          hinv.extend hFj hl⟩
        have hset : (init ++ [last]).set (ci - 1) (Range.mk last.start (j + w))
            = init ++ [Range.mk last.start (j + w)] := by
          have : ci - 1 = init.length := by simp [hci]
          rw [this]
          simp
        simp [changedStep, hget, hv, hci0, hlast, hl, hset]

theorem findChangedRanges_spec (a b : GoString) (w : Nat) (h1 : 1 ≤ w)
    (hlen : a.length = b.length) (h2 : w ≤ a.length) :
    ∃ rs, findChangedRanges a b w = some rs ∧
      RangesInv w (fun j => rollVal a w j ≠ rollVal b w j) (a.length - w + 1) rs := by
  obtain ⟨st, hst, _, hinv⟩ := foldlM_enumFrom_inv
    (changedStep ((List.range (b.length - w + 1)).map (rollVal b w)) w)
    (fun i st => st.2 = st.1.length ∧
      RangesInv w (fun j => rollVal a w j ≠ rollVal b w j) i st.1)
    ((List.range (a.length - w + 1)).map (rollVal a w)) 0 ([], 0)
    ⟨rfl, RangesInv.init _ _⟩ (by
      intro j acc hj hacc
      simp only [List.length_map, List.length_range] at hj
      simp only [Nat.zero_add] at hacc ⊢
      have hv : ((List.range (a.length - w + 1)).map (rollVal a w))[j] = rollVal a w j := by
        simp
      rw [hv]
      exact changedStep_inv _ w j _ (rollVal a w j) (rollVal b w j)
        (by simp [List.getElem?_range, hlen ▸ hj]) Iff.rfl acc.1 acc.2 hacc.1 hacc.2)
  refine ⟨st.1, ?_, ?_⟩
  · unfold findChangedRanges
    rw [applyRollingHash_eq a w h1 h2, applyRollingHash_eq b w h1 (hlen ▸ h2)]
    simp only [List.enum, Option.bind_eq_bind, Option.some_bind, hst]
    rfl
  · simpa using hinv

/-! ## Range locator: the narrow pass -/

theorem foldlM_append_flatMap {α γ : Type} (step : List γ → α → Option (List γ))
    (g : α → List γ) :
    ∀ (l : List α) (acc : List γ), (∀ x ∈ l, ∀ acc, step acc x = some (acc ++ g x)) →
      l.foldlM step acc = some (acc ++ l.flatMap g) := by
  intro l
  induction l with
  | nil => intro acc _; simp
  | cons x xs ih =>
    intro acc h
    rw [List.foldlM_cons, h x (by simp) acc]
    simp only [Option.bind_eq_bind, Option.some_bind]
    rw [ih (acc ++ g x) (fun y hy => h y (List.mem_cons_of_mem x hy))]
    simp [List.flatMap_cons]

theorem byteAt_ne_of_getElem?_ne (a b : GoString) (k : Nat) (ha : k < a.length)
    (hb : k < b.length) (h : a[k]? ≠ b[k]?) : byteAt a k ≠ byteAt b k := by
  intro e
  apply h
  simp only [byteAt, List.getD_eq_getElem?_getD, List.getElem?_eq_getElem ha,
    List.getElem?_eq_getElem hb, Option.getD_some] at e ⊢
  have : (a[k] : Fin 256).val = (b[k] : Fin 256).val := by exact_mod_cast e
  rw [Fin.ext this]

theorem byteAt_slice (s : GoString) (lo len j : Nat) (hj : j < len) :
    byteAt ((s.drop lo).take len) j = byteAt s (lo + j) := by
  simp [byteAt, List.getD_eq_getElem?_getD, List.getElem?_take, hj, List.getElem?_drop]

theorem rollVal_two_ne (a b : GoString) (j : Nat)
    (h : byteAt a j ≠ byteAt b j ∨ byteAt a (j + 1) ≠ byteAt b (j + 1)) :
    rollVal a 2 j ≠ rollVal b 2 j := by
  rw [rollVal_two, rollVal_two]
  have h1 := byteAt_nonneg a j
  have h2 := byteAt_lt a j
  have h3 := byteAt_nonneg b j
  have h4 := byteAt_lt b j
  have h5 := byteAt_nonneg a (j + 1)
  have h6 := byteAt_lt a (j + 1)
  have h7 := byteAt_nonneg b (j + 1)
  have h8 := byteAt_lt b (j + 1)
  omega

theorem minimalStep_spec (rhs : FileDiffFinder) (u : GoString) (val : Range)
    (hs : val.start + 2 ≤ val.«end») (he1 : val.«end» ≤ rhs.Content.length)
    (he2 : val.«end» ≤ u.length) :
    (∀ acc, minimalStep rhs u acc val = some (acc ++ lowerRangesOf rhs u val)) ∧
    (∀ r ∈ lowerRangesOf rhs u val,
      val.start ≤ r.start ∧ r.start < r.«end» ∧ r.«end» ≤ val.«end») ∧
    (lowerRangesOf rhs u val).Pairwise (fun a b => a.«end» < b.start) ∧
    (∀ k, val.start ≤ k → k < val.«end» → rhs.Content[k]? ≠ u[k]? →
      inRanges (lowerRangesOf rhs u val) k) := by
  obtain ⟨s, e⟩ := val
  simp only at hs he1 he2 ⊢
  have hl1 : ((rhs.Content.drop s).take (e - s)).length = e - s := by
    simp only [List.length_take, List.length_drop]; omega
  have hl2 : ((u.drop s).take (e - s)).length = e - s := by
    simp only [List.length_take, List.length_drop]; omega
  obtain ⟨low, hlow, hinv⟩ := findChangedRanges_spec ((rhs.Content.drop s).take (e - s))
    ((u.drop s).take (e - s)) 2 (by omega) (by rw [hl1, hl2]) (by rw [hl1]; omega)
  have hstep : ∀ acc, minimalStep rhs u acc (Range.mk s e) = some (acc ++ low.map
      (fun val2 => Range.mk (s + val2.start) (s + val2.«end»))) := by
    intro acc
    have c1 : s ≤ e ∧ e ≤ rhs.Content.length := ⟨by omega, he1⟩
    have c2 : s ≤ e ∧ e ≤ u.length := ⟨by omega, he2⟩
    simp [minimalStep, slice, c1, c2, narrowWindowRange, hlow]
  have hdef : lowerRangesOf rhs u (Range.mk s e) = low.map
      (fun val2 => Range.mk (s + val2.start) (s + val2.«end»)) := by
    simp [lowerRangesOf, hstep]
  rw [hdef]
  rw [hl1] at hinv
  refine ⟨hstep, ?_, ?_, ?_⟩
  · intro r hr
    obtain ⟨r', hr', rfl⟩ := List.mem_map.1 hr
    have := hinv.bounds r' hr'
    simp only
    omega
  · rw [List.pairwise_map]
    exact hinv.sep.imp (fun h => by simp only; omega)
  · intro k hk1 hk2 hne
    have hb := byteAt_ne_of_getElem?_ne rhs.Content u k (by omega) (by omega) hne
    have key : ∀ j, j ≤ k - s → k - s < j + 2 → j + 2 ≤ e - s → inRanges (low.map
        (fun val2 => Range.mk (s + val2.start) (s + val2.«end»))) k := by
      intro j hj1 hj2 hj3
      have hF : rollVal ((rhs.Content.drop s).take (e - s)) 2 j ≠
          rollVal ((u.drop s).take (e - s)) 2 j := by
        apply rollVal_two_ne
        rw [byteAt_slice _ _ _ _ (by omega), byteAt_slice _ _ _ _ (by omega),
          byteAt_slice _ _ _ _ (by omega), byteAt_slice _ _ _ _ (by omega)]
        by_cases hjk : j = k - s
        · left
          have : s + j = k := by omega
          rw [this]; exact hb
        · right
          have : s + (j + 1) = k := by omega
          rw [this]; exact hb
      obtain ⟨r', hr', h1, h2⟩ := (hinv.cover (k - s)).2 ⟨j, by omega, hF, hj1, hj2⟩
      exact ⟨_, List.mem_map.2 ⟨r', hr', rfl⟩, by simp only; omega, by simp only; omega⟩
    by_cases hend : k - s + 2 ≤ e - s
    · exact key (k - s) (le_refl _) (by omega) hend
    · exact key (k - s - 1) (by omega) (by omega) (by omega)

theorem findMinimalRanges_spec (rhs : FileDiffFinder) (o u : GoString) (n : Nat)
    (ho : o.length = n) (hu : u.length = n) (hn : 8 ≤ n) (hc : n ≤ rhs.Content.length) :
    ∃ wide ranges, findChangedRanges o u 8 = some wide ∧
      findMinimalRanges rhs o u = some ranges ∧
      RangesInv 8 (fun j => rollVal o 8 j ≠ rollVal u 8 j) (n - 8 + 1) wide ∧
      (∀ r ∈ ranges, r.start < r.«end» ∧ r.«end» ≤ n) ∧
      ranges.Pairwise (fun a b => a.«end» < b.start) ∧
      (∀ k, inRanges ranges k → inRanges wide k) ∧
      (∀ k, inRanges wide k → rhs.Content[k]? ≠ u[k]? → inRanges ranges k) := by
  obtain ⟨wide, hwide, hinv⟩ := findChangedRanges_spec o u 8 (by omega) (by omega) (by omega)
  rw [ho] at hinv
  have hval : ∀ val ∈ wide, val.start + 2 ≤ val.«end» ∧ val.«end» ≤ rhs.Content.length ∧
      val.«end» ≤ u.length := by
    intro val hv
    have := hinv.bounds val hv
    omega
  have hspec := fun val hv =>
    minimalStep_spec rhs u val (hval val hv).1 (hval val hv).2.1 (hval val hv).2.2
  refine ⟨wide, wide.flatMap (lowerRangesOf rhs u), hwide, ?_, hinv, ?_, ?_, ?_, ?_⟩
  · unfold findMinimalRanges
    simp only [widerWindowRange, hwide, Option.bind_eq_bind, Option.some_bind]
    rw [foldlM_append_flatMap (minimalStep rhs u) (lowerRangesOf rhs u) wide []
      (fun val hv => (hspec val hv).1)]
    simp
  · intro r hr
    obtain ⟨val, hv, hrv⟩ := List.mem_flatMap.1 hr
    have h1 := (hspec val hv).2.1 r hrv
    have h2 := hval val hv
    omega
  · rw [List.pairwise_flatMap]
    refine ⟨fun val hv => (hspec val hv).2.2.1, ?_⟩
    refine hinv.sep.imp_of_mem ?_
    intro a b ha hb hab x hx y hy
    have h1 := (hspec a ha).2.1 x hx
    have h2 := (hspec b hb).2.1 y hy
    omega
  · rintro k ⟨r, hr, hk1, hk2⟩
    obtain ⟨val, hv, hrv⟩ := List.mem_flatMap.1 hr
    have h1 := (hspec val hv).2.1 r hrv
    exact ⟨val, hv, by omega, by omega⟩
  · rintro k ⟨val, hv, hk1, hk2⟩ hne
    obtain ⟨r, hr, h⟩ := (hspec val hv).2.2.2 k hk1 hk2 hne
    exact ⟨r, List.mem_flatMap.2 ⟨val, hv, hr⟩, h⟩

/-! ## Index comparator: closed forms of the loops -/

theorem compareAt_eq (rhs : FileDiffFinder) (u : GoString) (acc : List UpdatedIndex) (i : Nat)
    (h1 : i < rhs.Content.length) (h2 : i < u.length) :
    compareAt rhs u acc i = some (acc ++ (updatedAt rhs.Content u i).toList) := by
  unfold compareAt updatedAt
  rw [List.getElem?_eq_getElem h1, List.getElem?_eq_getElem h2]
  by_cases e : rhs.Content[i] = u[i] <;> simp [e]

theorem compareAt_loop (rhs : FileDiffFinder) (u : GoString) :
    ∀ (k a : Nat) (acc : List UpdatedIndex),
      (∀ i, a ≤ i → i < a + k → i < rhs.Content.length ∧ i < u.length) →
      (List.range' a k).foldlM (compareAt rhs u) acc =
        some (acc ++ (List.range' a k).filterMap (updatedAt rhs.Content u)) := by
  intro k
  induction k with
  | zero => intro a acc _; simp
  | succ k ih =>
    intro a acc h
    have ha := h a (le_refl a) (by omega)
    rw [List.range'_succ, List.foldlM_cons, compareAt_eq rhs u acc a ha.1 ha.2]
    simp only [Option.bind_eq_bind, Option.some_bind]
    rw [ih (a + 1) _ (fun i hi1 hi2 => h i (by omega) (by omega))]
    cases hup : updatedAt rhs.Content u a <;> simp [List.filterMap_cons, hup]

theorem compareIndexes_eq (rhs : FileDiffFinder) (ranges : List Range) (u : GoString)
    (h : ∀ r ∈ ranges, r.«end» ≤ rhs.Content.length ∧ r.«end» ≤ u.length) :
    compareIndexes rhs ranges u = some (updatedRecords rhs.Content u ranges) := by
  unfold compareIndexes updatedRecords
  rw [foldlM_append_flatMap _ (fun r => (List.range' r.start (r.«end» - r.start)).filterMap
    (updatedAt rhs.Content u)) ranges []]
  · simp
  · intro r hr acc
    have := h r hr
    exact compareAt_loop rhs u _ _ acc (fun i hi1 hi2 => by omega)

theorem addedRecords_nil (n : Nat) (u : GoString) (h : u.length ≤ n) :
    addedRecords n u = [] := by
  simp [addedRecords, List.drop_eq_nil_of_le h]

theorem removedRecords_nil (m : Nat) (o : GoString) (h : o.length ≤ m) :
    removedRecords m o = [] := by
  simp [removedRecords, List.drop_eq_nil_of_le h]

theorem addedAt_loop (u : GoString) :
    ∀ (k n : Nat) (acc : List UpdatedIndex), n + k = u.length →
      (List.range' n k).foldlM (addedAt u) acc = some (acc ++ addedRecords n u) := by
  intro k
  induction k with
  | zero =>
    intro n acc h
    simp [addedRecords_nil n u (by omega)]
  | succ k ih =>
    intro n acc h
    have hn : n < u.length := by omega
    rw [List.range'_succ, List.foldlM_cons]
    have hstep : addedAt u acc n =
        some (acc ++ [UpdatedIndex.mk [] (sprintfC u[n]) n ChangeTypesAdded]) := by
      simp [addedAt, List.getElem?_eq_getElem hn]
    rw [hstep]
    simp only [Option.bind_eq_bind, Option.some_bind]
    rw [ih (n + 1) _ (by omega)]
    simp only [addedRecords, List.drop_eq_getElem_cons hn, List.enumFrom_cons, List.map_cons,
      List.append_assoc, List.singleton_append]

theorem removedAt_loop (rhs : FileDiffFinder) :
    ∀ (k m : Nat) (acc : List UpdatedIndex), m + k = rhs.Content.length →
      (List.range' m k).foldlM (removedAt rhs) acc =
        some (acc ++ removedRecords m rhs.Content) := by
  intro k
  induction k with
  | zero =>
    intro m acc h
    simp [removedRecords_nil m rhs.Content (by omega)]
  | succ k ih =>
    intro m acc h
    have hm : m < rhs.Content.length := by omega
    rw [List.range'_succ, List.foldlM_cons]
    have hstep : removedAt rhs acc m =
        some (acc ++ [UpdatedIndex.mk (sprintfC rhs.Content[m]) [] m ChangeTypesRemoved]) := by
      simp [removedAt, List.getElem?_eq_getElem hm]
    rw [hstep]
    simp only [Option.bind_eq_bind, Option.some_bind]
    rw [ih (m + 1) _ (by omega)]
    simp only [removedRecords, List.drop_eq_getElem_cons hm, List.enumFrom_cons, List.map_cons,
      List.append_assoc, List.singleton_append]

theorem compareBruteForce_eq (rhs : FileDiffFinder) (u : GoString) :
    compareBruteForce rhs u = some (bruteForceDelta rhs.Content u) := by
  unfold compareBruteForce bruteForceDelta
  by_cases hlen : u.length > rhs.Content.length
  · have hmin : min rhs.Content.length u.length = rhs.Content.length := by omega
    simp only [hlen, if_true, hmin]
    rw [compareAt_loop rhs u _ 0 [] (fun i _ hi => by omega)]
    simp only [Option.bind_eq_bind, Option.some_bind]
    rw [addedAt_loop u _ _ _ (by omega)]
    simp only [Option.some_bind, Nat.sub_self, List.range'_zero, List.foldlM_nil,
      Option.pure_def]
    rw [removedRecords_nil u.length rhs.Content (by omega)]
    simp
  · have hmin : min rhs.Content.length u.length = u.length := by omega
    simp only [hlen, if_false, hmin]
    rw [compareAt_loop rhs u _ 0 [] (fun i _ hi => by omega)]
    simp only [Option.bind_eq_bind, Option.some_bind, Nat.sub_self, List.range'_zero,
      List.foldlM_nil, Option.pure_def]
    rw [removedAt_loop rhs _ _ _ (by omega)]
    rw [addedRecords_nil rhs.Content.length u (by omega)]
    simp

/-! ## Diff orchestrator: the shape of every computed delta -/

theorem slice_zero (s : GoString) (n : Nat) (h : n ≤ s.length) : slice s 0 n = some (s.take n) := by
  simp [slice, h]

theorem updatedAt_take (o u : GoString) (n i : Nat) (h : i < n) :
    updatedAt o (u.take n) i = updatedAt o u i := by
  simp [updatedAt, List.getElem?_take, h]

theorem updatedRecords_take (o u : GoString) (n : Nat) (ranges : List Range)
    (h : ∀ r ∈ ranges, r.«end» ≤ n) :
    updatedRecords o (u.take n) ranges = updatedRecords o u ranges := by
  unfold updatedRecords
  apply List.flatMap_congr
  intro r hr
  apply List.filterMap_congr
  intro i hi
  have := h r hr
  have := List.mem_range'_1.1 hi
  exact updatedAt_take o u n i (by omega)

theorem diffBody_spec (rhs : FileDiffFinder) (u : GoString) :
    ∃ ranges : List Range,
      (∀ r ∈ ranges, r.«end» ≤ rhs.Content.length ∧ r.«end» ≤ u.length) ∧
      ranges.Pairwise (fun a b => a.«end» ≤ b.start) ∧
      diffBody rhs u = some (updatedRecords rhs.Content u ranges
        ++ addedRecords rhs.Content.length u ++ removedRecords u.length rhs.Content) := by
  unfold diffBody
  by_cases h1 : u = rhs.Content
  · refine ⟨[], by simp, by simp, ?_⟩
    rw [if_pos h1, addedRecords_nil _ _ (by rw [h1]), removedRecords_nil _ _ (by rw [h1])]
    simp [updatedRecords]
  rw [if_neg h1]
  by_cases h2 : u.length < widerWindowRange ∨ rhs.Content.length < widerWindowRange
  · refine ⟨[Range.mk 0 (min rhs.Content.length u.length)], ?_, by simp, ?_⟩
    · intro r hr
      simp only [List.mem_singleton] at hr
      subst hr
      simp only
      omega
    · rw [if_pos h2, compareBruteForce_eq]
      simp [bruteForceDelta, updatedRecords]
  rw [if_neg h2]
  simp only [widerWindowRange, not_or, not_lt] at h2
  by_cases h3 : u.length = rhs.Content.length
  · obtain ⟨wide, ranges, _, hr, _, hb, hp, _, _⟩ :=
      findMinimalRanges_spec rhs rhs.Content u u.length h3.symm rfl h2.1 (by omega)
    have hb' : ∀ r ∈ ranges, r.«end» ≤ rhs.Content.length ∧ r.«end» ≤ u.length := by
      intro r hr'
      have := hb r hr'
      omega
    refine ⟨ranges, hb', hp.imp (fun h => by omega), ?_⟩
    rw [if_pos h3, hr]
    simp only [Option.bind_eq_bind, Option.some_bind]
    rw [compareIndexes_eq rhs ranges u hb', addedRecords_nil _ _ (by omega),
      removedRecords_nil _ _ (by omega)]
    simp
  rw [if_neg h3]
  by_cases h4 : u.length > rhs.Content.length
  · have hlt : (u.take rhs.Content.length).length = rhs.Content.length := by
      simp only [List.length_take]; omega
    obtain ⟨wide, ranges, _, hr, _, hb, hp, _, _⟩ :=
      findMinimalRanges_spec rhs rhs.Content (u.take rhs.Content.length) rhs.Content.length
        rfl hlt h2.2 (le_refl _)
    have hb' : ∀ r ∈ ranges, r.«end» ≤ rhs.Content.length ∧
        r.«end» ≤ (u.take rhs.Content.length).length := by
      intro r hr'
      have := hb r hr'
      omega
    refine ⟨ranges, fun r hr' => by have := hb r hr'; omega, hp.imp (fun h => by omega), ?_⟩
    rw [if_pos h4, slice_zero u _ (by omega)]
    simp only [Option.bind_eq_bind, Option.some_bind, hr]
    rw [compareIndexes_eq rhs ranges _ hb']
    simp only [Option.some_bind]
    rw [addedAt_loop u _ _ _ (by omega), removedRecords_nil _ _ (by omega),
      updatedRecords_take _ _ _ _ (fun r hr' => (hb r hr').2)]
    simp
  · rw [if_neg h4]
    have hlt : (rhs.Content.take u.length).length = u.length := by
      simp only [List.length_take]; omega
    obtain ⟨wide, ranges, _, hr, _, hb, hp, _, _⟩ :=
      findMinimalRanges_spec rhs (rhs.Content.take u.length) u u.length
        hlt rfl h2.1 (by omega)
    have hb' : ∀ r ∈ ranges, r.«end» ≤ rhs.Content.length ∧ r.«end» ≤ u.length := by
      intro r hr'
      have := hb r hr'
      omega
    refine ⟨ranges, hb', hp.imp (fun h => by omega), ?_⟩
    rw [slice_zero rhs.Content _ (by omega)]
    simp only [Option.bind_eq_bind, Option.some_bind, hr]
    rw [compareIndexes_eq rhs ranges _ hb']
    simp only [Option.some_bind]
    rw [removedAt_loop rhs _ _ _ (by omega), addedRecords_nil _ _ (by omega)]
    simp

/-! ## Membership in the three kinds of records -/

theorem updatedAt_eq_some (o u : GoString) (i : Nat) (x : UpdatedIndex) :
    updatedAt o u i = some x ↔ ∃ a b, o[i]? = some a ∧ u[i]? = some b ∧ a ≠ b ∧
      x = UpdatedIndex.mk (sprintfC a) (sprintfC b) i ChangeTypesUpdated := by
  unfold updatedAt
  cases ho : o[i]? with
  | none => simp
  | some a =>
    cases hu : u[i]? with
    | none => simp
    | some b =>
      by_cases e : a = b
      · simp [e]
      · simp only [ne_eq, e, not_false_eq_true, if_true, Option.some.injEq]
        constructor
        · intro h
          exact ⟨a, b, rfl, rfl, e, h.symm⟩
        · rintro ⟨a', b', ha, hb, _, hx⟩
          rw [hx, ← ha, ← hb]

theorem mem_updatedRecords (o u : GoString) (ranges : List Range) (x : UpdatedIndex) :
    x ∈ updatedRecords o u ranges ↔
      inRanges ranges x.Index ∧ updatedAt o u x.Index = some x := by
  unfold updatedRecords inRanges
  simp only [List.mem_flatMap, List.mem_filterMap, List.mem_range'_1]
  constructor
  · rintro ⟨r, hr, i, hi, hx⟩
    have hidx : x.Index = i := by
      obtain ⟨a, b, _, _, _, rfl⟩ := (updatedAt_eq_some o u i x).1 hx
      rfl
    rw [hidx]
    exact ⟨⟨r, hr, by omega, by omega⟩, hx⟩
  · rintro ⟨⟨r, hr, h1, h2⟩, hx⟩
    exact ⟨r, hr, x.Index, ⟨h1, by omega⟩, hx⟩

theorem mem_enumFrom_iff {α : Type} (l : List α) (n i : Nat) (a : α) :
    (i, a) ∈ l.enumFrom n ↔ n ≤ i ∧ l[i - n]? = some a := by
  induction l generalizing n with
  | nil => simp
  | cons y ys ih =>
    rw [List.enumFrom_cons, List.mem_cons, ih]
    constructor
    · rintro (h | ⟨h1, h2⟩)
      · simp only [Prod.mk.injEq] at h
        obtain ⟨rfl, rfl⟩ := h
        simp
      · refine ⟨by omega, ?_⟩
        obtain ⟨m, hm⟩ : ∃ m, i - n = m + 1 := ⟨i - n - 1, by omega⟩
        have : i - (n + 1) = m := by omega
        rw [hm, List.getElem?_cons_succ, ← this]
        exact h2
    · rintro ⟨h1, h2⟩
      by_cases e : i = n
      · subst e
        simp only [Nat.sub_self, List.getElem?_cons_zero, Option.some.injEq] at h2
        left
        rw [h2]
      · right
        refine ⟨by omega, ?_⟩
        obtain ⟨m, hm⟩ : ∃ m, i - n = m + 1 := ⟨i - n - 1, by omega⟩
        have : i - (n + 1) = m := by omega
        rw [hm, List.getElem?_cons_succ] at h2
        rw [this]
        exact h2

theorem mem_addedRecords (n : Nat) (u : GoString) (x : UpdatedIndex) :
    x ∈ addedRecords n u ↔ ∃ b, n ≤ x.Index ∧ u[x.Index]? = some b ∧
      x = UpdatedIndex.mk [] (sprintfC b) x.Index ChangeTypesAdded := by
  unfold addedRecords
  simp only [List.mem_map, Prod.exists]
  constructor
  · rintro ⟨i, b, hm, rfl⟩
    obtain ⟨h1, h2⟩ := (mem_enumFrom_iff _ _ _ _).1 hm
    rw [List.getElem?_drop] at h2
    have : n + (i - n) = i := by omega
    rw [this] at h2
    exact ⟨b, h1, h2, rfl⟩
  · rintro ⟨b, h1, h2, hx⟩
    refine ⟨x.Index, b, (mem_enumFrom_iff _ _ _ _).2 ⟨h1, ?_⟩, hx.symm⟩
    rw [List.getElem?_drop]
    have : n + (x.Index - n) = x.Index := by omega
    rw [this]
    exact h2

theorem mem_removedRecords (m : Nat) (o : GoString) (x : UpdatedIndex) :
    x ∈ removedRecords m o ↔ ∃ a, m ≤ x.Index ∧ o[x.Index]? = some a ∧
      x = UpdatedIndex.mk (sprintfC a) [] x.Index ChangeTypesRemoved := by
  unfold removedRecords
  simp only [List.mem_map, Prod.exists]
  constructor
  · rintro ⟨i, b, hm, rfl⟩
    obtain ⟨h1, h2⟩ := (mem_enumFrom_iff _ _ _ _).1 hm
    rw [List.getElem?_drop] at h2
    have : m + (i - m) = i := by omega
    rw [this] at h2
    exact ⟨b, h1, h2, rfl⟩
  · rintro ⟨b, h1, h2, hx⟩
    refine ⟨x.Index, b, (mem_enumFrom_iff _ _ _ _).2 ⟨h1, ?_⟩, hx.symm⟩
    rw [List.getElem?_drop]
    have : m + (x.Index - m) = x.Index := by omega
    rw [this]
    exact h2

theorem types_distinct : ChangeTypesUpdated ≠ ChangeTypesAdded ∧
    ChangeTypesUpdated ≠ ChangeTypesRemoved ∧ ChangeTypesAdded ≠ ChangeTypesRemoved := by
  decide

theorem mem_bruteForceDelta (o u : GoString) (x : UpdatedIndex) :
    x ∈ bruteForceDelta o u ↔
      (x.Index < min o.length u.length ∧ updatedAt o u x.Index = some x) ∨
      x ∈ addedRecords o.length u ∨ x ∈ removedRecords u.length o := by
  have hup : (List.range' 0 (min o.length u.length)).filterMap (updatedAt o u) =
      updatedRecords o u [Range.mk 0 (min o.length u.length)] := by
    simp [updatedRecords]
  unfold bruteForceDelta
  rw [hup]
  simp only [List.mem_append, mem_updatedRecords, inRanges_singleton, or_assoc]
  simp

theorem updatedAt_isSome_of_ne (o u : GoString) (i : Nat) (h1 : i < o.length)
    (h2 : i < u.length) (hne : o[i]? ≠ u[i]?) :
    updatedAt o u i =
      some (UpdatedIndex.mk (sprintfC o[i]) (sprintfC u[i]) i ChangeTypesUpdated) := by
  rw [updatedAt_eq_some]
  refine ⟨o[i], u[i], List.getElem?_eq_getElem h1, List.getElem?_eq_getElem h2, ?_, rfl⟩
  intro e
  apply hne
  rw [List.getElem?_eq_getElem h1, List.getElem?_eq_getElem h2, e]

theorem ne_of_updatedAt (o u : GoString) (i : Nat) (x : UpdatedIndex)
    (h : updatedAt o u i = some x) :
    o[i]? ≠ u[i]? ∧ i < o.length ∧ i < u.length ∧ x.Index = i ∧
      x.«Type» = ChangeTypesUpdated := by
  obtain ⟨a, b, ha, hb, hab, rfl⟩ := (updatedAt_eq_some o u i x).1 h
  refine ⟨?_, ?_, ?_, rfl, rfl⟩
  · rw [ha, hb]
    intro e
    exact hab (Option.some.inj e)
  · by_contra hlt
    rw [List.getElem?_eq_none (by omega)] at ha
    exact Option.noConfusion ha
  · by_contra hlt
    rw [List.getElem?_eq_none (by omega)] at hb
    exact Option.noConfusion hb

theorem hashAt_eq (s : GoString) (w j : Nat) (h1 : 1 ≤ w) (h2 : w ≤ s.length) :
    hashAt s w j = if j < s.length - w + 1 then some (rollVal s w j) else none := by
  unfold hashAt
  rw [applyRollingHash_eq s w h1 h2]
  simp only [Option.some_bind, List.getElem?_map, List.getElem?_range']
  by_cases h : j < s.length - w + 1
  · simp [h, List.getElem?_range]
  · simp only [h, if_false]
    rw [List.getElem?_eq_none (by simp; omega)]
    rfl

theorem hashAt_ne_iff (a b : GoString) (w j : Nat) (h1 : 1 ≤ w) (h2 : w ≤ a.length)
    (hlen : a.length = b.length) :
    hashAt a w j ≠ hashAt b w j ↔ j < a.length - w + 1 ∧ rollVal a w j ≠ rollVal b w j := by
  rw [hashAt_eq a w j h1 h2, hashAt_eq b w j h1 (hlen ▸ h2), ← hlen]
  by_cases h : j < a.length - w + 1
  · simp [h]
  · simp [h]

/-! ## The claims -/

/-- C1 (as stated, refuted): the baseline of eight zero bytes and the candidate
`00 00 00 00 3B 9A CA 07` have equal length 8, `Diff` completes with an empty delta, while
`compareBruteForce` reports the four mismatching indices 4, 5, 6 and 7 (the bytes at index
4, for one, differ). -/
theorem Diff_equal_length_collision_loses_updates :
    collisionCandidate.length = collisionBaseline.length ∧ 8 ≤ collisionBaseline.length ∧
    Diff (FileDiffFinder.mk (FileInfo.mk collisionBaseline 1)) none collisionCandidate
      = some ([], none) ∧
    (compareBruteForce (FileDiffFinder.mk (FileInfo.mk collisionBaseline 1))
        collisionCandidate).map (fun d => d.map (fun x => (x.«Type», x.Index)))
      = some [(ChangeTypesUpdated, 4), (ChangeTypesUpdated, 5), (ChangeTypesUpdated, 6),
          (ChangeTypesUpdated, 7)] ∧
    collisionBaseline[4]? ≠ collisionCandidate[4]? := by
  refine ⟨by decide, by decide, by decide, by decide, by decide⟩

/-- C1 (amended): for a baseline and a candidate of equal length at least 8, `Diff` completes
and the indices of its `UPDATED` records are exactly the mismatching indices (the `UPDATED`
indices of `compareBruteForce`) that lie in a window `[j, j+8)` at whose offset `j` the two
window-8 rolling hashes differ. -/
theorem Diff_equal_length_updated_indices (rhs : FileDiffFinder) (u : GoString)
    (hlen : u.length = rhs.Content.length) (h8 : 8 ≤ u.length) :
    ∃ delta brute, Diff rhs none u = some (delta, none) ∧
      compareBruteForce rhs u = some brute ∧
      (∀ i, (∃ x ∈ brute, x.«Type» = ChangeTypesUpdated ∧ x.Index = i) ↔
        rhs.Content[i]? ≠ u[i]?) ∧
      (∀ i, (∃ x ∈ delta, x.«Type» = ChangeTypesUpdated ∧ x.Index = i) ↔
        (rhs.Content[i]? ≠ u[i]? ∧
          ∃ j, j ≤ i ∧ i < j + 8 ∧ hashAt rhs.Content 8 j ≠ hashAt u 8 j)) := by
  have hbrute : ∀ i, (∃ x ∈ bruteForceDelta rhs.Content u,
      x.«Type» = ChangeTypesUpdated ∧ x.Index = i) ↔ rhs.Content[i]? ≠ u[i]? := by
    intro i
    constructor
    · rintro ⟨x, hx, _, rfl⟩
      rw [mem_bruteForceDelta, addedRecords_nil _ _ (by omega),
        removedRecords_nil _ _ (by omega)] at hx
      simp only [List.not_mem_nil, or_false] at hx
      exact (ne_of_updatedAt _ _ _ _ hx.2).1
    · intro hne
      have hi : i < rhs.Content.length := by
        by_contra hlt
        apply hne
        rw [List.getElem?_eq_none (by omega), List.getElem?_eq_none (by omega)]
      have hi2 : i < u.length := by omega
      refine ⟨UpdatedIndex.mk (sprintfC rhs.Content[i]) (sprintfC u[i]) i ChangeTypesUpdated,
        (mem_bruteForceDelta _ _ _).2 (Or.inl ⟨?_, ?_⟩), rfl, rfl⟩
      · simp only; omega
      · exact updatedAt_isSome_of_ne _ _ i hi hi2 hne
  by_cases h1 : u = rhs.Content
  · refine ⟨[], bruteForceDelta rhs.Content u, ?_, compareBruteForce_eq rhs u, hbrute, ?_⟩
    · simp [Diff, diffBody, h1]
    · intro i
      simp [h1]
  · obtain ⟨wide, ranges, _, hr, hinv, hb, _, hsub, hsup⟩ :=
      findMinimalRanges_spec rhs rhs.Content u u.length hlen.symm rfl h8 (by omega)
    have hb' : ∀ r ∈ ranges, r.«end» ≤ rhs.Content.length ∧ r.«end» ≤ u.length := by
      intro r hr'
      have := hb r hr'
      omega
    refine ⟨updatedRecords rhs.Content u ranges, bruteForceDelta rhs.Content u, ?_,
      compareBruteForce_eq rhs u, hbrute, ?_⟩
    · have h2 : ¬ (u.length < widerWindowRange ∨ rhs.Content.length < widerWindowRange) := by
        simp only [widerWindowRange]; omega
      have hd : diffBody rhs u = some (updatedRecords rhs.Content u ranges) := by
        unfold diffBody
        rw [if_neg h1, if_neg h2, if_pos hlen, hr]
        simp [compareIndexes_eq rhs ranges u hb']
      simp [Diff, hd]
    · intro i
      constructor
      · rintro ⟨x, hx, _, rfl⟩
        obtain ⟨hin, hat⟩ := (mem_updatedRecords _ _ _ _).1 hx
        refine ⟨(ne_of_updatedAt _ _ _ _ hat).1, ?_⟩
        obtain ⟨j, hj, hF, hk1, hk2⟩ := (hinv.cover x.Index).1 (hsub _ hin)
        exact ⟨j, hk1, hk2, (hashAt_ne_iff _ _ 8 j (by omega) (by omega) hlen.symm).2
          ⟨by omega, hF⟩⟩
      · rintro ⟨hne, j, hk1, hk2, hh⟩
        obtain ⟨hj, hF⟩ := (hashAt_ne_iff _ _ 8 j (by omega) (by omega) hlen.symm).1 hh
        have hin : inRanges ranges i :=
          hsup i ((hinv.cover i).2 ⟨j, by omega, hF, hk1, hk2⟩) hne
        have hi : i < rhs.Content.length := by
          by_contra hlt
          apply hne
          rw [List.getElem?_eq_none (by omega), List.getElem?_eq_none (by omega)]
        have hi2 : i < u.length := by omega
        exact ⟨UpdatedIndex.mk (sprintfC rhs.Content[i]) (sprintfC u[i]) i ChangeTypesUpdated,
          (mem_updatedRecords _ _ _ _).2 ⟨hin, updatedAt_isSome_of_ne _ _ i hi hi2 hne⟩,
          rfl, rfl⟩

/-- C1 (amended), instance: the colliding pair of eight-byte texts. -/
theorem Diff_equal_length_updated_indices_witness :
    ∃ delta brute,
      Diff (FileDiffFinder.mk (FileInfo.mk collisionBaseline 1)) none collisionCandidate
        = some (delta, none) ∧
      compareBruteForce (FileDiffFinder.mk (FileInfo.mk collisionBaseline 1))
        collisionCandidate = some brute ∧
      (∀ i, (∃ x ∈ brute, x.«Type» = ChangeTypesUpdated ∧ x.Index = i) ↔
        (FileDiffFinder.mk (FileInfo.mk collisionBaseline 1)).Content[i]? ≠
          collisionCandidate[i]?) ∧
      (∀ i, (∃ x ∈ delta, x.«Type» = ChangeTypesUpdated ∧ x.Index = i) ↔
        ((FileDiffFinder.mk (FileInfo.mk collisionBaseline 1)).Content[i]? ≠
            collisionCandidate[i]? ∧
          ∃ j, j ≤ i ∧ i < j + 8 ∧
            hashAt (FileDiffFinder.mk (FileInfo.mk collisionBaseline 1)).Content 8 j ≠
              hashAt collisionCandidate 8 j)) :=
  Diff_equal_length_updated_indices (FileDiffFinder.mk (FileInfo.mk collisionBaseline 1))
    collisionCandidate (by decide) (by decide)

theorem sprintfC_ne_nil (b : Fin 256) : sprintfC b ≠ [] := by
  unfold sprintfC
  split <;> simp

theorem sprintfC_injective (a b : Fin 256) (h : sprintfC a = sprintfC b) : a = b := by
  unfold sprintfC at h
  by_cases ha : a.val < 128 <;> by_cases hb : b.val < 128
  · simpa [ha, hb] using h
  · simp [ha, hb] at h
  · simp [ha, hb] at h
  · simp only [ha, hb, if_false, List.cons.injEq, Fin.mk.injEq, and_true] at h
    apply Fin.ext
    omega

/-- Every record of every result of `Diff` is of one of three shapes: the `UPDATED` record of
a mismatching index, the `ADDED` record of a candidate byte at or beyond the end of the
baseline, the `REMOVED` record of a baseline byte at or beyond the end of the candidate. -/
theorem Diff_records (rhs : FileDiffFinder) (ctxDone : Option String) (u : GoString) :
    ∃ delta err, Diff rhs ctxDone u = some (delta, err) ∧ ∀ x ∈ delta,
      (∃ a b, rhs.Content[x.Index]? = some a ∧ u[x.Index]? = some b ∧ a ≠ b ∧
        x = UpdatedIndex.mk (sprintfC a) (sprintfC b) x.Index ChangeTypesUpdated) ∨
      (∃ b, rhs.Content.length ≤ x.Index ∧ u[x.Index]? = some b ∧
        x = UpdatedIndex.mk [] (sprintfC b) x.Index ChangeTypesAdded) ∨
      (∃ a, u.length ≤ x.Index ∧ rhs.Content[x.Index]? = some a ∧
        x = UpdatedIndex.mk (sprintfC a) [] x.Index ChangeTypesRemoved) := by
  cases ctxDone with
  | some e => exact ⟨[], some e, rfl, by simp⟩
  | none =>
    obtain ⟨ranges, _, _, hd⟩ := diffBody_spec rhs u
    refine ⟨updatedRecords rhs.Content u ranges ++ addedRecords rhs.Content.length u
      ++ removedRecords u.length rhs.Content, none, by simp [Diff, hd], ?_⟩
    intro x hx
    rcases List.mem_append.1 hx with hx | hx
    · rcases List.mem_append.1 hx with hx | hx
      · left
        obtain ⟨_, hat⟩ := (mem_updatedRecords _ _ _ _).1 hx
        obtain ⟨a, b, ha, hb, hab, hxe⟩ := (updatedAt_eq_some _ _ _ _).1 hat
        exact ⟨a, b, ha, hb, hab, hxe⟩
      · right; left
        exact (mem_addedRecords _ _ _).1 hx
    · right; right
      exact (mem_removedRecords _ _ _).1 hx

theorem addedRecords_length (n : Nat) (u : GoString) :
    (addedRecords n u).length = u.length - n := by
  simp [addedRecords]

theorem removedRecords_length (m : Nat) (o : GoString) :
    (removedRecords m o).length = o.length - m := by
  simp [removedRecords]

/-- C2: when the candidate differs from the baseline and one of the two is shorter than 8
bytes, `Diff` completes without error and returns exactly the brute-force delta: the
`UPDATED` records of the mismatching indices below the shorter length in ascending order,
then one `ADDED` record per candidate byte from the baseline length on, then one `REMOVED`
record per baseline byte from the candidate length on. -/
theorem Diff_short_text_is_brute_force (rhs : FileDiffFinder) (u : GoString)
    (hne : u ≠ rhs.Content) (hshort : u.length < 8 ∨ rhs.Content.length < 8) :
    Diff rhs none u = some (bruteForceDelta rhs.Content u, none) ∧
    bruteForceDelta rhs.Content u =
      (List.range' 0 (min rhs.Content.length u.length)).filterMap (updatedAt rhs.Content u)
        ++ addedRecords rhs.Content.length u ++ removedRecords u.length rhs.Content ∧
    (addedRecords rhs.Content.length u).length = u.length - rhs.Content.length ∧
    (removedRecords u.length rhs.Content).length = rhs.Content.length - u.length := by
  refine ⟨?_, rfl, addedRecords_length _ _, removedRecords_length _ _⟩
  have hd : diffBody rhs u = some (bruteForceDelta rhs.Content u) := by
    unfold diffBody
    rw [if_neg hne, if_pos (by simpa [widerWindowRange] using hshort), compareBruteForce_eq]
  simp [Diff, hd]

/-- C2, instance: baseline `abc`, candidate `abxde`. -/
theorem Diff_short_text_is_brute_force_witness :
    Diff (FileDiffFinder.mk (FileInfo.mk [97, 98, 99] 13)) none [97, 98, 120, 100, 101] =
      some (bruteForceDelta (FileDiffFinder.mk (FileInfo.mk [97, 98, 99] 13)).Content
        [97, 98, 120, 100, 101], none) ∧
    bruteForceDelta (FileDiffFinder.mk (FileInfo.mk [97, 98, 99] 13)).Content
        [97, 98, 120, 100, 101] =
      [UpdatedIndex.mk [99] [120] 2 ChangeTypesUpdated,
        UpdatedIndex.mk [] [100] 3 ChangeTypesAdded,
        UpdatedIndex.mk [] [101] 4 ChangeTypesAdded] :=
  ⟨(Diff_short_text_is_brute_force (FileDiffFinder.mk (FileInfo.mk [97, 98, 99] 13))
      [97, 98, 120, 100, 101] (by decide) (by decide)).1, by decide⟩

/-- C3: for ranges lying inside both texts, `compareIndexes` returns, range by range and in
ascending index order inside a range, the `UPDATED` record of every index at which the two
bytes differ and nothing for the other indices; a record belongs to that result exactly when
its index lies in a range, the bytes there differ, and it carries the two characters and the
index.  Moreover every `UPDATED` record of every result of `Diff` marks a mismatch of the
baseline and the candidate and has `OldValue ≠ NewValue`. -/
theorem compareIndexes_emits_exactly_mismatches (rhs : FileDiffFinder) (ranges : List Range)
    (u : GoString)
    (h : ∀ r ∈ ranges, r.«end» ≤ rhs.Content.length ∧ r.«end» ≤ u.length) :
    compareIndexes rhs ranges u = some (ranges.flatMap (fun r =>
      (List.range' r.start (r.«end» - r.start)).filterMap (updatedAt rhs.Content u))) ∧
    (∀ i x, updatedAt rhs.Content u i = some x ↔
      ∃ a b, rhs.Content[i]? = some a ∧ u[i]? = some b ∧ a ≠ b ∧
        x = UpdatedIndex.mk (sprintfC a) (sprintfC b) i ChangeTypesUpdated) ∧
    (∀ (ctxDone : Option String) (v : GoString), ∃ delta err,
      Diff rhs ctxDone v = some (delta, err) ∧
      ∀ x ∈ delta, x.«Type» = ChangeTypesUpdated →
        ∃ a b, rhs.Content[x.Index]? = some a ∧ v[x.Index]? = some b ∧ a ≠ b ∧
          x.OldValue = sprintfC a ∧ x.NewValue = sprintfC b ∧ x.OldValue ≠ x.NewValue) := by
  refine ⟨compareIndexes_eq rhs ranges u h, updatedAt_eq_some rhs.Content u, ?_⟩
  intro ctxDone v
  obtain ⟨delta, err, hd, hrec⟩ := Diff_records rhs ctxDone v
  refine ⟨delta, err, hd, ?_⟩
  intro x hx hty
  rcases hrec x hx with ⟨a, b, ha, hb, hab, hxe⟩ | ⟨b, _, _, hxe⟩ | ⟨a, _, _, hxe⟩
  · refine ⟨a, b, ha, hb, hab, by rw [hxe], by rw [hxe], ?_⟩
    rw [hxe]
    intro e
    exact hab (sprintfC_injective a b e)
  · rw [hxe] at hty
    exact absurd hty.symm types_distinct.1
  · rw [hxe] at hty
    exact absurd hty.symm types_distinct.2.1

/-- C3, instance: baseline `abcabcabc`, candidate `abxabcabc`, the single range `[1, 4)`. -/
theorem compareIndexes_emits_exactly_mismatches_witness :
    compareIndexes (FileDiffFinder.mk (FileInfo.mk [97, 98, 99, 97, 98, 99, 97, 98, 99] 13))
        [Range.mk 1 4] [97, 98, 120, 97, 98, 99, 97, 98, 99] =
      some [UpdatedIndex.mk [99] [120] 2 ChangeTypesUpdated] := by
  have h := (compareIndexes_emits_exactly_mismatches
    (FileDiffFinder.mk (FileInfo.mk [97, 98, 99, 97, 98, 99, 97, 98, 99] 13))
    [Range.mk 1 4] [97, 98, 120, 97, 98, 99, 97, 98, 99] (by decide)).1
  rw [h]
  decide

/-- C4: for every baseline text, of any length, `Diff` with the candidate equal to the
baseline completes with no error and an empty delta. -/
theorem Diff_same_text_is_empty (rhs : FileDiffFinder) :
    Diff rhs none rhs.Content = some ([], none) := by
  simp [Diff, diffBody]

theorem addedRecords_getElem? (n : Nat) (u : GoString) (j : Nat) (hn : n ≤ j)
    (hj : j < u.length) :
    (addedRecords n u)[j - n]? =
      some (UpdatedIndex.mk [] (sprintfC u[j]) j ChangeTypesAdded) := by
  have e : n + (j - n) = j := by omega
  simp only [addedRecords, List.getElem?_map, List.getElem?_enumFrom, List.getElem?_drop, e,
    List.getElem?_eq_getElem hj, Option.map_some']

theorem removedRecords_getElem? (m : Nat) (o : GoString) (j : Nat) (hm : m ≤ j)
    (hj : j < o.length) :
    (removedRecords m o)[j - m]? =
      some (UpdatedIndex.mk (sprintfC o[j]) [] j ChangeTypesRemoved) := by
  have e : m + (j - m) = j := by omega
  simp only [removedRecords, List.getElem?_map, List.getElem?_enumFrom, List.getElem?_drop, e,
    List.getElem?_eq_getElem hj, Option.map_some']

theorem updatedRecords_type (o u : GoString) (ranges : List Range) :
    ∀ x ∈ updatedRecords o u ranges, x.«Type» = ChangeTypesUpdated := by
  intro x hx
  exact (ne_of_updatedAt _ _ _ _ ((mem_updatedRecords _ _ _ _).1 hx).2).2.2.2.2

/-- C5: for a baseline of length `n ≥ 8` and a candidate of length `m > n`, the range-narrowing
comparison of the baseline against `candidate[0:n]` completes with `UPDATED` records `us`, and
`Diff` completes without error and returns `us` followed by exactly `m - n` `ADDED` records,
the one at position `j - n` having `Index = j`, `NewValue` the character of `candidate[j]` and
empty `OldValue`, for `j = n, ..., m - 1`. -/
theorem Diff_longer_candidate (rhs : FileDiffFinder) (u : GoString)
    (h8 : 8 ≤ rhs.Content.length) (hlen : rhs.Content.length < u.length) :
    ∃ ranges us,
      findMinimalRanges rhs rhs.Content (u.take rhs.Content.length) = some ranges ∧
      compareIndexes rhs ranges (u.take rhs.Content.length) = some us ∧
      (∀ x ∈ us, x.«Type» = ChangeTypesUpdated) ∧
      Diff rhs none u = some (us ++ addedRecords rhs.Content.length u, none) ∧
      (addedRecords rhs.Content.length u).length = u.length - rhs.Content.length ∧
      ∀ j (hj : j < u.length), rhs.Content.length ≤ j →
        (addedRecords rhs.Content.length u)[j - rhs.Content.length]? =
          some (UpdatedIndex.mk [] (sprintfC u[j]) j ChangeTypesAdded) := by
  have hlt : (u.take rhs.Content.length).length = rhs.Content.length := by
    simp only [List.length_take]; omega
  obtain ⟨wide, ranges, _, hr, _, hb, _, _, _⟩ :=
    findMinimalRanges_spec rhs rhs.Content (u.take rhs.Content.length) rhs.Content.length
      rfl hlt h8 (le_refl _)
  have hb' : ∀ r ∈ ranges, r.«end» ≤ rhs.Content.length ∧
      r.«end» ≤ (u.take rhs.Content.length).length := by
    intro r hr'
    have := hb r hr'
    omega
  have hc := compareIndexes_eq rhs ranges _ hb'
  refine ⟨ranges, _, hr, hc, updatedRecords_type _ _ _, ?_, addedRecords_length _ _,
    fun j hj hn => addedRecords_getElem? _ u j hn hj⟩
  have h1 : u ≠ rhs.Content := by
    intro e
    rw [e] at hlen
    omega
  have h2 : ¬ (u.length < widerWindowRange ∨ rhs.Content.length < widerWindowRange) := by
    simp only [widerWindowRange]; omega
  have h3 : ¬ u.length = rhs.Content.length := by omega
  have hd : diffBody rhs u = some (updatedRecords rhs.Content (u.take rhs.Content.length) ranges
      ++ addedRecords rhs.Content.length u) := by
    unfold diffBody
    rw [if_neg h1, if_neg h2, if_neg h3, if_pos hlen, slice_zero u _ (by omega)]
    simp only [Option.bind_eq_bind, Option.some_bind, hr, hc]
    rw [addedAt_loop u _ _ _ (by omega)]
  simp [Diff, hd]

/-- C5, instance: baseline `abcabcabc`, candidate `abxabcabcde`. -/
theorem Diff_longer_candidate_witness :
    ∃ ranges us,
      findMinimalRanges (FileDiffFinder.mk (FileInfo.mk [97, 98, 99, 97, 98, 99, 97, 98, 99] 13))
        [97, 98, 99, 97, 98, 99, 97, 98, 99]
        [97, 98, 120, 97, 98, 99, 97, 98, 99] = some ranges ∧
      compareIndexes (FileDiffFinder.mk (FileInfo.mk [97, 98, 99, 97, 98, 99, 97, 98, 99] 13))
        ranges [97, 98, 120, 97, 98, 99, 97, 98, 99] = some us ∧
      Diff (FileDiffFinder.mk (FileInfo.mk [97, 98, 99, 97, 98, 99, 97, 98, 99] 13)) none
        [97, 98, 120, 97, 98, 99, 97, 98, 99, 100, 101] =
        some (us ++ [UpdatedIndex.mk [] [100] 9 ChangeTypesAdded,
          UpdatedIndex.mk [] [101] 10 ChangeTypesAdded], none) := by
  obtain ⟨ranges, us, h1, h2, _, h3, _, _⟩ := Diff_longer_candidate
    (FileDiffFinder.mk (FileInfo.mk [97, 98, 99, 97, 98, 99, 97, 98, 99] 13))
    [97, 98, 120, 97, 98, 99, 97, 98, 99, 100, 101] (by decide) (by decide)
  exact ⟨ranges, us, h1, h2, h3⟩

/-- C6: for a candidate of length `m ≥ 8` and a baseline of length `n > m`, the range-narrowing
comparison of `baseline[0:m]` against the candidate completes with `UPDATED` records `us`, and
`Diff` completes without error and returns `us` followed by exactly `n - m` `REMOVED` records,
the one at position `j - m` having `Index = j`, `OldValue` the character of `baseline[j]` and
empty `NewValue`, for `j = m, ..., n - 1`. -/
theorem Diff_shorter_candidate (rhs : FileDiffFinder) (u : GoString)
    (h8 : 8 ≤ u.length) (hlen : u.length < rhs.Content.length) :
    ∃ ranges us,
      findMinimalRanges rhs (rhs.Content.take u.length) u = some ranges ∧
      compareIndexes rhs ranges u = some us ∧
      (∀ x ∈ us, x.«Type» = ChangeTypesUpdated) ∧
      Diff rhs none u = some (us ++ removedRecords u.length rhs.Content, none) ∧
      (removedRecords u.length rhs.Content).length = rhs.Content.length - u.length ∧
      ∀ j (hj : j < rhs.Content.length), u.length ≤ j →
        (removedRecords u.length rhs.Content)[j - u.length]? =
          some (UpdatedIndex.mk (sprintfC rhs.Content[j]) [] j ChangeTypesRemoved) := by
  have hlt : (rhs.Content.take u.length).length = u.length := by
    simp only [List.length_take]; omega
  obtain ⟨wide, ranges, _, hr, _, hb, _, _, _⟩ :=
    findMinimalRanges_spec rhs (rhs.Content.take u.length) u u.length hlt rfl h8 (by omega)
  have hb' : ∀ r ∈ ranges, r.«end» ≤ rhs.Content.length ∧ r.«end» ≤ u.length := by
    intro r hr'
    have := hb r hr'
    omega
  have hc := compareIndexes_eq rhs ranges _ hb'
  refine ⟨ranges, _, hr, hc, updatedRecords_type _ _ _, ?_, removedRecords_length _ _,
    fun j hj hn => removedRecords_getElem? _ rhs.Content j hn hj⟩
  have h1 : u ≠ rhs.Content := by
    intro e
    rw [e] at hlen
    omega
  have h2 : ¬ (u.length < widerWindowRange ∨ rhs.Content.length < widerWindowRange) := by
    simp only [widerWindowRange]; omega
  have h3 : ¬ u.length = rhs.Content.length := by omega
  have h4 : ¬ u.length > rhs.Content.length := by omega
  have hd : diffBody rhs u = some (updatedRecords rhs.Content u ranges
      ++ removedRecords u.length rhs.Content) := by
    unfold diffBody
    rw [if_neg h1, if_neg h2, if_neg h3, if_neg h4, slice_zero rhs.Content _ (by omega)]
    simp only [Option.bind_eq_bind, Option.some_bind, hr, hc]
    rw [removedAt_loop rhs _ _ _ (by omega)]
  simp [Diff, hd]

/-- C6, instance: baseline `abcabcabcde`, candidate `abxabcabc`. -/
theorem Diff_shorter_candidate_witness :
    ∃ ranges us,
      findMinimalRanges
        (FileDiffFinder.mk (FileInfo.mk [97, 98, 99, 97, 98, 99, 97, 98, 99, 100, 101] 13))
        [97, 98, 99, 97, 98, 99, 97, 98, 99]
        [97, 98, 120, 97, 98, 99, 97, 98, 99] = some ranges ∧
      compareIndexes
        (FileDiffFinder.mk (FileInfo.mk [97, 98, 99, 97, 98, 99, 97, 98, 99, 100, 101] 13))
        ranges [97, 98, 120, 97, 98, 99, 97, 98, 99] = some us ∧
      Diff (FileDiffFinder.mk (FileInfo.mk [97, 98, 99, 97, 98, 99, 97, 98, 99, 100, 101] 13))
        none [97, 98, 120, 97, 98, 99, 97, 98, 99] =
        some (us ++ [UpdatedIndex.mk [100] [] 9 ChangeTypesRemoved,
          UpdatedIndex.mk [101] [] 10 ChangeTypesRemoved], none) := by
  obtain ⟨ranges, us, h1, h2, _, h3, _, _⟩ := Diff_shorter_candidate
    (FileDiffFinder.mk (FileInfo.mk [97, 98, 99, 97, 98, 99, 97, 98, 99, 100, 101] 13))
    [97, 98, 120, 97, 98, 99, 97, 98, 99] (by decide) (by decide)
  exact ⟨ranges, us, h1, h2, h3⟩

theorem lt_length_of_getElem?_eq_some {α : Type} (l : List α) (i : Nat) (a : α)
    (h : l[i]? = some a) : i < l.length := by
  by_contra hlt
  rw [List.getElem?_eq_none (by omega)] at h
  exact Option.noConfusion h

/-- C7: in every delta returned by `Diff`, an `UPDATED` record has its index below the
baseline length; a `REMOVED` record occurs only when the candidate is shorter and has its
index in `[len(candidate), len(baseline))`, hence below the baseline length; an `ADDED`
record occurs only when the candidate is longer and has its index in
`[len(baseline), len(candidate))`. -/
theorem Diff_index_bounds (rhs : FileDiffFinder) (ctxDone : Option String) (u : GoString) :
    ∃ delta err, Diff rhs ctxDone u = some (delta, err) ∧ ∀ x ∈ delta,
      (x.«Type» = ChangeTypesUpdated → x.Index < rhs.Content.length) ∧
      (x.«Type» = ChangeTypesRemoved → u.length < rhs.Content.length ∧
        u.length ≤ x.Index ∧ x.Index < rhs.Content.length) ∧
      (x.«Type» = ChangeTypesAdded → rhs.Content.length < u.length ∧
        rhs.Content.length ≤ x.Index ∧ x.Index < u.length) := by
  obtain ⟨delta, err, hd, hrec⟩ := Diff_records rhs ctxDone u
  refine ⟨delta, err, hd, ?_⟩
  intro x hx
  obtain ⟨t1, t2, t3⟩ := types_distinct
  rcases hrec x hx with ⟨a, b, ha, hb, _, hxe⟩ | ⟨b, hn, hb, hxe⟩ | ⟨a, hm, ha, hxe⟩
  · have hty : x.«Type» = ChangeTypesUpdated := by rw [hxe]
    have hi := lt_length_of_getElem?_eq_some _ _ _ ha
    refine ⟨fun _ => hi, fun h => ?_, fun h => ?_⟩
    · rw [hty] at h; exact absurd h t2
    · rw [hty] at h; exact absurd h t1
  · have hty : x.«Type» = ChangeTypesAdded := by rw [hxe]
    have hi := lt_length_of_getElem?_eq_some _ _ _ hb
    refine ⟨fun h => ?_, fun h => ?_, fun _ => ⟨by omega, hn, hi⟩⟩
    · rw [hty] at h; exact absurd h.symm t1
    · rw [hty] at h; exact absurd h t3
  · have hty : x.«Type» = ChangeTypesRemoved := by rw [hxe]
    have hi := lt_length_of_getElem?_eq_some _ _ _ ha
    refine ⟨fun h => ?_, fun _ => ⟨by omega, hm, hi⟩, fun h => ?_⟩
    · rw [hty] at h; exact absurd h.symm t2
    · rw [hty] at h; exact absurd h.symm t3

theorem updatedRecords_sorted (o u : GoString) (ranges : List Range)
    (h : ranges.Pairwise (fun a b => a.«end» ≤ b.start)) :
    ((updatedRecords o u ranges).map UpdatedIndex.Index).Pairwise (· < ·) := by
  rw [List.pairwise_map]
  unfold updatedRecords
  rw [List.pairwise_flatMap]
  constructor
  · intro r _
    refine List.Pairwise.filterMap (updatedAt o u) ?_ (List.pairwise_lt_range' r.start _)
    intro i i' hii x hx y hy
    have h1 := (ne_of_updatedAt o u i x hx).2.2.2.1
    have h2 := (ne_of_updatedAt o u i' y hy).2.2.2.1
    omega
  · refine h.imp ?_
    intro a b hab x hx y hy
    obtain ⟨i, hi, hxi⟩ := List.mem_filterMap.1 hx
    obtain ⟨i', hi', hyi⟩ := List.mem_filterMap.1 hy
    have h1 := (ne_of_updatedAt o u i x hxi).2.2.2.1
    have h2 := (ne_of_updatedAt o u i' y hyi).2.2.2.1
    have h3 := List.mem_range'_1.1 hi
    have h4 := List.mem_range'_1.1 hi'
    omega

theorem addedRecords_sorted (n : Nat) (u : GoString) :
    ((addedRecords n u).map UpdatedIndex.Index).Pairwise (· < ·) := by
  have : (addedRecords n u).map UpdatedIndex.Index = List.range' n (u.drop n).length := by
    unfold addedRecords
    rw [List.map_map, ← List.enumFrom_map_fst]
    rfl
  rw [this]
  exact List.pairwise_lt_range' _ _

theorem removedRecords_sorted (m : Nat) (o : GoString) :
    ((removedRecords m o).map UpdatedIndex.Index).Pairwise (· < ·) := by
  have : (removedRecords m o).map UpdatedIndex.Index = List.range' m (o.drop m).length := by
    unfold removedRecords
    rw [List.map_map, ← List.enumFrom_map_fst]
    rfl
  rw [this]
  exact List.pairwise_lt_range' _ _

/-- C8: every delta returned by `Diff`, on every dispatch path, splits into a first phase that
holds only `UPDATED` records and a second phase that holds only `ADDED` or `REMOVED` records,
and in each phase the indices are strictly ascending. -/
theorem Diff_phases_ordered (rhs : FileDiffFinder) (ctxDone : Option String) (u : GoString) :
    ∃ us tail err, Diff rhs ctxDone u = some (us ++ tail, err) ∧
      (∀ x ∈ us, x.«Type» = ChangeTypesUpdated) ∧
      (∀ x ∈ tail, x.«Type» = ChangeTypesAdded ∨ x.«Type» = ChangeTypesRemoved) ∧
      (us.map UpdatedIndex.Index).Pairwise (· < ·) ∧
      (tail.map UpdatedIndex.Index).Pairwise (· < ·) := by
  cases ctxDone with
  | some e => exact ⟨[], [], some e, rfl, by simp, by simp, by simp, by simp⟩
  | none =>
    obtain ⟨ranges, _, hp, hd⟩ := diffBody_spec rhs u
    refine ⟨updatedRecords rhs.Content u ranges,
      addedRecords rhs.Content.length u ++ removedRecords u.length rhs.Content, none,
      by simp [Diff, hd], updatedRecords_type _ _ _, ?_, updatedRecords_sorted _ _ _ hp, ?_⟩
    · intro x hx
      rcases List.mem_append.1 hx with hx | hx
      · obtain ⟨b, _, _, hxe⟩ := (mem_addedRecords _ _ _).1 hx
        left; rw [hxe]
      · obtain ⟨a, _, _, hxe⟩ := (mem_removedRecords _ _ _).1 hx
        right; rw [hxe]
    · by_cases hlen : u.length ≤ rhs.Content.length
      · rw [addedRecords_nil _ _ hlen, List.nil_append]
        exact removedRecords_sorted _ _
      · rw [removedRecords_nil _ _ (by omega), List.append_nil]
        exact addedRecords_sorted _ _

/-- C9: every record of every delta returned by `Diff` is of type `UPDATED`, `ADDED` or
`REMOVED`; an `UPDATED` record has non-empty `OldValue` and `NewValue`, an `ADDED` record has
empty `OldValue` and non-empty `NewValue`, a `REMOVED` record has non-empty `OldValue` and
empty `NewValue`. -/
theorem Diff_record_kind_invariant (rhs : FileDiffFinder) (ctxDone : Option String)
    (u : GoString) :
    ∃ delta err, Diff rhs ctxDone u = some (delta, err) ∧ ∀ x ∈ delta,
      (x.«Type» = ChangeTypesUpdated ∨ x.«Type» = ChangeTypesAdded ∨
        x.«Type» = ChangeTypesRemoved) ∧
      (x.«Type» = ChangeTypesUpdated → x.OldValue ≠ [] ∧ x.NewValue ≠ []) ∧
      (x.«Type» = ChangeTypesAdded → x.OldValue = [] ∧ x.NewValue ≠ []) ∧
      (x.«Type» = ChangeTypesRemoved → x.OldValue ≠ [] ∧ x.NewValue = []) := by
  obtain ⟨delta, err, hd, hrec⟩ := Diff_records rhs ctxDone u
  refine ⟨delta, err, hd, ?_⟩
  intro x hx
  obtain ⟨t1, t2, t3⟩ := types_distinct
  rcases hrec x hx with ⟨a, b, _, _, _, hxe⟩ | ⟨b, _, _, hxe⟩ | ⟨a, _, _, hxe⟩
  · have hty : x.«Type» = ChangeTypesUpdated := by rw [hxe]
    have ho : x.OldValue = sprintfC a := by rw [hxe]
    have hn : x.NewValue = sprintfC b := by rw [hxe]
    refine ⟨Or.inl hty, fun _ => ?_, fun h => ?_, fun h => ?_⟩
    · rw [ho, hn]; exact ⟨sprintfC_ne_nil a, sprintfC_ne_nil b⟩
    · rw [hty] at h; exact absurd h t1
    · rw [hty] at h; exact absurd h t2
  · have hty : x.«Type» = ChangeTypesAdded := by rw [hxe]
    have ho : x.OldValue = [] := by rw [hxe]
    have hn : x.NewValue = sprintfC b := by rw [hxe]
    refine ⟨Or.inr (Or.inl hty), fun h => ?_, fun _ => ?_, fun h => ?_⟩
    · rw [hty] at h; exact absurd h.symm t1
    · rw [hn]; exact ⟨ho, sprintfC_ne_nil b⟩
    · rw [hty] at h; exact absurd h t3
  · have hty : x.«Type» = ChangeTypesRemoved := by rw [hxe]
    have ho : x.OldValue = sprintfC a := by rw [hxe]
    have hn : x.NewValue = [] := by rw [hxe]
    refine ⟨Or.inr (Or.inr hty), fun h => ?_, fun h => ?_, fun _ => ?_⟩
    · rw [hty] at h; exact absurd h.symm t2
    · rw [hty] at h; exact absurd h.symm t3
    · rw [ho]; exact ⟨sprintfC_ne_nil a, hn⟩

/-- C10: for a current version `c` and a proposed version `v`, both 64-bit Go integers,
`ValidateVersion v` returns no error, on the `FileInfo` and on the `FileDiffFinder` delegating
to it, if and only if `v = c + 1`. -/
theorem ValidateVersion_ok_iff_successor (rhs : FileDiffFinder) (v : Int)
    (hc : -2 ^ 63 ≤ rhs.originalFileInfo.version ∧ rhs.originalFileInfo.version < 2 ^ 63)
    (hv : -2 ^ 63 ≤ v ∧ v < 2 ^ 63) :
    (rhs.originalFileInfo.ValidateVersion v = none ↔ v = rhs.originalFileInfo.Version + 1) ∧
    (rhs.ValidateVersion v = none ↔ v = rhs.Version + 1) := by
  have key : rhs.originalFileInfo.ValidateVersion v = none ↔
      v = rhs.originalFileInfo.version + 1 := by
    unfold FileInfo.ValidateVersion wrap64
    by_cases h1 : v ≤ rhs.originalFileInfo.version
    · simp only [h1, if_true]
      constructor
      · intro h; exact Option.noConfusion h
      · intro h; omega
    · simp only [h1, if_false]
      by_cases h2 : v > (rhs.originalFileInfo.version + 1 + 2 ^ 63) % 2 ^ 64 - 2 ^ 63
      · simp only [h2, if_true]
        constructor
        · intro h; exact Option.noConfusion h
        · intro h; omega
      · simp only [h2, if_false, true_iff]
        omega
  exact ⟨key, key⟩

/-- C10, instance: current version 13, proposed version 14. -/
theorem ValidateVersion_ok_iff_successor_witness :
    (FileDiffFinder.mk (FileInfo.mk [97, 98, 99] 13)).ValidateVersion 14 = none :=
  ((ValidateVersion_ok_iff_successor (FileDiffFinder.mk (FileInfo.mk [97, 98, 99] 13)) 14
    (by decide) (by decide)).2).2 (by decide)

/-! ## Version guard, cancellation and the serving layer -/

theorem stale_message_ne_latest_message (a b : String) :
    "newer version should be used. Current version is " ++ a ≠ "the latest version is " ++ b := by
  intro h
  have := congrArg String.data h
  simp [String.data_append] at this

/-- C11: for a current version `c` and a proposed version `v`, both 64-bit Go integers,
`ValidateVersion v` fails with the message `newer version should be used. Current version is
<c>` exactly when `v ≤ c`, and with the message `the latest version is <c>. Please use
incremental number for versioning of file info.` exactly when `v > c + 1`; the two conditions
exclude each other, and when `v ≤ c` the stale error is returned whatever the second
comparison (made on the wrapped `c + 1`) would give. -/
theorem ValidateVersion_failures (rhs : FileInfo) (v : Int)
    (hc : -2 ^ 63 ≤ rhs.version ∧ rhs.version < 2 ^ 63)
    (hv : -2 ^ 63 ≤ v ∧ v < 2 ^ 63) :
    (rhs.ValidateVersion v =
        some ("newer version should be used. Current version is " ++ toString rhs.version)
      ↔ v ≤ rhs.version) ∧
    (rhs.ValidateVersion v =
        some ("the latest version is " ++ toString rhs.version ++ ". " ++
          "Please use incremental number for versioning of file info.")
      ↔ v > rhs.version + 1) ∧
    ¬ (v ≤ rhs.version ∧ v > rhs.version + 1) ∧
    (v ≤ rhs.version → v > wrap64 (rhs.version + 1) → rhs.ValidateVersion v =
        some ("newer version should be used. Current version is " ++ toString rhs.version)) := by
  have hne := stale_message_ne_latest_message (toString rhs.version)
    (toString rhs.version ++ ". " ++ "Please use incremental number for versioning of file info.")
  simp only [← String.append_assoc] at hne
  refine ⟨?_, ?_, by omega, ?_⟩
  · unfold FileInfo.ValidateVersion wrap64
    by_cases h1 : v ≤ rhs.version
    · simp only [h1, if_true]
    · simp only [h1, if_false, iff_false]
      by_cases h2 : v > (rhs.version + 1 + 2 ^ 63) % 2 ^ 64 - 2 ^ 63
      · simp only [h2, if_true, Option.some.injEq]
        exact fun e => hne e.symm
      · simp only [h2, if_false]
        exact fun e => Option.noConfusion e
  · unfold FileInfo.ValidateVersion wrap64
    by_cases h1 : v ≤ rhs.version
    · simp only [h1, if_true, Option.some.injEq]
      constructor
      · intro e; exact absurd e hne
      · intro h; omega
    · simp only [h1, if_false]
      by_cases h2 : v > (rhs.version + 1 + 2 ^ 63) % 2 ^ 64 - 2 ^ 63
      · simp only [h2, if_true, true_iff]
        omega
      · simp only [h2, if_false]
        constructor
        · intro e; exact Option.noConfusion e
        · intro h; omega
  · intro h1 _
    unfold FileInfo.ValidateVersion
    simp only [h1, if_true]

/-- C11, instance: current version 13, proposed versions 12 and 16 (the messages of the
tests of `file_info_test.go`). -/
theorem ValidateVersion_failures_witness :
    (FileInfo.mk [] 13).ValidateVersion 12 =
      some "newer version should be used. Current version is 13" ∧
    (FileInfo.mk [] 13).ValidateVersion 16 =
      some "the latest version is 13. Please use incremental number for versioning of file info." :=
  ⟨((ValidateVersion_failures (FileInfo.mk [] 13) 12 (by decide) (by decide)).1).2 (by decide),
    ((ValidateVersion_failures (FileInfo.mk [] 13) 16 (by decide) (by decide)).2.1).2
      (by decide)⟩

theorem diffBody_total (rhs : FileDiffFinder) (u : GoString) :
    ∃ delta, diffBody rhs u = some delta := by
  obtain ⟨ranges, _, _, hd⟩ := diffBody_spec rhs u
  exact ⟨_, hd⟩

theorem Diff_none_of_diffBody (rhs : FileDiffFinder) (u : GoString) (delta : List UpdatedIndex)
    (h : diffBody rhs u = some delta) : Diff rhs none u = some (delta, none) := by
  simp [Diff, h]

/-- C12: with the outcome of the race as an input, when the cancellation signal wins `Diff`
returns the error of the context and an empty delta, whatever the candidate and the baseline
are; when the computation wins, the computation completes and `Diff` returns its delta with
no error; and no result of `Diff` carries both an error and a record. -/
theorem Diff_race_outcome (rhs : FileDiffFinder) (u : GoString) :
    (∀ e, Diff rhs (some e) u = some ([], some e)) ∧
    (∃ delta, diffBody rhs u = some delta ∧ Diff rhs none u = some (delta, none)) ∧
    (∀ ctxDone, ∃ delta err, Diff rhs ctxDone u = some (delta, err) ∧
      (err ≠ none → delta = [])) := by
  obtain ⟨delta, hd⟩ := diffBody_total rhs u
  refine ⟨fun e => rfl, ⟨delta, hd, Diff_none_of_diffBody rhs u delta hd⟩, ?_⟩
  intro ctxDone
  cases ctxDone with
  | some e => exact ⟨[], some e, rfl, fun _ => rfl⟩
  | none => exact ⟨delta, none, Diff_none_of_diffBody rhs u delta hd, fun h => absurd rfl h⟩

/-- C13: the baseline of eight zero bytes and the candidate `00 00 00 00 3B 9A CA 07`, whose
base-256 value is `1000000007`, have equal length 8 and differ at index 7, their window-8
hash sequences are the same one-element sequence, and `Diff` completes with an empty delta and
no error. -/
theorem hash_collision_hides_change :
    collisionCandidate.length = collisionBaseline.length ∧ 8 ≤ collisionBaseline.length ∧
    collisionBaseline[7]? ≠ collisionCandidate[7]? ∧
    windowValue collisionCandidate 0 8 = 1000000007 ∧
    applyRollingHash collisionBaseline 8 = some [0] ∧
    applyRollingHash collisionCandidate 8 = some [0] ∧
    ∀ version, Diff (FileDiffFinder.mk (FileInfo.mk collisionBaseline version)) none
      collisionCandidate = some ([], none) := by
  refine ⟨by decide, by decide, by decide, by decide, by decide, by decide, ?_⟩
  intro version
  have h : diffBody (FileDiffFinder.mk (FileInfo.mk collisionBaseline version))
      collisionCandidate = diffBody (FileDiffFinder.mk (FileInfo.mk collisionBaseline 0))
      collisionCandidate := rfl
  simp only [Diff, h]
  decide

theorem run_foldlM_of_run {α β : Type} (fM : β → α → FinderM β) (f : β → α → Option β)
    (rhs : FileDiffFinder)
    (h : ∀ acc x, (fM acc x).run rhs = (f acc x).map (fun r => (r, rhs))) :
    ∀ (l : List α) (init : β),
      (l.foldlM fM init).run rhs = (l.foldlM f init).map (fun r => (r, rhs)) := by
  intro l
  induction l with
  | nil => intro init; rfl
  | cons x xs ih =>
    intro init
    rw [List.foldlM_cons, List.foldlM_cons, StateT.run_bind, h]
    cases hf : f init x with
    | none => rfl
    | some b =>
      simp only [Option.map_some', Option.bind_eq_bind, Option.some_bind]
      exact ih b

theorem ContentM_run (rhs : FileDiffFinder) : ContentM.run rhs = some (rhs.Content, rhs) := rfl

theorem compareAtM_run (rhs : FileDiffFinder) (u : GoString) (acc : List UpdatedIndex)
    (ind : Nat) :
    (compareAtM u acc ind).run rhs = (compareAt rhs u acc ind).map (fun r => (r, rhs)) := by
  unfold compareAtM compareAt
  simp only [StateT.run_bind, ContentM_run, Option.bind_eq_bind, Option.some_bind,
    StateT.run_monadLift, monadLift_self, bind_pure_comp]
  cases ho : rhs.Content[ind]? with
  | none => rfl
  | some o =>
    cases hu : u[ind]? with
    | none => rfl
    | some x =>
      by_cases e : o = x
      · simp [e]
      · simp [e, StateT.run_bind, ContentM_run, ho]

theorem compareIndexesM_run (rhs : FileDiffFinder) (ranges : List Range) (u : GoString) :
    (compareIndexesM ranges u).run rhs =
      (compareIndexes rhs ranges u).map (fun r => (r, rhs)) := by
  unfold compareIndexesM compareIndexes
  apply run_foldlM_of_run
  intro acc val
  exact run_foldlM_of_run _ _ rhs (compareAtM_run rhs u) _ acc

theorem removedAtM_run (rhs : FileDiffFinder) (acc : List UpdatedIndex) (ind : Nat) :
    (removedAtM acc ind).run rhs = (removedAt rhs acc ind).map (fun r => (r, rhs)) := by
  unfold removedAtM removedAt
  simp only [StateT.run_bind, ContentM_run, Option.bind_eq_bind, Option.some_bind,
    StateT.run_monadLift, monadLift_self, bind_pure_comp]
  cases ho : rhs.Content[ind]? with
  | none => rfl
  | some o => rfl

theorem compareBruteForceM_run (rhs : FileDiffFinder) (u : GoString) :
    (compareBruteForceM u).run rhs = (compareBruteForce rhs u).map (fun r => (r, rhs)) := by
  unfold compareBruteForceM compareBruteForce
  simp only [StateT.run_bind, ContentM_run, Option.bind_eq_bind, Option.some_bind,
    StateT.run_monadLift, monadLift_self, bind_pure_comp,
    run_foldlM_of_run _ _ rhs (compareAtM_run rhs u),
    run_foldlM_of_run _ _ rhs (removedAtM_run rhs)]
  generalize List.foldlM (compareAt rhs u) [] _ = x1
  cases x1 with
  | none => rfl
  | some a1 =>
    simp only [Option.map_some', Option.some_bind]
    generalize List.foldlM (addedAt u) a1 _ = x2
    cases x2 with
    | none => rfl
    | some a2 =>
      simp only [Option.map_eq_map, Option.map_some', Option.some_bind]
      exact run_foldlM_of_run _ _ rhs (removedAtM_run rhs) _ _

theorem minimalStepM_run (rhs : FileDiffFinder) (u : GoString) (acc : List Range)
    (val : Range) :
    (minimalStepM u acc val).run rhs = (minimalStep rhs u acc val).map (fun r => (r, rhs)) := by
  unfold minimalStepM minimalStep
  simp only [StateT.run_bind, ContentM_run, Option.bind_eq_bind, Option.some_bind,
    StateT.run_monadLift, monadLift_self, StateT.run_pure, Option.pure_def]
  cases slice rhs.Content val.start val.«end» with
  | none => rfl
  | some o =>
    cases slice u val.start val.«end» with
    | none => rfl
    | some x =>
      simp only [Option.some_bind]
      cases findChangedRanges o x narrowWindowRange with
      | none => rfl
      | some l => rfl

theorem findMinimalRangesM_run (rhs : FileDiffFinder) (o u : GoString) :
    (findMinimalRangesM o u).run rhs =
      (findMinimalRanges rhs o u).map (fun r => (r, rhs)) := by
  unfold findMinimalRangesM findMinimalRanges
  simp only [StateT.run_bind, Option.bind_eq_bind, StateT.run_monadLift, monadLift_self,
    bind_pure_comp]
  cases findChangedRanges o u widerWindowRange with
  | none => rfl
  | some l =>
    simp only [Option.map_eq_map, Option.map_some', Option.some_bind]
    exact run_foldlM_of_run _ _ rhs (minimalStepM_run rhs u) _ _

theorem diffBodyM_run (rhs : FileDiffFinder) (u : GoString) :
    (diffBodyM u).run rhs = (diffBody rhs u).map (fun r => (r, rhs)) := by
  unfold diffBodyM diffBody
  simp only [StateT.run_bind, ContentM_run, Option.bind_eq_bind, Option.some_bind]
  split_ifs
  · rfl
  · exact compareBruteForceM_run rhs u
  · simp only [StateT.run_bind, findMinimalRangesM_run, Option.bind_eq_bind]
    cases findMinimalRanges rhs rhs.Content u with
    | none => rfl
    | some l =>
      simp only [Option.map_some', Option.some_bind]
      exact compareIndexesM_run rhs l u
  · simp only [StateT.run_bind, ContentM_run, Option.bind_eq_bind, Option.some_bind,
      StateT.run_monadLift, monadLift_self, Option.pure_def, findMinimalRangesM_run,
      compareIndexesM_run]
    cases hs : slice u 0 rhs.Content.length with
    | none => rfl
    | some hd =>
      simp only [Option.some_bind]
      cases findMinimalRanges rhs rhs.Content hd with
      | none => rfl
      | some l =>
        simp only [Option.some_bind, Option.map_some', hs]
        cases compareIndexes rhs l hd with
        | none => rfl
        | some ci =>
          simp only [Option.some_bind, Option.map_some']
          cases List.foldlM (addedAt u) ci
            (List.range' rhs.Content.length (u.length - rhs.Content.length)) with
          | none => rfl
          | some r => rfl
  · simp only [StateT.run_bind, ContentM_run, Option.bind_eq_bind, Option.some_bind,
      StateT.run_monadLift, monadLift_self, Option.pure_def, findMinimalRangesM_run,
      compareIndexesM_run]
    cases slice rhs.Content 0 u.length with
    | none => rfl
    | some hd =>
      simp only [Option.some_bind]
      cases findMinimalRanges rhs hd u with
      | none => rfl
      | some l =>
        simp only [Option.some_bind, Option.map_some']
        cases compareIndexes rhs l u with
        | none => rfl
        | some ci =>
          simp only [Option.some_bind, Option.map_some']
          exact run_foldlM_of_run _ _ rhs (removedAtM_run rhs) _ _

theorem DiffM_run (rhs : FileDiffFinder) (ctxDone : Option String) (u : GoString) :
    (DiffM ctxDone u).run rhs = (Diff rhs ctxDone u).map (fun r => (r, rhs)) := by
  obtain ⟨d, hd⟩ := diffBody_total rhs u
  unfold DiffM Diff
  simp only [StateT.run_bind, diffBodyM_run, hd, Option.map_some', Option.bind_eq_bind,
    Option.some_bind]
  cases ctxDone <;> rfl

/-- C14: a call of `Diff` on the state of the receiver, whatever the outcome of its race
(delta or error), completes with the result of `Diff` and leaves the finder in a state
whose `Content()` and `Version()` are those before the call; a second call with the same
candidate, run on the state left by the first, does so again; and when both calls complete
with the goroutine first, they return the same delta, record for record, and no error. -/
theorem Diff_leaves_baseline_unchanged (rhs : FileDiffFinder) (c1 c2 : Option String)
    (u : GoString) :
    ∃ res1 rhs1 res2 rhs2,
      (DiffM c1 u).run rhs = some (res1, rhs1) ∧ Diff rhs c1 u = some res1 ∧
      rhs1.Content = rhs.Content ∧ rhs1.Version = rhs.Version ∧
      (DiffM c2 u).run rhs1 = some (res2, rhs2) ∧ Diff rhs c2 u = some res2 ∧
      rhs2.Content = rhs.Content ∧ rhs2.Version = rhs.Version ∧
      (c1 = none → c2 = none → res1.1 = res2.1 ∧ res1.2 = none ∧ res2.2 = none) := by
  obtain ⟨d1, e1, h1, _⟩ := Diff_records rhs c1 u
  obtain ⟨d2, e2, h2, _⟩ := Diff_records rhs c2 u
  refine ⟨(d1, e1), rhs, (d2, e2), rhs, by rw [DiffM_run, h1]; rfl, h1, rfl, rfl,
    by rw [DiffM_run, h2]; rfl, h2, rfl, rfl, ?_⟩
  intro hc1 hc2
  subst hc1 hc2
  obtain ⟨delta, hd⟩ := diffBody_total rhs u
  have h3 := Diff_none_of_diffBody rhs u delta hd
  rw [h3] at h1 h2
  simp only [Option.some.injEq, Prod.mk.injEq] at h1 h2
  obtain ⟨a1, b1⟩ := h1
  obtain ⟨a2, b2⟩ := h2
  subst a1 b1 a2 b2
  exact ⟨rfl, rfl, rfl⟩

/-- C15 (as stated, refuted): with the one-byte baseline `80` and the one-byte candidate `81`
the only record of the delta has the two-byte `OldValue` `C2 80` and the two-byte `NewValue`
`C2 81`. -/
theorem Diff_high_byte_values_are_two_bytes :
    Diff (FileDiffFinder.mk (FileInfo.mk [0x80] 1)) none [0x81] =
      some ([UpdatedIndex.mk [0xC2, 0x80] [0xC2, 0x81] 0 ChangeTypesUpdated], none) := by
  decide

/-- C15 (amended): in every record of every delta returned by `Diff`, `OldValue` is empty or
is `fmt.Sprintf("%c", b)` for the baseline byte `b` at the record's index, and `NewValue` is
empty or is `fmt.Sprintf("%c", b)` for the candidate byte `b` at the record's index; that
string is the byte itself for every byte below `0x80`, and for every byte from `0x80` on it is
the two-byte UTF-8 encoding `0xC0 + b / 64`, `0x80 + b % 64` of the code point `b`.  In both
cases the string determines the byte. -/
theorem Diff_values_are_characters (rhs : FileDiffFinder) (ctxDone : Option String)
    (u : GoString) :
    (∃ delta err, Diff rhs ctxDone u = some (delta, err) ∧ ∀ x ∈ delta,
      (x.OldValue = [] ∨ ∃ b, rhs.Content[x.Index]? = some b ∧ x.OldValue = sprintfC b) ∧
      (x.NewValue = [] ∨ ∃ b, u[x.Index]? = some b ∧ x.NewValue = sprintfC b)) ∧
    (∀ b : Fin 256, b.val < 128 → sprintfC b = [b]) ∧
    (∀ b : Fin 256, 128 ≤ b.val → (sprintfC b).map Fin.val = [192 + b.val / 64, 128 + b.val % 64]) ∧
    (∀ a b : Fin 256, sprintfC a = sprintfC b → a = b) := by
  refine ⟨?_, ?_, ?_, sprintfC_injective⟩
  · obtain ⟨delta, err, hd, hrec⟩ := Diff_records rhs ctxDone u
    refine ⟨delta, err, hd, ?_⟩
    intro x hx
    rcases hrec x hx with ⟨a, b, ha, hb, _, hxe⟩ | ⟨b, _, hb, hxe⟩ | ⟨a, _, ha, hxe⟩
    · exact ⟨Or.inr ⟨a, ha, by rw [hxe]⟩, Or.inr ⟨b, hb, by rw [hxe]⟩⟩
    · exact ⟨Or.inl (by rw [hxe]), Or.inr ⟨b, hb, by rw [hxe]⟩⟩
    · exact ⟨Or.inr ⟨a, ha, by rw [hxe]⟩, Or.inl (by rw [hxe])⟩
  · intro b hb
    simp [sprintfC, hb]
  · intro b hb
    have : ¬ b.val < 128 := by omega
    simp [sprintfC, this]

/-- C16: `Valid` returns no error if and only if `Version > 0` and `Text` is present; it
returns `Version must be provided and should be positive integer` whenever `Version ≤ 0`,
whether or not `Text` is present, and `missing text in payload` when `Version > 0` and `Text`
is `nil`. -/
theorem RequestPayload_Valid_spec (rp : RequestPayload) :
    (rp.Valid = none ↔ rp.Version > 0 ∧ rp.Text ≠ none) ∧
    (rp.Version ≤ 0 →
      rp.Valid = some "Version must be provided and should be positive integer") ∧
    (rp.Version > 0 → rp.Text = none → rp.Valid = some "missing text in payload") := by
  unfold RequestPayload.Valid
  refine ⟨?_, ?_, ?_⟩
  · by_cases h1 : rp.Version ≤ 0
    · simp only [h1, if_true]
      constructor
      · intro e; exact Option.noConfusion e
      · intro h; omega
    · cases ht : rp.Text with
      | none =>
        constructor
        · intro e
          simp [h1] at e
        · intro h; exact absurd rfl h.2
      | some t =>
        constructor
        · intro _
          exact ⟨by omega, fun e => Option.noConfusion e⟩
        · intro _
          simp [h1]
  · intro h1
    simp only [h1, if_true]
  · intro h1 h2
    have : ¬ rp.Version ≤ 0 := by omega
    simp only [this, if_false, h2, Option.isNone_none, if_true]

theorem find?_filter_key (l : List (String × CacheValue)) (k k' : String) :
    (l.filter (fun kv => kv.1 ≠ k)).find? (fun kv => kv.1 = k') =
      if k' = k then none else l.find? (fun kv => kv.1 = k') := by
  induction l with
  | nil => simp
  | cons x xs ih =>
    rw [List.filter_cons]
    by_cases h1 : x.1 = k
    · have hd : decide (x.1 ≠ k) = false := by simp [h1]
      rw [hd]
      simp only [Bool.false_eq_true, if_false]
      rw [ih]
      by_cases h2 : k' = k
      · simp only [h2, if_true]
      · have h3 : decide (x.1 = k') = false := by
          rw [h1]; simp only [decide_eq_false_iff_not]; exact fun e => h2 e.symm
        simp only [h2, if_false, List.find?_cons, h3]
    · have hd : decide (x.1 ≠ k) = true := by simp [h1]
      rw [hd]
      simp only [if_true, List.find?_cons]
      rw [ih]
      by_cases h2 : k' = k
      · have h3 : decide (x.1 = k) = false := by
          simp only [decide_eq_false_iff_not]; exact h1
        simp only [h2, if_true, h3]
      · simp only [h2, if_false]

theorem Cache_Get_Delete_Set (c : Cache) (k k' : String) (v : CacheValue) :
    ((c.Set k v).Delete k).Get k' = if k' = k then none else c.Get k' := by
  simp only [Cache.Get, Cache.Delete, Cache.Set]
  rw [find?_filter_key]
  by_cases h : k' = k
  · simp only [h, if_true, Option.map_none']
  · have h3 : decide (k = k') = false := by
      simp only [decide_eq_false_iff_not]; exact fun e => h e.symm
    simp only [h, if_false, List.find?_cons, h3]
    rw [find?_filter_key]
    simp only [h, if_false]

theorem Cache_Get_Set (c : Cache) (k : String) (v : CacheValue) :
    (c.Set k v).Get k = some v := by
  simp [Cache.Get, Cache.Set]

theorem Router_Diff_run_admitted (rt : Router) (t : RequestPayload) (text : GoString)
    (ctxDone encodeErr : Option String) (res : List UpdatedIndex × Option String)
    (hvalid : t.Valid = none) (hver : rt.srv.ValidateVersion t.Version = none)
    (ht : t.Text = some text) (hget : rt.cache.Get (versionKey t.Version) = none)
    (hD : Diff rt.srv ctxDone text = some res) :
    ∃ w, (res.2 = none → w.status = some 200) ∧ (∀ e, res.2 = some e → w.status = some 500) ∧
      (Router.Diff (some t) ctxDone encodeErr).run
          (HandlerState.mk rt (ResponseWriter.mk none []) []) =
        some ((), HandlerState.mk
          (Router.mk ((rt.cache.Set (versionKey t.Version) (CacheValue.bool true)).Delete
            (versionKey t.Version)) rt.srv) w
          [(Event.cacheGet (versionKey t.Version), rt.cache),
            (Event.cacheSet (versionKey t.Version) (CacheValue.bool true),
              rt.cache.Set (versionKey t.Version) (CacheValue.bool true)),
            (Event.diffCall text, rt.cache.Set (versionKey t.Version) (CacheValue.bool true)),
            (Event.cacheDelete (versionKey t.Version),
              (rt.cache.Set (versionKey t.Version) (CacheValue.bool true)).Delete
                (versionKey t.Version))]) := by
  obtain ⟨d, e⟩ := res
  cases e with
  | some err =>
    refine ⟨errorResponse (ResponseWriter.mk none []) err 500,
      fun h => Option.noConfusion h, fun _ _ => rfl, ?_⟩
    simp only [Router.Diff, hvalid, StateT.run_bind, rtSrvValidateVersion, rtCacheGet,
      rtCacheSet, rtSrvDiff, rtCacheDelete, rtSrvVersion, onWriter,
      StateT.run_get, StateT.run_set, StateT.run_pure, StateT.run_monadLift, monadLift_self,
      Option.pure_def, Option.bind_eq_bind, Option.some_bind, hver, hget, ht, hD,
      List.nil_append, List.cons_append]
  | none =>
    cases encodeErr with
    | none =>
      refine ⟨ResponseWriter.mk (some 200)
        [Body.response (Response.mk d rt.srv.Version t.Version)],
        fun _ => rfl, fun _ h => Option.noConfusion h, ?_⟩
      simp only [Router.Diff, hvalid, StateT.run_bind, rtSrvValidateVersion, rtCacheGet,
        rtCacheSet, rtSrvDiff, rtCacheDelete, rtSrvVersion, onWriter,
        StateT.run_get, StateT.run_set, StateT.run_pure, StateT.run_monadLift, monadLift_self,
        Option.pure_def, Option.bind_eq_bind, Option.some_bind, hver, hget, ht, hD,
        List.nil_append, List.cons_append]
      rfl
    | some err =>
      refine ⟨errorResponse ((ResponseWriter.mk none []).WriteHeader 200) err 500,
        fun _ => rfl, fun _ h => Option.noConfusion h, ?_⟩
      simp only [Router.Diff, hvalid, StateT.run_bind, rtSrvValidateVersion, rtCacheGet,
        rtCacheSet, rtSrvDiff, rtCacheDelete, rtSrvVersion, onWriter,
        StateT.run_get, StateT.run_set, StateT.run_pure, StateT.run_monadLift, monadLift_self,
        Option.pure_def, Option.bind_eq_bind, Option.some_bind, hver, hget, ht, hD,
        List.nil_append, List.cons_append]

theorem Router_Diff_run_rejected (rt : Router) (t : RequestPayload)
    (ctxDone encodeErr : Option String) (v : CacheValue)
    (hvalid : t.Valid = none) (hver : rt.srv.ValidateVersion t.Version = none)
    (hget : rt.cache.Get (versionKey t.Version) = some v) :
    (Router.Diff (some t) ctxDone encodeErr).run
        (HandlerState.mk rt (ResponseWriter.mk none []) []) =
      some ((), HandlerState.mk rt
        (errorResponse (ResponseWriter.mk none []) "another process is getting the diff" 422)
        [(Event.cacheGet (versionKey t.Version), rt.cache)]) := by
  simp only [Router.Diff, hvalid, StateT.run_bind, rtSrvValidateVersion, rtCacheGet,
    onWriter, StateT.run_get, StateT.run_set, StateT.run_pure,
    Option.pure_def, Option.bind_eq_bind, Option.some_bind, hver, hget,
    List.nil_append, List.cons_append]

/-- C17: for a request whose payload and version are valid, when the cache has no entry
under the key `strconv.Itoa(version)` the handler completes, and the calls received by the
cache and the finder are, in this order, `Get(key)`, `Set(key, true)`, `Diff(_, text)` once
and `Delete(key)`: the cache holds the key when `Diff` is called, and after the `Delete`,
which is the last call, the key is absent and every other key is as before the request;
the status is 200 when `Diff` returns no error and 500 when it returns one.  When the key is
present the handler answers 422, the `Get` is the only call received, and the cache is as
before. -/
theorem Router_Diff_releases_admission_key (rt : Router) (t : RequestPayload)
    (ctxDone encodeErr : Option String)
    (hvalid : t.Valid = none) (hver : rt.srv.ValidateVersion t.Version = none) :
    (rt.cache.Get (versionKey t.Version) = none →
      ∃ s text res held, t.Text = some text ∧ Diff rt.srv ctxDone text = some res ∧
        (Router.Diff (some t) ctxDone encodeErr).run
          (HandlerState.mk rt (ResponseWriter.mk none []) []) = some ((), s) ∧
        s.calls = [(Event.cacheGet (versionKey t.Version), rt.cache),
          (Event.cacheSet (versionKey t.Version) (CacheValue.bool true), held),
          (Event.diffCall text, held),
          (Event.cacheDelete (versionKey t.Version), s.rt.cache)] ∧
        held.Get (versionKey t.Version) = some (CacheValue.bool true) ∧
        s.rt.cache.Get (versionKey t.Version) = none ∧
        (∀ k, k ≠ versionKey t.Version → s.rt.cache.Get k = rt.cache.Get k) ∧
        (res.2 = none → s.w.status = some 200) ∧
        (∀ e, res.2 = some e → s.w.status = some 500)) ∧
    (∀ v, rt.cache.Get (versionKey t.Version) = some v →
      ∃ s, (Router.Diff (some t) ctxDone encodeErr).run
          (HandlerState.mk rt (ResponseWriter.mk none []) []) = some ((), s) ∧
        s.w.status = some 422 ∧
        s.calls = [(Event.cacheGet (versionKey t.Version), rt.cache)] ∧
        s.rt.cache = rt.cache) := by
  constructor
  · intro hget
    have htext : ∃ text, t.Text = some text := by
      cases ht : t.Text with
      | none =>
        have h1 : t.Valid ≠ none := by
          unfold RequestPayload.Valid
          split_ifs with h1 h2
          · exact fun e => Option.noConfusion e
          · exact fun e => Option.noConfusion e
          · rw [ht] at h2; exact absurd rfl h2
        exact absurd hvalid h1
      | some text => exact ⟨text, rfl⟩
    obtain ⟨text, ht⟩ := htext
    obtain ⟨d, e, hD, _⟩ := Diff_records rt.srv ctxDone text
    obtain ⟨w, h200, h500, hrun⟩ :=
      Router_Diff_run_admitted rt t text ctxDone encodeErr (d, e) hvalid hver ht hget hD
    have hcache : ∀ k, (((rt.cache.Set (versionKey t.Version) (CacheValue.bool true)).Delete
        (versionKey t.Version)).Get k) =
        if k = versionKey t.Version then none else rt.cache.Get k :=
      fun k => Cache_Get_Delete_Set rt.cache _ k _
    refine ⟨_, text, (d, e), _, ht, hD, hrun, rfl, Cache_Get_Set _ _ _, ?_, ?_, h200, h500⟩
    · simp only [hcache, if_true]
    · intro k hk
      simp only [hcache, hk, if_false]
  · intro v hget
    exact ⟨_, Router_Diff_run_rejected rt t ctxDone encodeErr v hvalid hver hget,
      rfl, rfl, rfl⟩

/-- C17, instance: version 14 against the baseline `abc` of version 13, the cache holding
only the readiness key. -/
theorem Router_Diff_releases_admission_key_witness :
    ∃ s text held, (RequestPayload.mk (some [97, 98, 100]) 14).Text = some text ∧
      (Router.Diff (some (RequestPayload.mk (some [97, 98, 100]) 14)) none none).run
        (HandlerState.mk (Router.mk (Cache.mk [("ready", CacheValue.int 0)])
          (FileDiffFinder.mk (FileInfo.mk [97, 98, 99] 13))) (ResponseWriter.mk none []) []) =
        some ((), s) ∧
      s.calls = [(Event.cacheGet "14", Cache.mk [("ready", CacheValue.int 0)]),
        (Event.cacheSet "14" (CacheValue.bool true), held), (Event.diffCall text, held),
        (Event.cacheDelete "14", s.rt.cache)] ∧
      held.Get "14" = some (CacheValue.bool true) ∧
      s.rt.cache.Get "14" = none ∧ s.rt.cache.Get "ready" = some (CacheValue.int 0) ∧
      s.w.status = some 200 := by
  obtain ⟨s, text, res, held, h1, hD, h2, h3, h4, h5, h6, h200, _⟩ :=
    (Router_Diff_releases_admission_key
      (Router.mk (Cache.mk [("ready", CacheValue.int 0)])
        (FileDiffFinder.mk (FileInfo.mk [97, 98, 99] 13)))
      (RequestPayload.mk (some [97, 98, 100]) 14) none none (by decide) (by decide)).1
      (by decide)
  have hres : res.2 = none := by
    unfold Diff at hD
    simp only [Option.map_eq_some'] at hD
    obtain ⟨a, _, rfl⟩ := hD
    rfl
  exact ⟨s, text, held, h1, h2, h3, h4, h5, (h6 "ready" (by decide)).trans (by decide),
    h200 hres⟩

/-! ## Hash engine: the values of the rolling hash -/

theorem tmod_modEq (x m : Int) : Int.ModEq m (x.tmod m) x := by
  rw [Int.modEq_iff_dvd, Int.tmod_def]
  exact ⟨x.tdiv m, by ring⟩

theorem neg_lt_tmod_mod (x : Int) : -mod < x.tmod mod := by
  have hm : (0 : Int) < mod := by decide
  rcases Int.le_total 0 x with h | h
  · have := Int.tmod_nonneg mod h
    omega
  · have h1 : (-x).tmod mod < mod := Int.tmod_lt_of_pos _ hm
    have h2 : (-x).tmod mod = -(x.tmod mod) := by
      rw [Int.tmod_def, Int.tmod_def, Int.neg_tdiv]
      ring
    omega

theorem tmod_lt_mod (x : Int) : x.tmod mod < mod :=
  Int.tmod_lt_of_pos _ (by decide)

theorem powMod_modEq (k : Nat) : Int.ModEq mod (powMod k) (256 ^ k) := by
  induction k with
  | zero => exact Int.ModEq.refl _
  | succ k ih =>
    have h1 : powMod (k + 1) = (powMod k * base).tmod mod := rfl
    rw [h1, pow_succ]
    exact (tmod_modEq _ _).trans (ih.mul (Int.ModEq.refl 256))

theorem horner_succ_left (s : GoString) (i : Nat) :
    ∀ k, horner s i (k + 1) = byteAt s i * 256 ^ k + horner s (i + 1) k := by
  intro k
  induction k with
  | zero => simp [horner]
  | succ k ih =>
    have h1 : horner s i (k + 1 + 1) = horner s i (k + 1) * 256 + byteAt s (i + (k + 1)) := rfl
    have h2 : horner s (i + 1) (k + 1) = horner s (i + 1) k * 256 + byteAt s (i + 1 + k) := rfl
    have h3 : i + 1 + k = i + (k + 1) := by omega
    rw [h1, ih, h2, h3, pow_succ]
    ring

theorem windowValue_eq_horner (s : GoString) (i : Nat) :
    ∀ w, windowValue s i w = horner s i w := by
  intro w
  induction w with
  | zero => simp [windowValue, horner]
  | succ w ih =>
    have h1 : windowValue s i (w + 1) =
        ((List.range w).map (fun k => byteAt s (i + k) * 256 ^ (w - 1 - k) * 256)).sum
          + byteAt s (i + w) := by
      unfold windowValue
      rw [List.sum_range_succ]
      congr 1
      · congr 1
        apply List.map_congr_left
        intro k hk
        have hk' : k < w := List.mem_range.1 hk
        have e : w + 1 - 1 - k = (w - 1 - k) + 1 := by omega
        rw [e, pow_succ]
        ring
      · simp
    rw [h1, List.sum_map_mul_right]
    have h2 : ((List.range w).map (fun k => byteAt s (i + k) * 256 ^ (w - 1 - k))).sum
        = windowValue s i w := rfl
    rw [h2, ih]
    rfl

theorem hashVal_bounds (s : GoString) (k : Nat) : 0 ≤ hashVal s k ∧ hashVal s k < mod := by
  induction k with
  | zero =>
    have h0 : hashVal s 0 = 0 := rfl
    rw [h0]
    exact ⟨le_refl _, by decide⟩
  | succ k ih =>
    have h1 : hashVal s (k + 1) = (hashVal s k * base + byteAt s k).tmod mod := rfl
    have h2 := byteAt_nonneg s k
    have h3 : 0 ≤ hashVal s k * base + byteAt s k := by
      have : 0 ≤ hashVal s k * base := Int.mul_nonneg ih.1 (by decide)
      omega
    rw [h1]
    exact ⟨Int.tmod_nonneg _ h3, tmod_lt_mod _⟩

theorem hashVal_modEq (s : GoString) (k : Nat) :
    Int.ModEq mod (hashVal s k) (horner s 0 k) := by
  induction k with
  | zero => exact Int.ModEq.refl _
  | succ k ih =>
    have h1 : hashVal s (k + 1) = (hashVal s k * base + byteAt s k).tmod mod := rfl
    have h2 : horner s 0 (k + 1) = horner s 0 k * 256 + byteAt s (0 + k) := rfl
    rw [h1, h2, Nat.zero_add]
    exact (tmod_modEq _ _).trans ((ih.mul (Int.ModEq.refl 256)).add (Int.ModEq.refl _))

theorem hashVal_eq_emod (s : GoString) (k : Nat) : hashVal s k = horner s 0 k % mod := by
  have h1 := hashVal_bounds s k
  have h2 : hashVal s k % mod = horner s 0 k % mod := hashVal_modEq s k
  rw [← h2, Int.emod_eq_of_lt h1.1 h1.2]

theorem rollVal_modEq (s : GoString) (w : Nat) (hw : 1 ≤ w) :
    ∀ i, Int.ModEq mod (rollVal s w i) (horner s i w) := by
  intro i
  induction i with
  | zero => exact hashVal_modEq s w
  | succ i ih =>
    obtain ⟨v, rfl⟩ : ∃ v, w = v + 1 := ⟨w - 1, by omega⟩
    have h1 : rollVal s (v + 1) (i + 1) =
        ((rollVal s (v + 1) i - powMod v * byteAt s i).tmod mod * base
          + byteAt s (i + (v + 1))).tmod mod := rfl
    have h2 : horner s (i + 1) (v + 1) = horner s (i + 1) v * 256 + byteAt s (i + 1 + v) := rfl
    have h3 : horner s (i + 1) v = horner s i (v + 1) - byteAt s i * 256 ^ v := by
      rw [horner_succ_left]; ring
    have h4 : i + 1 + v = i + (v + 1) := by omega
    rw [h1, h2, h3, h4]
    refine (tmod_modEq _ _).trans (Int.ModEq.add (Int.ModEq.mul ((tmod_modEq _ _).trans ?_)
      (Int.ModEq.refl 256)) (Int.ModEq.refl _))
    have h5 : byteAt s i * 256 ^ v = 256 ^ v * byteAt s i := by ring
    rw [h5]
    exact ih.sub ((powMod_modEq v).mul (Int.ModEq.refl _))

theorem rollVal_bounds (s : GoString) (w : Nat) (i : Nat) :
    -mod < rollVal s w i ∧ rollVal s w i < mod := by
  cases i with
  | zero =>
    have h := hashVal_bounds s w
    have hm : (0 : Int) < mod := by decide
    exact ⟨by show -mod < hashVal s w; omega, h.2⟩
  | succ i => exact ⟨neg_lt_tmod_mod _, tmod_lt_mod _⟩

theorem horner_congr (a b : GoString) (i : Nat) :
    ∀ k, (∀ t, t < k → byteAt a (i + t) = byteAt b (i + t)) → horner a i k = horner b i k := by
  intro k
  induction k with
  | zero => intro _; rfl
  | succ k ih =>
    intro h
    have h1 : horner a i (k + 1) = horner a i k * 256 + byteAt a (i + k) := rfl
    have h2 : horner b i (k + 1) = horner b i k * 256 + byteAt b (i + k) := rfl
    rw [h1, h2, ih (fun t ht => h t (by omega)), h k (by omega)]

theorem hashVal_congr (a b : GoString) :
    ∀ k, (∀ t, t < k → byteAt a t = byteAt b t) → hashVal a k = hashVal b k := by
  intro k
  induction k with
  | zero => intro _; rfl
  | succ k ih =>
    intro h
    have h1 : hashVal a (k + 1) = (hashVal a k * base + byteAt a k).tmod mod := rfl
    have h2 : hashVal b (k + 1) = (hashVal b k * base + byteAt b k).tmod mod := rfl
    rw [h1, h2, ih (fun t ht => h t (by omega)), h k (by omega)]

theorem rollVal_congr (a b : GoString) (w : Nat) :
    ∀ i, (∀ t, t < i + w → byteAt a t = byteAt b t) → rollVal a w i = rollVal b w i := by
  intro i
  induction i with
  | zero =>
    intro h
    exact hashVal_congr a b w (fun t ht => h t (by omega))
  | succ i ih =>
    intro h
    have h1 : rollVal a w (i + 1) =
        ((rollVal a w i - powMod (w - 1) * byteAt a i).tmod mod * base
          + byteAt a (i + w)).tmod mod := rfl
    have h2 : rollVal b w (i + 1) =
        ((rollVal b w i - powMod (w - 1) * byteAt b i).tmod mod * base
          + byteAt b (i + w)).tmod mod := rfl
    rw [h1, h2, ih (fun t ht => h t (by omega)), h i (by omega), h (i + w) (by omega)]

/-- C19: for a text `s` and a window size `w` with `1 ≤ w ≤ len(s)`, `applyRollingHash s w`
returns exactly `len(s) - w + 1` integers; the one at offset `i` is congruent modulo
`1000000007` to the sum over `k < w` of `s[i+k] * 256 ^ (w-1-k)`; the one at offset `0` is
that sum reduced into `[0, 1000000007)`, which is the value of `hash(s[:w], w)`. -/
theorem applyRollingHash_window_values (s : GoString) (w : Nat) (h1 : 1 ≤ w)
    (h2 : w ≤ s.length) :
    ∃ hs, applyRollingHash s w = some hs ∧ hs.length = s.length - w + 1 ∧
      (∀ i, i < s.length - w + 1 →
        ∃ h, hs[i]? = some h ∧ h % mod = windowValue s i w % mod) ∧
      hs[0]? = some (windowValue s 0 w % mod) ∧
      0 ≤ windowValue s 0 w % mod ∧ windowValue s 0 w % mod < mod ∧
      hash (s.take w) w = some (windowValue s 0 w % mod) := by
  have hm : (0 : Int) < mod := by decide
  refine ⟨_, applyRollingHash_eq s w h1 h2, by simp, ?_, ?_,
    Int.emod_nonneg _ (by omega), Int.emod_lt_of_pos _ hm, ?_⟩
  · intro i hi
    refine ⟨rollVal s w i, by simp [List.getElem?_range, hi], ?_⟩
    rw [windowValue_eq_horner]
    exact rollVal_modEq s w h1 i
  · have h0 : rollVal s w 0 = hashVal s w := rfl
    simp only [List.getElem?_map, List.getElem?_range (by omega : 0 < s.length - w + 1),
      Option.map_some', h0]
    rw [windowValue_eq_horner, hashVal_eq_emod]
  · rw [hash_eq _ _ (by simp [h2]), hashVal_take s w w (le_refl w), windowValue_eq_horner,
      hashVal_eq_emod]

/-- C19, instance: the text `00 00 00 00 3B 9A CA 07 01` with window size 8. -/
theorem applyRollingHash_window_values_witness :
    ∃ hs, applyRollingHash [0, 0, 0, 0, 0x3B, 0x9A, 0xCA, 0x07, 1] 8 = some hs ∧
      hs.length = 2 ∧ hs[0]? = some 0 := by
  obtain ⟨hs, h1, h2, _, h4, _⟩ :=
    applyRollingHash_window_values [0, 0, 0, 0, 0x3B, 0x9A, 0xCA, 0x07, 1] 8
      (by decide) (by decide)
  refine ⟨hs, h1, h2, ?_⟩
  rw [h4]
  decide

/-- C20, the code at the failing input: the texts `00 01 01 01 01 01 01 01 01` and
`FF 01 01 01 01 01 01 01 01` have equal length and the same window of 8 bytes at offset 1,
whose `hash` is `331695469`; `applyRollingHash` stores that value at offset 1 for the first
text and `-668304538`, which is `1000000007` less, for the second; `findChangedRanges`
flags offset 1 and extends the range opened at offset 0 to end `9`. -/
theorem identical_windows_hash_differently :
    signBaseline.length = signCandidate.length ∧
    (signBaseline.drop 1).take 8 = (signCandidate.drop 1).take 8 ∧
    hash ((signBaseline.drop 1).take 8) 8 = some 331695469 ∧
    hash ((signCandidate.drop 1).take 8) 8 = some 331695469 ∧
    applyRollingHash signBaseline 8 = some [798170691, 331695469] ∧
    applyRollingHash signCandidate 8 = some [846989914, -668304538] ∧
    findChangedRanges signBaseline signCandidate 8 = some [Range.mk 0 9] := by
  refine ⟨by decide, by decide, by decide, by decide, by decide, by decide, by decide⟩

/-- What the rolling hash does guarantee on identical windows: for two texts of equal
length, a window size `w` with `1 ≤ w ≤ len` and an offset `i` at which the two windows of
`w` bytes are byte-identical, both hash sequences have a value at offset `i`, and the two
values are congruent modulo `1000000007`: they are equal or differ by exactly `1000000007`.
They are equal when the two texts agree on all of the first `i + w` bytes. -/
theorem identical_windows_hash_congruent (a b : GoString) (w i : Nat) (h1 : 1 ≤ w)
    (hlen : a.length = b.length) (h2 : i + w ≤ a.length)
    (hwin : (a.drop i).take w = (b.drop i).take w) :
    ∃ x y, hashAt a w i = some x ∧ hashAt b w i = some y ∧
      x % mod = y % mod ∧ (x = y ∨ x = y + mod ∨ y = x + mod) ∧
      (a.take (i + w) = b.take (i + w) → x = y) := by
  have hi : i < a.length - w + 1 := by omega
  have hbytes : ∀ t, t < w → byteAt a (i + t) = byteAt b (i + t) := by
    intro t ht
    rw [← byteAt_slice a i w t ht, ← byteAt_slice b i w t ht, hwin]
  have hcong : rollVal a w i % mod = rollVal b w i % mod := by
    have e1 : Int.ModEq mod (rollVal a w i) (horner a i w) := rollVal_modEq a w h1 i
    have e2 : Int.ModEq mod (rollVal b w i) (horner b i w) := rollVal_modEq b w h1 i
    rw [horner_congr a b i w hbytes] at e1
    exact e1.trans e2.symm
  refine ⟨rollVal a w i, rollVal b w i, ?_, ?_, hcong, ?_, ?_⟩
  · rw [hashAt_eq a w i h1 (by omega)]
    simp [hi]
  · rw [hashAt_eq b w i h1 (by omega), ← hlen]
    simp [hi]
  · have ba := rollVal_bounds a w i
    have bb := rollVal_bounds b w i
    simp only [mod] at hcong ba bb ⊢
    omega
  · intro hpre
    apply rollVal_congr
    intro t ht
    have e1 := byteAt_take a (i + w) t ht
    have e2 := byteAt_take b (i + w) t ht
    rw [← e1, ← e2, hpre]

/-! ## Isolated changes -/

theorem mod_not_dvd_small_mul_pow (d : Int) (hd : d ≠ 0) (h1 : -256 < d) (h2 : d < 256)
    (e : Nat) : ¬ (mod ∣ d * 256 ^ e) := by
  intro hdvd
  have h3 : (mod.natAbs ∣ (d * 256 ^ e).natAbs) := Int.natAbs_dvd_natAbs.2 hdvd
  have h4 : mod.natAbs = 1000000007 := by decide
  have h5 : (d * 256 ^ e).natAbs = d.natAbs * 256 ^ e := by
    rw [Int.natAbs_mul, Int.natAbs_pow]
    rfl
  rw [h4, h5] at h3
  have hc : Nat.Coprime 1000000007 (256 ^ e) :=
    Nat.Coprime.pow_right e (by norm_num)
  have h6 : 1000000007 ∣ d.natAbs := hc.dvd_of_dvd_mul_right h3
  have h7 : 0 < d.natAbs := Int.natAbs_pos.2 hd
  have h8 := Nat.le_of_dvd h7 h6
  omega

theorem horner_sub_single (a b : GoString) (j i : Nat) :
    ∀ k, (∀ t, j ≤ t → t < j + k → t ≠ i → byteAt a t = byteAt b t) →
      horner a j k - horner b j k =
        if j ≤ i ∧ i < j + k then (byteAt a i - byteAt b i) * 256 ^ (j + k - 1 - i) else 0 := by
  intro k
  induction k with
  | zero =>
    intro _
    have hc : ¬ (j ≤ i ∧ i < j + 0) := by omega
    rw [if_neg hc]
    simp [horner]
  | succ k ih =>
    intro h
    have h1 : horner a j (k + 1) = horner a j k * 256 + byteAt a (j + k) := rfl
    have h2 : horner b j (k + 1) = horner b j k * 256 + byteAt b (j + k) := rfl
    have ih' := ih (fun t ht1 ht2 ht3 => h t ht1 (by omega) ht3)
    have e0 : horner a j (k + 1) - horner b j (k + 1) =
        (horner a j k - horner b j k) * 256 + (byteAt a (j + k) - byteAt b (j + k)) := by
      rw [h1, h2]; ring
    rw [e0, ih']
    by_cases hi : i = j + k
    · have c1 : ¬ (j ≤ i ∧ i < j + k) := by omega
      have c2 : j ≤ i ∧ i < j + (k + 1) := by omega
      have e1 : j + (k + 1) - 1 - i = 0 := by omega
      rw [if_neg c1, if_pos c2, e1, ← hi]
      ring
    · have hb : byteAt a (j + k) = byteAt b (j + k) :=
        h (j + k) (by omega) (by omega) (fun e => hi e.symm)
      by_cases hin : j ≤ i ∧ i < j + k
      · have c2 : j ≤ i ∧ i < j + (k + 1) := by omega
        have e1 : j + (k + 1) - 1 - i = (j + k - 1 - i) + 1 := by omega
        rw [if_pos hin, if_pos c2, e1, pow_succ, hb]
        ring
      · have c2 : ¬ (j ≤ i ∧ i < j + (k + 1)) := by omega
        rw [if_neg hin, if_neg c2, hb]
        ring

theorem isolated_window_hash_ne (a b : GoString) (w j i : Nat) (hw : 1 ≤ w) (hj : j ≤ i)
    (hi : i < j + w) (hne : byteAt a i ≠ byteAt b i)
    (hothers : ∀ t, j ≤ t → t < j + w → t ≠ i → byteAt a t = byteAt b t) :
    rollVal a w j ≠ rollVal b w j := by
  intro heq
  have e1 : Int.ModEq mod (rollVal a w j) (horner a j w) := rollVal_modEq a w hw j
  have e2 : Int.ModEq mod (rollVal b w j) (horner b j w) := rollVal_modEq b w hw j
  rw [heq] at e1
  have e3 : Int.ModEq mod (horner b j w) (horner a j w) := e2.symm.trans e1
  have e4 : mod ∣ horner a j w - horner b j w := Int.modEq_iff_dvd.1 e3
  rw [horner_sub_single a b j i w hothers, if_pos ⟨hj, hi⟩] at e4
  have b1 := byteAt_nonneg a i
  have b2 := byteAt_lt a i
  have b3 := byteAt_nonneg b i
  have b4 := byteAt_lt b i
  exact mod_not_dvd_small_mul_pow (byteAt a i - byteAt b i) (by omega) (by omega) (by omega)
    _ e4

theorem byteAt_eq_of_getElem?_eq (a b : GoString) (t : Nat) (h : a[t]? = b[t]?) :
    byteAt a t = byteAt b t := by
  simp [byteAt, List.getD_eq_getElem?_getD, h]

theorem eq_of_sorted_of_mem_iff (l1 l2 : List UpdatedIndex)
    (h1 : (l1.map UpdatedIndex.Index).Pairwise (· < ·))
    (h2 : (l2.map UpdatedIndex.Index).Pairwise (· < ·))
    (hmem : ∀ x, x ∈ l1 ↔ x ∈ l2) : l1 = l2 := by
  rw [List.pairwise_map] at h1 h2
  have n1 : l1.Nodup := h1.imp (fun h e => by rw [e] at h; omega)
  have n2 : l2.Nodup := h2.imp (fun h e => by rw [e] at h; omega)
  have hp : l1.Perm l2 := (List.perm_ext_iff_of_nodup n1 n2).2 hmem
  have ha : IsAntisymm UpdatedIndex (fun x y => x.Index < y.Index) :=
    ⟨fun x y hxy hyx => absurd hxy (by omega)⟩
  exact List.eq_of_perm_of_sorted hp h1 h2

/-- C18: for a baseline and a candidate of equal length at least 8 whose differing indices
are pairwise at least 8 apart, `Diff` completes without error and returns exactly the
brute-force delta, which holds an `UPDATED` record for every differing index. -/
theorem Diff_isolated_changes_found (rhs : FileDiffFinder) (u : GoString)
    (hlen : u.length = rhs.Content.length) (h8 : 8 ≤ u.length)
    (hiso : ∀ i i', i < i' → rhs.Content[i]? ≠ u[i]? → rhs.Content[i']? ≠ u[i']? →
      i + 8 ≤ i') :
    Diff rhs none u = some (bruteForceDelta rhs.Content u, none) ∧
    compareBruteForce rhs u = some (bruteForceDelta rhs.Content u) ∧
    ∀ i, rhs.Content[i]? ≠ u[i]? →
      ∃ x ∈ bruteForceDelta rhs.Content u, x.«Type» = ChangeTypesUpdated ∧ x.Index = i := by
  have hmin : min rhs.Content.length u.length = u.length := by omega
  have hbf : bruteForceDelta rhs.Content u =
      updatedRecords rhs.Content u [Range.mk 0 u.length] := by
    unfold bruteForceDelta
    rw [addedRecords_nil _ _ (by omega), removedRecords_nil _ _ (by omega), hmin]
    simp [updatedRecords]
  have hall : ∀ i, rhs.Content[i]? ≠ u[i]? →
      ∃ x ∈ bruteForceDelta rhs.Content u, x.«Type» = ChangeTypesUpdated ∧ x.Index = i := by
    intro i hne
    have hi : i < rhs.Content.length := by
      by_contra hlt
      apply hne
      rw [List.getElem?_eq_none (by omega), List.getElem?_eq_none (by omega)]
    have hi2 : i < u.length := by omega
    refine ⟨UpdatedIndex.mk (sprintfC rhs.Content[i]) (sprintfC u[i]) i ChangeTypesUpdated,
      ?_, rfl, rfl⟩
    rw [hbf, mem_updatedRecords]
    exact ⟨⟨_, List.mem_singleton.2 rfl, Nat.zero_le _, hi2⟩,
      updatedAt_isSome_of_ne _ _ i hi hi2 hne⟩
  refine ⟨?_, compareBruteForce_eq rhs u, hall⟩
  by_cases h1 : u = rhs.Content
  · have hnil : bruteForceDelta rhs.Content u = [] := by
      rw [List.eq_nil_iff_forall_not_mem]
      intro x hx
      rw [hbf, mem_updatedRecords] at hx
      exact (ne_of_updatedAt _ _ _ _ hx.2).1 (by rw [h1])
    rw [hnil]
    simp [Diff, diffBody, h1]
  · obtain ⟨wide, ranges, _, hr, hinv, hb, hp, hsub, hsup⟩ :=
      findMinimalRanges_spec rhs rhs.Content u u.length hlen.symm rfl h8 (by omega)
    have hb' : ∀ r ∈ ranges, r.«end» ≤ rhs.Content.length ∧ r.«end» ≤ u.length := by
      intro r hr'
      have := hb r hr'
      omega
    have h2 : ¬ (u.length < widerWindowRange ∨ rhs.Content.length < widerWindowRange) := by
      simp only [widerWindowRange]; omega
    have hd : diffBody rhs u = some (updatedRecords rhs.Content u ranges) := by
      unfold diffBody
      rw [if_neg h1, if_neg h2, if_pos hlen, hr]
      simp [compareIndexes_eq rhs ranges u hb']
    have hcover : ∀ i, rhs.Content[i]? ≠ u[i]? → inRanges ranges i := by
      intro i hne
      have hi : i < u.length := by
        by_contra hlt
        apply hne
        rw [List.getElem?_eq_none (by omega), List.getElem?_eq_none (by omega)]
      have hbyte := byteAt_ne_of_getElem?_ne rhs.Content u i (by omega) hi hne
      have key : ∀ j, j ≤ i → i < j + 8 → j + 8 ≤ u.length → inRanges ranges i := by
        intro j hj1 hj2 hj3
        have hF : rollVal rhs.Content 8 j ≠ rollVal u 8 j := by
          apply isolated_window_hash_ne rhs.Content u 8 j i (by omega) hj1 hj2 hbyte
          intro t ht1 ht2 hti
          apply byteAt_eq_of_getElem?_eq
          by_contra hne'
          rcases Nat.lt_or_gt_of_ne hti with hlt | hgt
          · have := hiso t i hlt hne' hne
            omega
          · have := hiso i t hgt hne hne'
            omega
        exact hsup i ((hinv.cover i).2 ⟨j, by omega, hF, hj1, hj2⟩) hne
      by_cases hend : i + 8 ≤ u.length
      · exact key i (le_refl _) (by omega) hend
      · exact key (u.length - 8) (by omega) (by omega) (by omega)
    have heq : updatedRecords rhs.Content u ranges = bruteForceDelta rhs.Content u := by
      rw [hbf]
      apply eq_of_sorted_of_mem_iff
      · exact updatedRecords_sorted _ _ _ (hp.imp (fun h => by omega))
      · exact updatedRecords_sorted _ _ _ (by simp)
      · intro x
        rw [mem_updatedRecords, mem_updatedRecords]
        constructor
        · rintro ⟨_, hat⟩
          have := ne_of_updatedAt _ _ _ _ hat
          exact ⟨⟨_, List.mem_singleton.2 rfl, Nat.zero_le _, this.2.2.1⟩, hat⟩
        · rintro ⟨_, hat⟩
          exact ⟨hcover _ (ne_of_updatedAt _ _ _ _ hat).1, hat⟩
    rw [← heq]
    exact Diff_none_of_diffBody rhs u _ hd

/-- C18, instance: the baseline `abcabcabcabcabcabcabc` and the candidate
`1bcabcabca6cabcabcab4`, which differ at the indices 0, 10 and 20 only. -/
theorem Diff_isolated_changes_found_witness :
    Diff (FileDiffFinder.mk (FileInfo.mk
        [97, 98, 99, 97, 98, 99, 97, 98, 99, 97, 98, 99, 97, 98, 99, 97, 98, 99, 97, 98, 99] 13))
      none [49, 98, 99, 97, 98, 99, 97, 98, 99, 97, 54, 99, 97, 98, 99, 97, 98, 99, 97, 98, 52] =
    some ([UpdatedIndex.mk [97] [49] 0 ChangeTypesUpdated,
      UpdatedIndex.mk [98] [54] 10 ChangeTypesUpdated,
      UpdatedIndex.mk [99] [52] 20 ChangeTypesUpdated], none) := by
  have h := (Diff_isolated_changes_found (FileDiffFinder.mk (FileInfo.mk
      [97, 98, 99, 97, 98, 99, 97, 98, 99, 97, 98, 99, 97, 98, 99, 97, 98, 99, 97, 98, 99] 13))
    [49, 98, 99, 97, 98, 99, 97, 98, 99, 97, 54, 99, 97, 98, 99, 97, 98, 99, 97, 98, 52]
    (by decide) (by decide) (by
      intro i i' hlt h1 h2
      have hi : i' < 21 := by
        by_contra hge
        apply h2
        rw [List.getElem?_eq_none (by simp [FileDiffFinder.Content, FileInfo.Content]; omega),
          List.getElem?_eq_none (by simp; omega)]
      have hcases : ∀ k, k < 21 →
          (FileDiffFinder.mk (FileInfo.mk
            [97, 98, 99, 97, 98, 99, 97, 98, 99, 97, 98, 99, 97, 98, 99, 97, 98, 99, 97, 98, 99]
            13)).Content[k]? ≠
          ([49, 98, 99, 97, 98, 99, 97, 98, 99, 97, 54, 99, 97, 98, 99, 97, 98, 99, 97, 98, 52] :
            GoString)[k]? → k = 0 ∨ k = 10 ∨ k = 20 := by
        decide
      have a1 := hcases i (by omega) h1
      have a2 := hcases i' hi h2
      omega)).1
  rw [h]
  decide

/-! ## Range locator: runs, containment and exactness of the narrow pass -/

theorem RangesInv.same_range_of_adjacent {w : Nat} {F : Nat → Prop} {i : Nat}
    {rs : List Range} (h : RangesInv w F i rs) (r r2 : Range) (hr : r ∈ rs) (hr2 : r2 ∈ rs)
    (k : Nat) (h1 : r.start ≤ k) (h2 : k < r.«end») (h3 : r2.start ≤ k + 1)
    (h4 : k + 1 < r2.«end») : r2 = r := by
  by_contra hne
  have hsym : rs.Pairwise (fun a b => a.«end» < b.start ∨ b.«end» < a.start) :=
    h.sep.imp (fun hab => Or.inl hab)
  have hS := hsym.forall (fun a b hab => hab.symm) hr2 hr hne
  omega

theorem RangesInv.start_flagged {w : Nat} {F : Nat → Prop} {i : Nat} {rs : List Range}
    (h : RangesInv w F i rs) (hw : 1 ≤ w) (r : Range) (hr : r ∈ rs) : F r.start := by
  have hb := h.bounds r hr
  obtain ⟨j, _, hFj, hj1, hj2⟩ := (h.cover r.start).1 ⟨r, hr, le_refl _, by omega⟩
  by_cases e : j = r.start
  · rw [← e]; exact hFj
  · exfalso
    obtain ⟨r2, hr2, h1, h2⟩ := (h.cover (r.start - 1)).2 ⟨j, by omega, hFj, by omega, by omega⟩
    have e2 := h.same_range_of_adjacent r2 r hr2 hr (r.start - 1) h1 h2 (by omega) (by omega)
    have e3 : r.start = r2.start := congrArg Range.start e2
    omega

theorem RangesInv.end_flagged {w : Nat} {F : Nat → Prop} {i : Nat} {rs : List Range}
    (h : RangesInv w F i rs) (hw : 1 ≤ w) (r : Range) (hr : r ∈ rs) :
    ∃ j, F j ∧ r.«end» = j + w := by
  have hb := h.bounds r hr
  obtain ⟨j, _, hFj, hj1, hj2⟩ := (h.cover (r.«end» - 1)).1 ⟨r, hr, by omega, by omega⟩
  refine ⟨j, hFj, ?_⟩
  by_contra e
  obtain ⟨r2, hr2, h1, h2⟩ := (h.cover r.«end»).2 ⟨j, by omega, hFj, by omega, by omega⟩
  have e2 := h.same_range_of_adjacent r r2 hr hr2 (r.«end» - 1) (by omega) (by omega)
    (by omega) (by omega)
  have e3 : r2.«end» = r.«end» := congrArg Range.«end» e2
  omega

/-- C22: for two texts of equal length `n` and a window size `w` with `1 ≤ w ≤ n`,
`findChangedRanges` returns ranges that each satisfy `start < end ≤ n` and
`end - start ≥ w`, that start at an offset whose two hashes differ and end at the end of the
window of such an offset, that are in ascending order with a gap between any earlier and any
later one (`earlier.end < later.start`), and whose union is the union of the windows
`[j, j+w)` of the offsets `j` at which the two hash sequences differ. -/
theorem findChangedRanges_merged_runs (a b : GoString) (w : Nat) (h1 : 1 ≤ w)
    (hlen : a.length = b.length) (h2 : w ≤ a.length) :
    ∃ rs, findChangedRanges a b w = some rs ∧
      (∀ r ∈ rs, r.start < r.«end» ∧ r.«end» ≤ a.length ∧ w ≤ r.«end» - r.start) ∧
      (∀ r ∈ rs, hashAt a w r.start ≠ hashAt b w r.start ∧
        ∃ j, hashAt a w j ≠ hashAt b w j ∧ r.«end» = j + w) ∧
      rs.Pairwise (fun x y => x.«end» < y.start) ∧
      (∀ k, inRanges rs k ↔ ∃ j, hashAt a w j ≠ hashAt b w j ∧ j ≤ k ∧ k < j + w) := by
  obtain ⟨rs, hrs, hinv⟩ := findChangedRanges_spec a b w h1 hlen h2
  refine ⟨rs, hrs, ?_, ?_, hinv.sep, ?_⟩
  · intro r hr
    have := hinv.bounds r hr
    omega
  · intro r hr
    have hb := hinv.bounds r hr
    refine ⟨(hashAt_ne_iff a b w r.start h1 h2 hlen).2 ⟨by omega, hinv.start_flagged h1 r hr⟩,
      ?_⟩
    obtain ⟨j, hFj, hj⟩ := hinv.end_flagged h1 r hr
    exact ⟨j, (hashAt_ne_iff a b w j h1 h2 hlen).2 ⟨by omega, hFj⟩, hj⟩
  · intro k
    rw [hinv.cover k]
    constructor
    · rintro ⟨j, hj, hF, hk⟩
      exact ⟨j, (hashAt_ne_iff a b w j h1 h2 hlen).2 ⟨hj, hF⟩, hk⟩
    · rintro ⟨j, hF, hk⟩
      obtain ⟨hj, hF'⟩ := (hashAt_ne_iff a b w j h1 h2 hlen).1 hF
      exact ⟨j, hj, hF', hk⟩

/-- C22, instance: the baseline `abcabcabcabcabcabcabc` and the candidate
`1bcabcabca6cabcab4abc` of the tests with window size 8: every offset is flagged and the
windows merge into the single run `[0, 21)`. -/
theorem findChangedRanges_merged_runs_witness :
    findChangedRanges
      [97, 98, 99, 97, 98, 99, 97, 98, 99, 97, 98, 99, 97, 98, 99, 97, 98, 99, 97, 98, 99]
      [49, 98, 99, 97, 98, 99, 97, 98, 99, 97, 54, 99, 97, 98, 99, 97, 98, 52, 97, 98, 99] 8
      = some [Range.mk 0 21] ∧
    ∃ rs, findChangedRanges
      [97, 98, 99, 97, 98, 99, 97, 98, 99, 97, 98, 99, 97, 98, 99, 97, 98, 99, 97, 98, 99]
      [49, 98, 99, 97, 98, 99, 97, 98, 99, 97, 54, 99, 97, 98, 99, 97, 98, 52, 97, 98, 99] 8
      = some rs ∧ rs.Pairwise (fun x y => x.«end» < y.start) := by
  refine ⟨by decide, ?_⟩
  obtain ⟨rs, h1, _, _, h2, _⟩ := findChangedRanges_merged_runs
    [97, 98, 99, 97, 98, 99, 97, 98, 99, 97, 98, 99, 97, 98, 99, 97, 98, 99, 97, 98, 99]
    [49, 98, 99, 97, 98, 99, 97, 98, 99, 97, 54, 99, 97, 98, 99, 97, 98, 52, 97, 98, 99] 8
    (by decide) (by decide) (by decide)
  exact ⟨rs, h1, h2⟩

theorem lowerRangesOf_spec (rhs : FileDiffFinder) (u : GoString) (val : Range)
    (hs : val.start + 2 ≤ val.«end») (he1 : val.«end» ≤ rhs.Content.length)
    (he2 : val.«end» ≤ u.length) :
    ∃ low,
      slice rhs.Content val.start val.«end» =
        some ((rhs.Content.drop val.start).take (val.«end» - val.start)) ∧
      slice u val.start val.«end» = some ((u.drop val.start).take (val.«end» - val.start)) ∧
      findChangedRanges ((rhs.Content.drop val.start).take (val.«end» - val.start))
        ((u.drop val.start).take (val.«end» - val.start)) 2 = some low ∧
      RangesInv 2 (fun j =>
        rollVal ((rhs.Content.drop val.start).take (val.«end» - val.start)) 2 j ≠
        rollVal ((u.drop val.start).take (val.«end» - val.start)) 2 j)
        (val.«end» - val.start - 2 + 1) low ∧
      lowerRangesOf rhs u val = low.map
        (fun val2 => Range.mk (val.start + val2.start) (val.start + val2.«end»)) := by
  obtain ⟨s, e⟩ := val
  simp only at hs he1 he2 ⊢
  have hl1 : ((rhs.Content.drop s).take (e - s)).length = e - s := by
    simp only [List.length_take, List.length_drop]; omega
  have hl2 : ((u.drop s).take (e - s)).length = e - s := by
    simp only [List.length_take, List.length_drop]; omega
  obtain ⟨low, hlow, hinv⟩ := findChangedRanges_spec ((rhs.Content.drop s).take (e - s))
    ((u.drop s).take (e - s)) 2 (by omega) (by rw [hl1, hl2]) (by rw [hl1]; omega)
  have c1 : s ≤ e ∧ e ≤ rhs.Content.length := ⟨by omega, he1⟩
  have c2 : s ≤ e ∧ e ≤ u.length := ⟨by omega, he2⟩
  rw [hl1] at hinv
  refine ⟨low, by simp [slice, c1], by simp [slice, c2], hlow, hinv, ?_⟩
  simp [lowerRangesOf, minimalStep, slice, c1, c2, narrowWindowRange, hlow]

theorem findMinimalRanges_flatMap (rhs : FileDiffFinder) (o u : GoString) (n : Nat)
    (ho : o.length = n) (hu : u.length = n) (hn : 8 ≤ n) (hc : n ≤ rhs.Content.length) :
    ∃ wide, findChangedRanges o u 8 = some wide ∧
      (∀ val ∈ wide, val.start + 8 ≤ val.«end» ∧ val.«end» ≤ n) ∧
      wide.Pairwise (fun a b => a.«end» < b.start) ∧
      findMinimalRanges rhs o u = some (wide.flatMap (lowerRangesOf rhs u)) := by
  obtain ⟨wide, hwide, hinv⟩ := findChangedRanges_spec o u 8 (by omega) (by omega) (by omega)
  rw [ho] at hinv
  have hval : ∀ val ∈ wide, val.start + 8 ≤ val.«end» ∧ val.«end» ≤ n := by
    intro val hv
    have := hinv.bounds val hv
    omega
  refine ⟨wide, hwide, hval, hinv.sep, ?_⟩
  unfold findMinimalRanges
  simp only [widerWindowRange, hwide, Option.bind_eq_bind, Option.some_bind]
  rw [foldlM_append_flatMap (minimalStep rhs u) (lowerRangesOf rhs u) wide []
    (fun val hv => (minimalStep_spec rhs u val (by have := hval val hv; omega)
      (by have := hval val hv; omega) (by have := hval val hv; omega)).1)]
  simp

/-- C23 (as stated, refuted): the texts `abcdefgh` and `abcdefgX` have equal length `8`,
the window-8 pass finds the coarse range `[0, 8)`, and against a stored baseline `abc` the
narrow pass, which slices `Content()[0:8]`, panics: `findMinimalRanges` returns no ranges. -/
theorem findMinimalRanges_panics_on_short_baseline :
    ([97, 98, 99, 100, 101, 102, 103, 104] : GoString).length = 8 ∧
    ([97, 98, 99, 100, 101, 102, 103, 88] : GoString).length = 8 ∧
    findChangedRanges [97, 98, 99, 100, 101, 102, 103, 104]
      [97, 98, 99, 100, 101, 102, 103, 88] 8 = some [Range.mk 0 8] ∧
    findMinimalRanges (FileDiffFinder.mk (FileInfo.mk [97, 98, 99] 1))
      [97, 98, 99, 100, 101, 102, 103, 104] [97, 98, 99, 100, 101, 102, 103, 88] = none := by
  refine ⟨by decide, by decide, by decide, by decide⟩

/-- C23 (amended): for two texts of equal length `n ≥ 8`, with `n` at most the length of the
stored baseline, which the narrow pass slices, `findMinimalRanges` returns ranges in absolute
offsets that each satisfy `start < end ≤ n`, that are in ascending order and do not overlap
(`earlier.end < later.start`), and each of which is a sub-range returned by the window-2
pass on the slices of a coarse range of the window-8 pass, shifted by the start of that
coarse range and contained in it. -/
theorem findMinimalRanges_ordered_in_coarse (rhs : FileDiffFinder) (o u : GoString) (n : Nat)
    (ho : o.length = n) (hu : u.length = n) (hn : 8 ≤ n) (hc : n ≤ rhs.Content.length) :
    ∃ wide ranges, findChangedRanges o u 8 = some wide ∧
      findMinimalRanges rhs o u = some ranges ∧
      (∀ r ∈ ranges, r.start < r.«end» ∧ r.«end» ≤ n) ∧
      ranges.Pairwise (fun x y => x.«end» < y.start) ∧
      (∀ r ∈ ranges, ∃ val ∈ wide, val.start ≤ r.start ∧ r.«end» ≤ val.«end» ∧
        ∃ so su low, slice rhs.Content val.start val.«end» = some so ∧
          slice u val.start val.«end» = some su ∧
          findChangedRanges so su 2 = some low ∧
          ∃ r2 ∈ low, r = Range.mk (val.start + r2.start) (val.start + r2.«end»)) := by
  obtain ⟨wide, hwide, hval, hsep, hr⟩ := findMinimalRanges_flatMap rhs o u n ho hu hn hc
  have hspec := fun val (hv : val ∈ wide) =>
    minimalStep_spec rhs u val (by have := hval val hv; omega)
      (by have := hval val hv; omega) (by have := hval val hv; omega)
  refine ⟨wide, _, hwide, hr, ?_, ?_, ?_⟩
  · intro r hr'
    obtain ⟨val, hv, hrv⟩ := List.mem_flatMap.1 hr'
    have h1 := (hspec val hv).2.1 r hrv
    have h2 := hval val hv
    omega
  · rw [List.pairwise_flatMap]
    refine ⟨fun val hv => (hspec val hv).2.2.1, ?_⟩
    refine hsep.imp_of_mem ?_
    intro a b ha hb hab x hx y hy
    have h1 := (hspec a ha).2.1 x hx
    have h2 := (hspec b hb).2.1 y hy
    omega
  · intro r hr'
    obtain ⟨val, hv, hrv⟩ := List.mem_flatMap.1 hr'
    have h1 := (hspec val hv).2.1 r hrv
    obtain ⟨low, hs1, hs2, hlow, _, hdef⟩ := lowerRangesOf_spec rhs u val
      (by have := hval val hv; omega) (by have := hval val hv; omega)
      (by have := hval val hv; omega)
    rw [hdef] at hrv
    obtain ⟨r2, hr2, hre⟩ := List.mem_map.1 hrv
    exact ⟨val, hv, h1.1, h1.2.2, _, _, low, hs1, hs2, hlow, r2, hr2, hre.symm⟩

/-- C23 (amended), instance: the baseline and the candidate of the tests, both of 21
bytes. -/
theorem findMinimalRanges_ordered_in_coarse_witness :
    findMinimalRanges (FileDiffFinder.mk (FileInfo.mk
        [97, 98, 99, 97, 98, 99, 97, 98, 99, 97, 98, 99, 97, 98, 99, 97, 98, 99, 97, 98, 99] 13))
      [97, 98, 99, 97, 98, 99, 97, 98, 99, 97, 98, 99, 97, 98, 99, 97, 98, 99, 97, 98, 99]
      [49, 98, 99, 97, 98, 99, 97, 98, 99, 97, 54, 99, 97, 98, 99, 97, 98, 52, 97, 98, 99]
      = some [Range.mk 0 2, Range.mk 9 12, Range.mk 16 19] ∧
    ∃ wide ranges, findChangedRanges
        [97, 98, 99, 97, 98, 99, 97, 98, 99, 97, 98, 99, 97, 98, 99, 97, 98, 99, 97, 98, 99]
        [49, 98, 99, 97, 98, 99, 97, 98, 99, 97, 54, 99, 97, 98, 99, 97, 98, 52, 97, 98, 99] 8
        = some wide ∧
      findMinimalRanges (FileDiffFinder.mk (FileInfo.mk
        [97, 98, 99, 97, 98, 99, 97, 98, 99, 97, 98, 99, 97, 98, 99, 97, 98, 99, 97, 98, 99] 13))
        [97, 98, 99, 97, 98, 99, 97, 98, 99, 97, 98, 99, 97, 98, 99, 97, 98, 99, 97, 98, 99]
        [49, 98, 99, 97, 98, 99, 97, 98, 99, 97, 54, 99, 97, 98, 99, 97, 98, 52, 97, 98, 99]
        = some ranges ∧
      ranges.Pairwise (fun x y => x.«end» < y.start) := by
  refine ⟨by decide, ?_⟩
  obtain ⟨wide, ranges, h1, h2, _, h3, _⟩ := findMinimalRanges_ordered_in_coarse
    (FileDiffFinder.mk (FileInfo.mk
      [97, 98, 99, 97, 98, 99, 97, 98, 99, 97, 98, 99, 97, 98, 99, 97, 98, 99, 97, 98, 99] 13))
    [97, 98, 99, 97, 98, 99, 97, 98, 99, 97, 98, 99, 97, 98, 99, 97, 98, 99, 97, 98, 99]
    [49, 98, 99, 97, 98, 99, 97, 98, 99, 97, 54, 99, 97, 98, 99, 97, 98, 52, 97, 98, 99] 21
    (by decide) (by decide) (by decide) (by decide)
  exact ⟨wide, ranges, h1, h2, h3⟩

theorem rollVal_two_eq_of_bytes (a b : GoString) (j : Nat) (h0 : byteAt a j = byteAt b j)
    (h1 : byteAt a (j + 1) = byteAt b (j + 1)) : rollVal a 2 j = rollVal b 2 j := by
  rw [rollVal_two, rollVal_two, h0, h1]

theorem getElem?_ne_of_byteAt_ne (a b : GoString) (k : Nat) (h : byteAt a k ≠ byteAt b k) :
    a[k]? ≠ b[k]? :=
  fun e => h (byteAt_eq_of_getElem?_eq a b k e)

theorem coarse_start_window_differs (a b : GoString) (w : Nat) (h1 : 1 ≤ w)
    (rs : List Range)
    (hinv : RangesInv w (fun j => rollVal a w j ≠ rollVal b w j) (a.length - w + 1) rs)
    (r : Range) (hr : r ∈ rs) :
    ∃ k, r.start ≤ k ∧ k < r.start + w ∧ byteAt a k ≠ byteAt b k := by
  by_contra hcon
  have hall : ∀ k, r.start ≤ k → k < r.start + w → byteAt a k = byteAt b k := by
    intro k hk1 hk2
    by_contra hne
    exact hcon ⟨k, hk1, hk2, hne⟩
  have hF := hinv.start_flagged h1 r hr
  have hb := hinv.bounds r hr
  simp only at hF
  cases hs : r.start with
  | zero =>
    rw [hs] at hF hall
    exact hF (rollVal_congr a b w 0 (fun t ht => hall t (Nat.zero_le t) ht))
  | succ s =>
    rw [hs] at hF hall
    have hprev : rollVal a w s = rollVal b w s := by
      by_contra hFs
      obtain ⟨r2, hr2, h3, h4⟩ :=
        (hinv.cover s).2 ⟨s, by omega, hFs, le_refl s, by omega⟩
      have e := hinv.same_range_of_adjacent r2 r hr2 hr s h3 h4 (by omega) (by omega)
      have e3 : r.start = r2.start := congrArg Range.start e
      omega
    by_cases hbyte : byteAt a s = byteAt b s
    · apply hF
      have e1 : rollVal a w (s + 1) =
          ((rollVal a w s - powMod (w - 1) * byteAt a s).tmod mod * base
            + byteAt a (s + w)).tmod mod := rfl
      have e2 : rollVal b w (s + 1) =
          ((rollVal b w s - powMod (w - 1) * byteAt b s).tmod mod * base
            + byteAt b (s + w)).tmod mod := rfl
      rw [e1, e2, hprev, hbyte, hall (s + w) (by omega) (by omega)]
    · exact isolated_window_hash_ne a b w s s h1 (le_refl s) (by omega) hbyte
        (fun t ht1 ht2 hts => hall t (by omega) (by omega)) hprev

/-- C24 (as stated, refuted): against the stored baseline `XbcdeYghij`, the texts
`abcdefghij` and `Xbcdefghij`, both of 10 bytes, differ at index 0 only, yet
`findMinimalRanges` returns the single range `[4, 7)`, on which the two texts are equal. -/
theorem findMinimalRanges_spurious_range_off_baseline :
    ([97, 98, 99, 100, 101, 102, 103, 104, 105, 106] : GoString).length = 10 ∧
    ([88, 98, 99, 100, 101, 102, 103, 104, 105, 106] : GoString).length = 10 ∧
    findMinimalRanges
      (FileDiffFinder.mk (FileInfo.mk [88, 98, 99, 100, 101, 89, 103, 104, 105, 106] 1))
      [97, 98, 99, 100, 101, 102, 103, 104, 105, 106]
      [88, 98, 99, 100, 101, 102, 103, 104, 105, 106] = some [Range.mk 4 7] ∧
    ∀ k, 4 ≤ k → k < 7 →
      ([97, 98, 99, 100, 101, 102, 103, 104, 105, 106] : GoString)[k]? =
        ([88, 98, 99, 100, 101, 102, 103, 104, 105, 106] : GoString)[k]? := by
  refine ⟨by decide, by decide, by decide, ?_⟩
  intro k h1 h2
  have h : k = 4 ∨ k = 5 ∨ k = 6 := by omega
  rcases h with h | h | h <;> subst h <;> rfl

/-- C24 (amended): for two texts of equal length `n ≥ 8`, the first being the first `n`
bytes of the stored baseline, every range returned by `findMinimalRanges` is at least two
indices long and the two texts differ at its first or at its second index; every coarse
range of the window-8 pass has an index among its first eight at which the two texts
differ, so none is equal on both texts; and for any range of at least two indices inside
the texts on which the two texts are equal, the narrow pass contributes no sub-range. -/
theorem findMinimalRanges_no_spurious_range (rhs : FileDiffFinder) (o u : GoString) (n : Nat)
    (ho : o.length = n) (hu : u.length = n) (hn : 8 ≤ n) (hpre : o = rhs.Content.take n) :
    ∃ wide ranges, findChangedRanges o u 8 = some wide ∧
      findMinimalRanges rhs o u = some ranges ∧
      (∀ r ∈ ranges, r.start + 2 ≤ r.«end» ∧ r.«end» ≤ n ∧
        (o[r.start]? ≠ u[r.start]? ∨ o[r.start + 1]? ≠ u[r.start + 1]?)) ∧
      (∀ val ∈ wide, ∃ k, val.start ≤ k ∧ k < val.start + 8 ∧ k < val.«end» ∧
        o[k]? ≠ u[k]?) ∧
      (∀ val : Range, val.start + 2 ≤ val.«end» → val.«end» ≤ n →
        (∀ k, val.start ≤ k → k < val.«end» → o[k]? = u[k]?) →
        lowerRangesOf rhs u val = [] ∧ ∀ acc, minimalStep rhs u acc val = some acc) := by
  have hc : n ≤ rhs.Content.length := by
    rw [hpre, List.length_take] at ho
    omega
  have hget : ∀ k, k < n → o[k]? = rhs.Content[k]? := by
    intro k hk
    rw [hpre, List.getElem?_take]
    simp [hk]
  obtain ⟨wide, hwide, hval, hsep, hr⟩ := findMinimalRanges_flatMap rhs o u n ho hu hn hc
  have hlow := fun val (hv : val ∈ wide) =>
    lowerRangesOf_spec rhs u val (by have := hval val hv; omega)
      (by have := hval val hv; omega) (by have := hval val hv; omega)
  refine ⟨wide, _, hwide, hr, ?_, ?_, ?_⟩
  · intro r hr'
    obtain ⟨val, hv, hrv⟩ := List.mem_flatMap.1 hr'
    obtain ⟨low, _, _, _, hinv, hdef⟩ := hlow val hv
    have hvb := hval val hv
    rw [hdef] at hrv
    obtain ⟨r2, hr2, rfl⟩ := List.mem_map.1 hrv
    have hb := hinv.bounds r2 hr2
    have hF := hinv.start_flagged (by omega) r2 hr2
    simp only at hF ⊢
    refine ⟨by omega, by omega, ?_⟩
    by_contra hcon
    simp only [not_or, not_not] at hcon
    apply hF
    apply rollVal_two_eq_of_bytes
    · rw [byteAt_slice _ _ _ _ (by omega), byteAt_slice _ _ _ _ (by omega)]
      apply byteAt_eq_of_getElem?_eq
      rw [← hget _ (by omega)]
      exact hcon.1
    · rw [byteAt_slice _ _ _ _ (by omega), byteAt_slice _ _ _ _ (by omega)]
      apply byteAt_eq_of_getElem?_eq
      have e : val.start + (r2.start + 1) = val.start + r2.start + 1 := by omega
      rw [e, ← hget _ (by omega)]
      exact hcon.2
  · intro val hv
    obtain ⟨wide2, hwide2, hinv⟩ :=
      findChangedRanges_spec o u 8 (by omega) (by omega) (by omega)
    rw [hwide] at hwide2
    have e : wide2 = wide := (Option.some.inj hwide2).symm
    subst e
    obtain ⟨k, hk1, hk2, hk3⟩ := coarse_start_window_differs o u 8 (by omega) _ hinv val hv
    have hvb := hval val hv
    exact ⟨k, hk1, hk2, by omega, getElem?_ne_of_byteAt_ne o u k hk3⟩
  · intro val hvs hve heq
    obtain ⟨low, _, _, _, hinv, hdef⟩ :=
      lowerRangesOf_spec rhs u val hvs (by omega) (by omega)
    have hvb : val.start + 2 ≤ val.«end» ∧ val.«end» ≤ n := ⟨hvs, hve⟩
    have hnil : low = [] := by
      rw [List.eq_nil_iff_forall_not_mem]
      intro r2 hr2
      have hb := hinv.bounds r2 hr2
      have hF := hinv.start_flagged (by omega) r2 hr2
      simp only at hF
      apply hF
      apply rollVal_two_eq_of_bytes
      · rw [byteAt_slice _ _ _ _ (by omega), byteAt_slice _ _ _ _ (by omega)]
        apply byteAt_eq_of_getElem?_eq
        rw [← hget _ (by omega)]
        exact heq _ (by omega) (by omega)
      · rw [byteAt_slice _ _ _ _ (by omega), byteAt_slice _ _ _ _ (by omega)]
        apply byteAt_eq_of_getElem?_eq
        rw [← hget _ (by omega)]
        exact heq _ (by omega) (by omega)
    have hl : lowerRangesOf rhs u val = [] := by rw [hdef, hnil]; rfl
    refine ⟨hl, ?_⟩
    intro acc
    have := (minimalStep_spec rhs u val (by omega) (by omega) (by omega)).1 acc
    rw [this, hl, List.append_nil]

/-- C24 (amended), instance: the texts `00 01 01 01 01 01 01 01 01` and
`FF 01 01 01 01 01 01 01 01`, whose coarse range `[0, 9)` is narrowed to `[0, 2)`; on the
range `[1, 9)`, where the two texts are equal, the narrow pass contributes nothing. -/
theorem findMinimalRanges_no_spurious_range_witness :
    findMinimalRanges (FileDiffFinder.mk (FileInfo.mk signBaseline 1)) signBaseline
      signCandidate = some [Range.mk 0 2] ∧
    ∃ wide ranges, findChangedRanges signBaseline signCandidate 8 = some wide ∧
      findMinimalRanges (FileDiffFinder.mk (FileInfo.mk signBaseline 1)) signBaseline
        signCandidate = some ranges ∧
      (∀ r ∈ ranges, r.start + 2 ≤ r.«end» ∧ r.«end» ≤ 9 ∧
        (signBaseline[r.start]? ≠ signCandidate[r.start]? ∨
          signBaseline[r.start + 1]? ≠ signCandidate[r.start + 1]?)) ∧
      (∀ val ∈ wide, ∃ k, val.start ≤ k ∧ k < val.start + 8 ∧ k < val.«end» ∧
        signBaseline[k]? ≠ signCandidate[k]?) ∧
      lowerRangesOf (FileDiffFinder.mk (FileInfo.mk signBaseline 1)) signCandidate
        (Range.mk 1 9) = [] := by
  refine ⟨by decide, ?_⟩
  obtain ⟨wide, ranges, h1, h2, h3, h4, h5⟩ := findMinimalRanges_no_spurious_range
    (FileDiffFinder.mk (FileInfo.mk signBaseline 1)) signBaseline signCandidate 9
    (by decide) (by decide) (by decide) (by decide)
  refine ⟨wide, ranges, h1, h2, h3, h4, (h5 (Range.mk 1 9) (by decide) (by decide) ?_).1⟩
  intro k hk1 hk2
  have hk : k = 1 ∨ k = 2 ∨ k = 3 ∨ k = 4 ∨ k = 5 ∨ k = 6 ∨ k = 7 ∨ k = 8 := by
    simp only at hk1 hk2
    omega
  rcases hk with h | h | h | h | h | h | h | h <;> subst h <;> rfl

/-- C25: every delta returned by `Diff` is strictly ascending by `Index` over the whole
sequence, so no index occurs twice: every `UPDATED` index is below the lengths of both texts
and every `ADDED` or `REMOVED` index is at or above the smaller of the two lengths. -/
theorem Diff_strictly_ascending (rhs : FileDiffFinder) (ctxDone : Option String)
    (u : GoString) :
    ∃ delta err, Diff rhs ctxDone u = some (delta, err) ∧
      (delta.map UpdatedIndex.Index).Pairwise (· < ·) ∧
      (delta.map UpdatedIndex.Index).Nodup ∧
      (∀ x ∈ delta, x.«Type» = ChangeTypesUpdated →
        x.Index < min rhs.Content.length u.length) ∧
      (∀ x ∈ delta, x.«Type» = ChangeTypesAdded ∨ x.«Type» = ChangeTypesRemoved →
        min rhs.Content.length u.length ≤ x.Index) := by
  cases ctxDone with
  | some e => exact ⟨[], some e, rfl, by simp, by simp, by simp, by simp⟩
  | none =>
    obtain ⟨ranges, hb, hp, hd⟩ := diffBody_spec rhs u
    obtain ⟨t1, t2, t3⟩ := types_distinct
    have hup : ∀ x ∈ updatedRecords rhs.Content u ranges,
        x.«Type» = ChangeTypesUpdated ∧ x.Index < min rhs.Content.length u.length := by
      intro x hx
      obtain ⟨hin, hat⟩ := (mem_updatedRecords _ _ _ _).1 hx
      have h := ne_of_updatedAt _ _ _ _ hat
      exact ⟨h.2.2.2.2, by omega⟩
    have had : ∀ x ∈ addedRecords rhs.Content.length u,
        x.«Type» = ChangeTypesAdded ∧ rhs.Content.length ≤ x.Index := by
      intro x hx
      obtain ⟨b, h1, _, hxe⟩ := (mem_addedRecords _ _ _).1 hx
      exact ⟨by rw [hxe], h1⟩
    have hre : ∀ x ∈ removedRecords u.length rhs.Content,
        x.«Type» = ChangeTypesRemoved ∧ u.length ≤ x.Index := by
      intro x hx
      obtain ⟨a, h1, _, hxe⟩ := (mem_removedRecords _ _ _).1 hx
      exact ⟨by rw [hxe], h1⟩
    have hsorted : ((updatedRecords rhs.Content u ranges ++ addedRecords rhs.Content.length u
        ++ removedRecords u.length rhs.Content).map UpdatedIndex.Index).Pairwise (· < ·) := by
      by_cases hlen : u.length ≤ rhs.Content.length
      · rw [addedRecords_nil _ _ hlen, List.append_nil, List.map_append, List.pairwise_append]
        refine ⟨updatedRecords_sorted _ _ _ hp, removedRecords_sorted _ _, ?_⟩
        intro a ha b hb'
        obtain ⟨x, hx, rfl⟩ := List.mem_map.1 ha
        obtain ⟨y, hy, rfl⟩ := List.mem_map.1 hb'
        have := (hup x hx).2
        have := (hre y hy).2
        omega
      · rw [removedRecords_nil _ _ (by omega), List.append_nil, List.map_append,
          List.pairwise_append]
        refine ⟨updatedRecords_sorted _ _ _ hp, addedRecords_sorted _ _, ?_⟩
        intro a ha b hb'
        obtain ⟨x, hx, rfl⟩ := List.mem_map.1 ha
        obtain ⟨y, hy, rfl⟩ := List.mem_map.1 hb'
        have := (hup x hx).2
        have := (had y hy).2
        omega
    refine ⟨_, none, Diff_none_of_diffBody rhs u _ hd, hsorted,
      hsorted.imp (fun h => Nat.ne_of_lt h), ?_, ?_⟩
    · intro x hx hty
      rcases List.mem_append.1 hx with hx | hx
      · rcases List.mem_append.1 hx with hx | hx
        · exact (hup x hx).2
        · rw [(had x hx).1] at hty; exact absurd hty.symm t1
      · rw [(hre x hx).1] at hty; exact absurd hty.symm t2
    · intro x hx hty
      rcases List.mem_append.1 hx with hx | hx
      · rcases List.mem_append.1 hx with hx | hx
        · rw [(hup x hx).1] at hty
          rcases hty with h | h
          · exact absurd h t1
          · exact absurd h t2
        · have := (had x hx).2
          omega
      · have := (hre x hx).2
        omega

/-! ## Exactness of the window of two bytes, the sliced baseline, totality -/

theorem byteAt_eq_getElem (s : GoString) (i : Nat) (h : i < s.length) :
    byteAt s i = ((s[i].val : Nat) : Int) := by
  simp [byteAt, List.getD_eq_getElem?_getD, h]

theorem drop_take_two (s : GoString) (i : Nat) (h : i + 2 ≤ s.length) :
    (s.drop i).take 2 = [s[i], s[i + 1]] := by
  rw [List.drop_eq_getElem_cons (by omega : i < s.length),
    List.drop_eq_getElem_cons (by omega : i + 1 < s.length)]
  rfl

/-- C26: for a text `s` with `len(s) ≥ 2`, `applyRollingHash s 2` returns `len(s) - 1` values,
the one at offset `i` being exactly `256 * s[i] + s[i+1]`, which is neither negative nor as
large as `65536`; hence the hashes of two windows of two bytes, of this or another text and at
any offsets, are equal if and only if the windows are byte-identical. -/
theorem rolling_hash_window_two_exact (s : GoString) (h : 2 ≤ s.length) :
    ∃ hs, applyRollingHash s 2 = some hs ∧ hs.length = s.length - 1 ∧
      (∀ i (hi : i + 1 < s.length),
        hs[i]? = some (256 * ((s[i].val : Nat) : Int) + ((s[i + 1].val : Nat) : Int))) ∧
      (∀ x ∈ hs, 0 ≤ x ∧ x < 65536) ∧
      (∀ (t : GoString) (i j : Nat), i + 2 ≤ s.length → j + 2 ≤ t.length →
        (hashAt s 2 i = hashAt t 2 j ↔ (s.drop i).take 2 = (t.drop j).take 2)) := by
  refine ⟨_, applyRollingHash_eq s 2 (by omega) h, by simp; omega, ?_, ?_, ?_⟩
  · intro i hi
    have hlt : i < s.length - 2 + 1 := by omega
    simp only [List.getElem?_map, List.getElem?_range hlt, Option.map_some', rollVal_two]
    rw [byteAt_eq_getElem s i (by omega), byteAt_eq_getElem s (i + 1) hi]
  · intro x hx
    obtain ⟨i, _, rfl⟩ := List.mem_map.1 hx
    rw [rollVal_two]
    have h1 := byteAt_nonneg s i
    have h2 := byteAt_lt s i
    have h3 := byteAt_nonneg s (i + 1)
    have h4 := byteAt_lt s (i + 1)
    omega
  · intro t i j hi hj
    rw [hashAt_eq s 2 i (by omega) h, hashAt_eq t 2 j (by omega) (by omega),
      if_pos (by omega), if_pos (by omega), rollVal_two, rollVal_two,
      drop_take_two s i hi, drop_take_two t j hj,
      byteAt_eq_getElem s i (by omega), byteAt_eq_getElem s (i + 1) (by omega),
      byteAt_eq_getElem t j (by omega), byteAt_eq_getElem t (j + 1) (by omega)]
    have b1 := (s[i]).isLt
    have b2 := (s[i + 1]).isLt
    have b3 := (t[j]).isLt
    have b4 := (t[j + 1]).isLt
    constructor
    · intro e
      have e' := Option.some.inj e
      have e1 : (s[i]).val = (t[j]).val := by omega
      have e2 : (s[i + 1]).val = (t[j + 1]).val := by omega
      rw [Fin.ext e1, Fin.ext e2]
    · intro e
      simp only [List.cons.injEq, and_true] at e
      rw [e.1, e.2]

/-- C26, instance: the text `abc`. -/
theorem rolling_hash_window_two_exact_witness :
    ∃ hs, applyRollingHash [97, 98, 99] 2 = some hs ∧ hs.length = 2 ∧
      hs[0]? = some (256 * 97 + 98) ∧ hs[1]? = some (256 * 98 + 99) := by
  obtain ⟨hs, h1, h2, h3, _⟩ := rolling_hash_window_two_exact [97, 98, 99] (by decide)
  exact ⟨hs, h1, h2, h3 0 (by decide), h3 1 (by decide)⟩

theorem foldlM_congr_mem {α β : Type} (f g : β → α → Option β) :
    ∀ (l : List α) (init : β), (∀ x ∈ l, ∀ acc, f acc x = g acc x) →
      l.foldlM f init = l.foldlM g init := by
  intro l
  induction l with
  | nil => intro init _; rfl
  | cons x xs ih =>
    intro init h
    rw [List.foldlM_cons, List.foldlM_cons, h x (by simp) init]
    cases hg : g init x with
    | none => rfl
    | some b =>
      simp only [Option.bind_eq_bind, Option.some_bind]
      exact ih b (fun y hy => h y (List.mem_cons_of_mem x hy))

theorem applyRollingHash_none (s : GoString) (w : Nat) (h : s.length < w) :
    applyRollingHash s w = none := by
  obtain ⟨t, ht, _, _⟩ := powerTable_spec s.length
  have hs : slice s 0 w = none := by
    have : ¬ w ≤ s.length := by omega
    simp [slice, this]
  unfold applyRollingHash
  simp only [ht, hs, Option.bind_eq_bind, Option.some_bind, Option.none_bind]

theorem slice_take_eq (c : GoString) (n lo hi : Nat) (h1 : lo ≤ hi) (h2 : hi ≤ n)
    (h3 : n ≤ c.length) : slice (c.take n) lo hi = slice c lo hi := by
  have l1 : (c.take n).length = n := by simp only [List.length_take]; omega
  have c1 : lo ≤ hi ∧ hi ≤ (c.take n).length := ⟨h1, by omega⟩
  have c2 : lo ≤ hi ∧ hi ≤ c.length := ⟨h1, by omega⟩
  simp only [slice, c1, c2, and_self, if_true, Option.some.injEq]
  apply List.ext_getElem?
  intro k
  simp only [List.getElem?_take, List.getElem?_drop]
  by_cases hk : k < hi - lo
  · have : lo + k < n := by omega
    simp [hk, this]
  · simp [hk]

/-- C27: when `originalText` is a prefix of `Content()` and as long as `updatedText`,
`findMinimalRanges` returns what the variant that slices `originalText` returns, and for
lengths of at least 8 both return ranges; the three pairs of arguments passed by `Diff` (the
baseline with a candidate of the same length, the baseline with the candidate cut to its
length, the baseline cut to the candidate's length with the candidate) meet the condition. -/
theorem findMinimalRanges_eq_slicing_argument (rhs : FileDiffFinder) (o u : GoString)
    (hpre : o = rhs.Content.take o.length) (hlen : o.length = u.length) :
    findMinimalRanges rhs o u = findMinimalRangesSlicingArgument o u ∧
    (8 ≤ o.length → ∃ ranges, findMinimalRanges rhs o u = some ranges) ∧
    rhs.Content = rhs.Content.take rhs.Content.length ∧
    (∀ v : GoString, rhs.Content.length ≤ v.length →
      rhs.Content.length = (v.take rhs.Content.length).length) ∧
    (∀ v : GoString, v.length ≤ rhs.Content.length →
      rhs.Content.take v.length = rhs.Content.take (rhs.Content.take v.length).length ∧
      (rhs.Content.take v.length).length = v.length) := by
  have hc : o.length ≤ rhs.Content.length := by
    have := congrArg List.length hpre
    rw [List.length_take] at this
    omega
  refine ⟨?_, ?_, by simp, ?_, ?_⟩
  · by_cases h8 : 8 ≤ o.length
    · obtain ⟨wide, hwide, hinv⟩ :=
        findChangedRanges_spec o u 8 (by omega) hlen (by omega)
      unfold findMinimalRanges findMinimalRangesSlicingArgument
      simp only [widerWindowRange, hwide, Option.bind_eq_bind, Option.some_bind]
      apply foldlM_congr_mem
      intro val hv acc
      have hb := hinv.bounds val hv
      have hs : slice o val.start val.«end» = slice rhs.Content val.start val.«end» := by
        rw [hpre]
        exact slice_take_eq rhs.Content o.length _ _ (by omega) (by omega) hc
      unfold minimalStep minimalStepSlicingArgument
      rw [hs]
    · have hnone : findChangedRanges o u 8 = none := by
        unfold findChangedRanges
        rw [applyRollingHash_none o 8 (by omega)]
        rfl
      unfold findMinimalRanges findMinimalRangesSlicingArgument
      simp only [widerWindowRange, hnone, Option.bind_eq_bind, Option.none_bind]
  · intro h8
    obtain ⟨wide, ranges, _, hr, _⟩ :=
      findMinimalRanges_spec rhs o u o.length rfl hlen.symm h8 hc
    exact ⟨ranges, hr⟩
  · intro v hv
    simp only [List.length_take]
    omega
  · intro v hv
    have : (rhs.Content.take v.length).length = v.length := by
      simp only [List.length_take]; omega
    exact ⟨by rw [this], this⟩

/-- C27, instance: the baseline `abcabcabcde` cut to the nine bytes of the candidate
`abxabcabc`. -/
theorem findMinimalRanges_eq_slicing_argument_witness :
    findMinimalRanges
        (FileDiffFinder.mk (FileInfo.mk [97, 98, 99, 97, 98, 99, 97, 98, 99, 100, 101] 13))
        [97, 98, 99, 97, 98, 99, 97, 98, 99] [97, 98, 120, 97, 98, 99, 97, 98, 99] =
      findMinimalRangesSlicingArgument
        [97, 98, 99, 97, 98, 99, 97, 98, 99] [97, 98, 120, 97, 98, 99, 97, 98, 99] :=
  (findMinimalRanges_eq_slicing_argument
    (FileDiffFinder.mk (FileInfo.mk [97, 98, 99, 97, 98, 99, 97, 98, 99, 100, 101] 13))
    [97, 98, 99, 97, 98, 99, 97, 98, 99] [97, 98, 120, 97, 98, 99, 97, 98, 99]
    (by decide) (by decide)).1

theorem changedStep_succeeds (hu : List Int) (w : Nat) (rs : List Range) (i : Nat)
    (v x : Int) (hget : hu[i]? = some x) :
    ∃ st, changedStep hu w (rs, rs.length) (i, v) = some st ∧ st.2 = st.1.length := by
  by_cases hv : v = x
  · exact ⟨(rs, rs.length), by simp [changedStep, hget, hv], rfl⟩
  · rcases List.eq_nil_or_concat rs with hnil | ⟨init, last, hrs⟩
    · subst hnil
      exact ⟨([] ++ [Range.mk i (i + w)], 0 + 1), by simp [changedStep, hget, hv], by simp⟩
    · rw [List.concat_eq_append] at hrs
      subst hrs
      have hci0 : (init ++ [last]).length ≠ 0 := by simp
      have hlast : (init ++ [last])[(init ++ [last]).length - 1]? = some last := by
        have : (init ++ [last]).length - 1 = init.length := by simp
        rw [this]
        simp
      by_cases hl : last.«end» < i
      · exact ⟨(init ++ [last] ++ [Range.mk i (i + w)], (init ++ [last]).length + 1),
          by simp [changedStep, hget, hv, hlast, hl], by simp⟩
      · have hset : (init ++ [last]).set ((init ++ [last]).length - 1)
            (Range.mk last.start (i + w)) = init ++ [Range.mk last.start (i + w)] := by
          have : (init ++ [last]).length - 1 = init.length := by simp
          rw [this]
          simp
        refine ⟨(init ++ [Range.mk last.start (i + w)], (init ++ [last]).length), ?_, by simp⟩
        simp only [changedStep, hget, Option.bind_eq_bind, Option.some_bind, ne_eq, hv,
          not_false_eq_true, if_true, hci0, if_false, hlast, hl, hset, Option.pure_def]

/-- C21: the computation run by `Diff` completes for every baseline and every candidate,
with no index or slice out of range.  In detail: `applyRollingHash` completes exactly when
the window size is at most the length of the text; on two texts of equal length the two hash
sequences of `findChangedRanges` are equally long and every range it returns ends within the
texts; an iteration of its loop completes whenever `changedIndeces` is the length of
`rangesToCheck` and keeps it so; and for texts of equal length `n ≥ 8` within the stored
baseline, every coarse range is at least 8 long and ends within `n`, both of its slices
exist, and every range handed to `compareIndexes` ends within both texts, so that
`compareIndexes` completes. -/
theorem Diff_computation_is_total (rhs : FileDiffFinder) (u : GoString) :
    (∃ delta, diffBody rhs u = some delta ∧ Diff rhs none u = some (delta, none)) ∧
    (∀ (s : GoString) (w : Nat), 1 ≤ w → ((applyRollingHash s w).isSome ↔ w ≤ s.length)) ∧
    (∀ (a b : GoString) (w : Nat), 1 ≤ w → w ≤ a.length → a.length = b.length →
      ∃ ha hb rs, applyRollingHash a w = some ha ∧ applyRollingHash b w = some hb ∧
        ha.length = hb.length ∧ findChangedRanges a b w = some rs ∧
        ∀ r ∈ rs, r.start + w ≤ r.«end» ∧ r.«end» ≤ a.length) ∧
    (∀ (hu : List Int) (w : Nat) (rs : List Range) (i : Nat) (v x : Int), hu[i]? = some x →
      ∃ st, changedStep hu w (rs, rs.length) (i, v) = some st ∧ st.2 = st.1.length) ∧
    (∀ (o v : GoString) (n : Nat), o.length = n → v.length = n → 8 ≤ n →
      n ≤ rhs.Content.length →
      ∃ wide ranges us, findChangedRanges o v 8 = some wide ∧
        (∀ val ∈ wide, val.start + 8 ≤ val.«end» ∧ val.«end» ≤ n ∧
          (slice rhs.Content val.start val.«end»).isSome ∧
          (slice v val.start val.«end»).isSome) ∧
        findMinimalRanges rhs o v = some ranges ∧
        (∀ r ∈ ranges, r.«end» ≤ rhs.Content.length ∧ r.«end» ≤ v.length) ∧
        compareIndexes rhs ranges v = some us) := by
  refine ⟨?_, ?_, ?_, changedStep_succeeds, ?_⟩
  · obtain ⟨delta, hd⟩ := diffBody_total rhs u
    exact ⟨delta, hd, Diff_none_of_diffBody rhs u delta hd⟩
  · intro s w hw
    constructor
    · intro h
      by_contra hlt
      rw [applyRollingHash_none s w (by omega)] at h
      exact absurd h (by simp)
    · intro h
      rw [applyRollingHash_eq s w hw h]
      rfl
  · intro a b w hw h2 hlen
    obtain ⟨rs, hrs, hinv⟩ := findChangedRanges_spec a b w hw hlen h2
    refine ⟨_, _, rs, applyRollingHash_eq a w hw h2, applyRollingHash_eq b w hw (hlen ▸ h2),
      by simp [hlen], hrs, ?_⟩
    intro r hr
    have := hinv.bounds r hr
    omega
  · intro o v n ho hv hn hc
    obtain ⟨wide, hwide, hval, _, hr⟩ := findMinimalRanges_flatMap rhs o v n ho hv hn hc
    obtain ⟨wide2, ranges, hwide2, hr2, _, hb, _⟩ :=
      findMinimalRanges_spec rhs o v n ho hv hn hc
    have hb' : ∀ r ∈ ranges, r.«end» ≤ rhs.Content.length ∧ r.«end» ≤ v.length := by
      intro r hr'
      have := hb r hr'
      omega
    refine ⟨wide, ranges, _, hwide, ?_, hr2, hb', compareIndexes_eq rhs ranges v hb'⟩
    intro val hval'
    have h1 := hval val hval'
    obtain ⟨low, hs1, hs2, _⟩ := lowerRangesOf_spec rhs v val (by omega) (by omega) (by omega)
    exact ⟨h1.1, h1.2, by rw [hs1]; rfl, by rw [hs2]; rfl⟩

end DiffFinder
